import Mathlib

/-!
Verification of the network topology synthesizer of the Dynamic-Network-Model
repository (src/demo_data/generate_demo_data.py, function
generate_network_nodes_and_edges, together with the feeder generator
generate_feeders and the invariants checked by src/validate_demo_data.py).

Modelling conventions.

* Python floats are modelled as exact rationals (ℚ).  Python round(x, n)
  rounds half to even; it is modelled by pyRound below, exact on ℚ.
* The process-wide seeded random generator is modelled by an explicit oracle
  (structures Rnd and FeederRnd): every call site of random.uniform /
  random.random / random.choice / random.randint / random.shuffle reads its
  draw from a dedicated oracle field, indexed by the loop position of the
  call.  A theorem quantified over all oracles covers every outcome of the
  seeded source; an existential statement instantiates a concrete oracle and
  separately records that each used draw lies in the range the call site
  allows.
* math.sqrt is modelled by the oracle field sqrtq : ℚ → ℚ; statements that
  depend on its value carry the pointwise hypothesis that it is the exact
  square root of the (nonnegative) argument actually encountered.
* Node identifier strings (SUB-nnn, FDR-nnnn-HEAD, FDR-nnnn-TAIL,
  JCT-FDR-nnnn-kkk, FUSE-XFMR-nnnnnn, XFMR-nnnnnn, TIE-nnnn) are injective
  by their distinct prefixes and zero-padded numbers; they are modelled by
  the inductive type NodeId whose constructors mirror those prefixes.
* The empty string in the feeder_id column is modelled by none : Option ℕ.
-/

namespace DNM

/-- Round half to even to the nearest integer (the rounding used by Python
round), exact on ℚ. -/
def rhe (q : ℚ) : ℤ :=
  let f : ℤ := ⌊q⌋
  let fr : ℚ := q - (f : ℚ)
  if fr < 1/2 then f
  else if 1/2 < fr then f + 1
  else if f % 2 = 0 then f else f + 1

/-- Python round(q, nd): round half to even at nd decimal digits. -/
def pyRound (q : ℚ) (nd : ℕ) : ℚ := ((rhe (q * 10 ^ nd) : ℤ) : ℚ) / 10 ^ nd

theorem rhe_ge (q : ℚ) : q - 1/2 ≤ (rhe q : ℚ) := by
  simp only [rhe]
  have h1 := Int.floor_le q
  have h2 := Int.lt_floor_add_one q
  split_ifs with hf hg he <;> push_cast <;> linarith

theorem rhe_le (q : ℚ) : (rhe q : ℚ) ≤ q + 1/2 := by
  simp only [rhe]
  have h1 := Int.floor_le q
  have h2 := Int.lt_floor_add_one q
  split_ifs with hf hg he <;> push_cast <;> linarith

/-- pyRound moves its argument by at most half a unit in the last rounded
digit. -/
theorem pyRound_abs_sub_le (q : ℚ) (nd : ℕ) :
    |pyRound q nd - q| ≤ 1 / (2 * 10 ^ nd) := by
  have hpow : (0 : ℚ) < 10 ^ nd := by positivity
  have h1 := rhe_ge (q * 10 ^ nd)
  have h2 := rhe_le (q * 10 ^ nd)
  have key : |(rhe (q * 10 ^ nd) : ℚ) - q * 10 ^ nd| ≤ 1/2 :=
    abs_le.mpr ⟨by linarith, by linarith⟩
  have hrw : pyRound q nd - q = ((rhe (q * 10 ^ nd) : ℚ) - q * 10 ^ nd) / 10 ^ nd := by
    rw [pyRound]
    field_simp
    ring
  rw [hrw, abs_div, abs_of_pos hpow, div_le_div_iff hpow (by positivity)]
  calc |(rhe (q * 10 ^ nd) : ℚ) - q * 10 ^ nd| * (2 * 10 ^ nd)
      ≤ (1/2) * (2 * 10 ^ nd) := by
        apply mul_le_mul_of_nonneg_right key
        positivity
    _ = 1 * 10 ^ nd := by ring

theorem pyRound_ge (q : ℚ) (nd : ℕ) :
    q - 1 / (2 * 10 ^ nd) ≤ pyRound q nd := by
  have := pyRound_abs_sub_le q nd
  rw [abs_le] at this
  linarith [this.1]

theorem pyRound_le (q : ℚ) (nd : ℕ) :
    pyRound q nd ≤ q + 1 / (2 * 10 ^ nd) := by
  have := pyRound_abs_sub_le q nd
  rw [abs_le] at this
  linarith [this.2]

theorem rhe_int_le (z : ℤ) (q : ℚ) (h : (z : ℚ) ≤ q) : z ≤ rhe q := by
  have h1 := rhe_ge q
  have h2 : (z : ℚ) - 1 < (rhe q : ℚ) := by linarith
  have h3 : ((z - 1 : ℤ) : ℚ) < (rhe q : ℚ) := by push_cast; linarith
  have h4 : z - 1 < rhe q := by exact_mod_cast h3
  omega

theorem rhe_int_ge (z : ℤ) (q : ℚ) (h : q ≤ (z : ℚ)) : rhe q ≤ z := by
  have h1 := rhe_le q
  have h2 : (rhe q : ℚ) < (z : ℚ) + 1 := by linarith
  have h3 : (rhe q : ℚ) < ((z + 1 : ℤ) : ℚ) := by push_cast; linarith
  have h4 : rhe q < z + 1 := by exact_mod_cast h3
  omega

/-- If the operand is at least z / 10 ^ nd for an integer z, so is its
rounding. -/
theorem pyRound_ge_int_div (q : ℚ) (nd : ℕ) (z : ℤ)
    (h : (z : ℚ) / 10 ^ nd ≤ q) : (z : ℚ) / 10 ^ nd ≤ pyRound q nd := by
  have hpow : (0 : ℚ) < 10 ^ nd := by positivity
  have hz : (z : ℚ) ≤ q * 10 ^ nd := by
    rw [div_le_iff hpow] at h
    linarith
  have := rhe_int_le z (q * 10 ^ nd) hz
  rw [pyRound]
  gcongr


theorem pyRound_nonneg (q : ℚ) (nd : ℕ) (h : 0 ≤ q) : 0 ≤ pyRound q nd := by
  have := pyRound_ge_int_div q nd 0 (by simpa using h)
  simpa using this

/-! ## Data model

The graph records of generate_network_nodes_and_edges.  Field names follow
the CSV column names of network_nodes.csv / network_edges.csv. -/

/-- Node identifiers.  Each constructor models one of the id string formats
of the source: SUB-nnn, FDR-ffff-HEAD, FDR-ffff-TAIL, JCT-FDR-ffff-kkk,
FUSE-XFMR-xxxxxx, XFMR-xxxxxx, TIE-tttt. -/
inductive NodeId where
  | sub (i : ℕ)
  | head (f : ℕ)
  | tail (f : ℕ)
  | jct (f : ℕ) (k : ℕ)
  | fuse (x : ℕ)
  | xfmr (x : ℕ)
  | tie (t : ℕ)
deriving DecidableEq, Repr

inductive NodeType where
  | substationBus
  | feederBreaker
  | feederEndpoint
  | junction
  | protectiveDevice
  | transformer
  | tieSwitch
deriving DecidableEq, Repr

inductive EdgeType where
  | busTie
  | primaryOverhead
  | primaryUnderground
  | lateralOverhead
  | lateralUnderground
  | tie
deriving DecidableEq, Repr

def EdgeType.isTie : EdgeType → Bool
  | .tie => true
  | _ => false

def EdgeType.isLateral : EdgeType → Bool
  | .lateralOverhead => true
  | .lateralUnderground => true
  | _ => false

def EdgeType.isPrimary : EdgeType → Bool
  | .primaryOverhead => true
  | .primaryUnderground => true
  | _ => false

/-- A row of network_nodes.csv (feeder_id empty string is none). -/
structure Node where
  id : NodeId
  ty : NodeType
  subId : ℕ
  feederId : Option ℕ
  lat : ℚ
  lon : ℚ
  vKv : ℚ
  equip : String
  status : String
deriving DecidableEq, Repr

/-- A row of network_edges.csv. -/
structure Edge where
  num : ℕ
  fromId : NodeId
  toId : NodeId
  feederId : ℕ
  subId : ℕ
  ty : EdgeType
  conductor : String
  phase : String
  lengthMiles : ℚ
  lengthFt : ℚ
  rOhm : ℚ
  xOhm : ℚ
  z0Ohm : ℚ
  amps : ℚ
  vKv : ℚ
  nPhases : ℕ
  isOverhead : Bool
  status : String
deriving DecidableEq, Repr

/-- A row of substations.csv (fields used by the graph builder). -/
structure Substation where
  idx : ℕ
  lat : ℚ
  lon : ℚ
  vHighKv : ℚ
  capacityMva : ℚ
  status : String
deriving DecidableEq, Repr

/-- A row of feeders.csv (fields used by the graph builder). -/
structure Feeder where
  idx : ℕ
  subIdx : ℕ
  vKv : ℚ
  headLat : ℚ
  headLon : ℚ
  tailLat : ℚ
  tailLon : ℚ
  lengthMiles : ℚ
  conductor : String
  ratedMw : ℚ
deriving DecidableEq, Repr

/-- A row of transformers.csv (fields used by the graph builder). -/
structure Transformer where
  idx : ℕ
  fdrIdx : ℕ
  subIdx : ℕ
  lat : ℚ
  lon : ℚ
  kva : ℚ
  phase : String
  primaryKv : ℚ
  status : String
deriving DecidableEq, Repr

/-! ## Random oracle

Each record field stands for the draws consumed by one loop iteration of the
source; the indices identify the iteration. -/

/-- Draws consumed when a trunk junction is materialized at transformer
index idx of a feeder. -/
structure JctDraws where
  posJit : ℚ
  poleTop : Bool
  isOh : Bool
  jr : ℚ
  jx : ℚ
  jz : ℚ
deriving Repr

/-- Draws consumed by the lateral (fuse + transformer) edges of transformer
index idx of a feeder. -/
structure LatDraws where
  posJit : ℚ
  condIx : ℕ
  isOh : Bool
  jr1 : ℚ
  jx1 : ℚ
  jr2 : ℚ
  jx2 : ℚ
deriving Repr

/-- The random source of the graph builder, made explicit.  sqrtq models
math.sqrt. -/
structure Rnd where
  busTieJr : ℕ → ℚ
  busTieJx : ℕ → ℚ
  jct : ℕ → ℕ → JctDraws
  lat : ℕ → ℕ → LatDraws
  closingIsOh : ℕ → Bool
  closingJr : ℕ → ℚ
  closingJx : ℕ → ℚ
  sqrtq : ℚ → ℚ

/-! ## Grid constants and geometry helpers (Phoenix street grid model) -/

def MILE_LAT : ℚ := 0.01449
def MILE_LON : ℚ := 0.01737
def ORIGIN_LAT : ℚ := 33.4484
def ORIGIN_LON : ℚ := -112.0740

def round6 (q : ℚ) : ℚ := pyRound q 6

/-- point_along_route: linear interpolation plus one shared jitter draw
added to both coordinates, each rounded to 6 decimals. -/
def pointAlongRoute (lat1 lon1 lat2 lon2 frac jit : ℚ) : ℚ × ℚ :=
  (round6 (lat1 + frac * (lat2 - lat1) + jit),
   round6 (lon1 + frac * (lon2 - lon1) + jit))

/-! ## Conductor parameter tables -/

def conductorSpecs : List (String × (ℚ × ℚ × ℚ)) :=
  [("336 ACSR", (0.306, 0.444, 400)), ("477 ACSR", (0.216, 0.420, 530)),
   ("795 ACSR", (0.130, 0.390, 700)), ("1/0 AL", (0.592, 0.477, 230)),
   ("4/0 AL", (0.297, 0.434, 340)), ("397.5 AAC", (0.240, 0.430, 480))]

/-- conductor_specs.get(c, (0.25, 0.43, 400)). -/
def trunkSpec (c : String) : ℚ × ℚ × ℚ :=
  ((conductorSpecs.find? (fun p => p.1 == c)).map (·.2)).getD (0.25, 0.43, 400)

def lateralConductors : List String := ["1/0 AL", "4/0 AL", "#2 ACSR", "#4 CU"]

def lateralSpecs : List (String × (ℚ × ℚ × ℚ)) :=
  [("1/0 AL", (0.592, 0.477, 230)), ("4/0 AL", (0.297, 0.434, 340)),
   ("#2 ACSR", (0.895, 0.502, 150)), ("#4 CU", (1.503, 0.511, 100))]

/-- random.choice(lateral_conductors): the oracle supplies the choice index,
reduced mod 4 so it always denotes one of the four candidates. -/
def lateralChoice (ix : ℕ) : String :=
  (lateralConductors.getD (ix % 4) "1/0 AL")

/-- lateral_specs[c]; c is always one of the four keys, so the default is
never taken. -/
def lateralSpec (c : String) : ℚ × ℚ × ℚ :=
  ((lateralSpecs.find? (fun p => p.1 == c)).map (·.2)).getD (0, 0, 0)

/-- trunk_spacing = max(1, n // 8). -/
def trunkSpacing (n : ℕ) : ℕ := max 1 (n / 8)

/-- recloser_interval = max(1, n // 3). -/
def recloserInterval (n : ℕ) : ℕ := max 1 (n / 3)

/-! ## The graph builder (generate_network_nodes_and_edges) -/

/-- add_node: append the row unless a row with the same node_id was already
added. -/
def addNode (ns : List Node) (n : Node) : List Node :=
  if ns.any (fun m => decide (m.id = n.id)) then ns else ns ++ [n]

/-- Substation bus node row (nominal voltage is the high-side voltage,
feeder_id empty). -/
def subBusRow (s : Substation) : Node :=
  { id := .sub s.idx, ty := .substationBus, subId := s.idx, feederId := none,
    lat := s.lat, lon := s.lon, vKv := s.vHighKv, equip := "substation",
    status := s.status }

def headRow (f : Feeder) : Node :=
  { id := .head f.idx, ty := .feederBreaker, subId := f.subIdx,
    feederId := some f.idx, lat := f.headLat, lon := f.headLon, vKv := f.vKv,
    equip := "breaker", status := "closed" }

def tailRow (f : Feeder) : Node :=
  { id := .tail f.idx, ty := .feederEndpoint, subId := f.subIdx,
    feederId := some f.idx, lat := f.tailLat, lon := f.tailLon, vKv := f.vKv,
    equip := "open_point", status := "open" }

def xfmrRow (t : Transformer) : Node :=
  { id := .xfmr t.idx, ty := .transformer, subId := t.subIdx,
    feederId := some t.fdrIdx, lat := t.lat, lon := t.lon, vKv := t.primaryKv,
    equip := "distribution_transformer", status := t.status }

/-- The node rows created before any edge is built: substation buses, feeder
breakers and endpoints, transformers. -/
def preNodes (subs : List Substation) (feeders : List Feeder)
    (xfmrs : List Transformer) : List Node :=
  let ns := subs.foldl (fun ns s => addNode ns (subBusRow s)) []
  let ns := feeders.foldl (fun ns f => addNode (addNode ns (headRow f)) (tailRow f)) ns
  xfmrs.foldl (fun ns t => addNode ns (xfmrRow t)) ns

/-- Trunk junction bookkeeping: junction number within the feeder (1-based),
position and mile marker.  The list in the loop state is kept newest
first. -/
structure Jct where
  k : ℕ
  lat : ℚ
  lon : ℚ
  mile : ℚ
deriving DecidableEq, Repr

/-- Loop state while one feeder is processed (and, without jcts, across
feeders). -/
structure St where
  nodes : List Node
  edges : List Edge
  eNum : ℕ
  jcts : List Jct
deriving Repr

/-- The bus-tie edge of a feeder (substation bus → feeder breaker). -/
def busTieEdge (rnd : Rnd) (f : Feeder) (e : ℕ) : Edge :=
  let sp := trunkSpec f.conductor
  { num := e, fromId := .sub f.subIdx, toId := .head f.idx,
    feederId := f.idx, subId := f.subIdx, ty := .busTie,
    conductor := f.conductor, phase := "ABC",
    lengthMiles := 0.01, lengthFt := 52.8,
    rOhm := pyRound (sp.1 * rnd.busTieJr f.idx) 4,
    xOhm := pyRound (sp.2.1 * rnd.busTieJx f.idx) 4,
    z0Ohm := pyRound ((sp.1 + sp.2.1) * 0.5) 4,
    amps := sp.2.2, vKv := f.vKv, nPhases := 3, isOverhead := true,
    status := "closed" }

/-- The trunk edge emitted when a junction with number k is materialized at
transformer index idx (prev is the id and mile marker of the previous trunk
node). -/
def trunkEdgeOf (rnd : Rnd) (f : Feeder) (idx eNum : ℕ) (prev : NodeId × ℚ)
    (k : ℕ) (mile : ℚ) : Edge :=
  let sp := trunkSpec f.conductor
  let d := rnd.jct f.idx idx
  let segLen := pyRound (max (mile - prev.2) 0.01) 3
  { num := eNum, fromId := prev.1, toId := .jct f.idx k,
    feederId := f.idx, subId := f.subIdx,
    ty := if d.isOh then .primaryOverhead else .primaryUnderground,
    conductor := f.conductor, phase := "ABC",
    lengthMiles := segLen, lengthFt := pyRound (segLen * 5280) 1,
    rOhm := pyRound (sp.1 * d.jr) 4, xOhm := pyRound (sp.2.1 * d.jx) 4,
    z0Ohm := pyRound ((sp.1 + sp.2.1) * 0.5 * d.jz) 4,
    amps := sp.2.2, vKv := f.vKv, nPhases := 3, isOverhead := d.isOh,
    status := "closed" }

/-- The junction / trunk-edge half of one transformer-loop iteration. -/
def trunkPart (rnd : Rnd) (f : Feeder) (n : ℕ) (st : St) (idx : ℕ) : St :=
  if idx % trunkSpacing n = 0 then
    let frac : ℚ := ((idx : ℚ) + 1) / ((n : ℚ) + 1)
    let mile := pyRound (frac * f.lengthMiles) 2
    let d := rnd.jct f.idx idx
    let k := st.jcts.length + 1
    let tap := pointAlongRoute f.headLat f.headLon f.tailLat f.tailLon frac d.posJit
    let equip :=
      if 0 < idx ∧ idx % recloserInterval n = 0 then "recloser"
      else if k % 4 = 0 then "sectionalizer"
      else if d.poleTop then "pole_top" else "padmount"
    let jrow : Node :=
      { id := .jct f.idx k, ty := .junction, subId := f.subIdx,
        feederId := some f.idx, lat := tap.1, lon := tap.2, vKv := f.vKv,
        equip := equip, status := "active" }
    let prev : NodeId × ℚ :=
      match st.jcts with
      | [] => (.head f.idx, 0)
      | p :: _ => (.jct f.idx p.k, p.mile)
    { nodes := addNode st.nodes jrow,
      edges := st.edges ++ [trunkEdgeOf rnd f idx (st.eNum + 1) prev k mile],
      eNum := st.eNum + 1, jcts := ⟨k, tap.1, tap.2, mile⟩ :: st.jcts }
  else st

/-- The two lateral edges (junction → fuse, fuse → transformer) attaching
transformer t to the junction nearest. -/
def latEdgesOf (rnd : Rnd) (f : Feeder) (idx eNum : ℕ) (nearest : Jct)
    (t : Transformer) : Edge × Edge :=
  let d := rnd.lat f.idx idx
  let dsq := (t.lat - nearest.lat) ^ 2 + (t.lon - nearest.lon) ^ 2
  let latLen := pyRound (max (rnd.sqrtq dsq * 69) 0.001) 3
  let cond := lateralChoice d.condIx
  let ls := lateralSpec cond
  let nPh := min t.phase.length 3
  let ety : EdgeType := if d.isOh then .lateralOverhead else .lateralUnderground
  ({ num := eNum, fromId := .jct f.idx nearest.k, toId := .fuse t.idx,
     feederId := f.idx, subId := f.subIdx, ty := ety,
     conductor := cond, phase := t.phase,
     lengthMiles := pyRound (latLen * 0.15) 3,
     lengthFt := pyRound (latLen * 0.15 * 5280) 1,
     rOhm := pyRound (ls.1 * d.jr1) 4, xOhm := pyRound (ls.2.1 * d.jx1) 4,
     z0Ohm := pyRound ((ls.1 + ls.2.1) * 0.5) 4,
     amps := ls.2.2, vKv := f.vKv, nPhases := nPh, isOverhead := d.isOh,
     status := "closed" },
   { num := eNum + 1, fromId := .fuse t.idx, toId := .xfmr t.idx,
     feederId := f.idx, subId := f.subIdx, ty := ety,
     conductor := cond, phase := t.phase,
     lengthMiles := pyRound (latLen * 0.85) 3,
     lengthFt := pyRound (latLen * 0.85 * 5280) 1,
     rOhm := pyRound (ls.1 * d.jr2) 4, xOhm := pyRound (ls.2.1 * d.jx2) 4,
     z0Ohm := pyRound ((ls.1 + ls.2.1) * 0.5) 4,
     amps := ls.2.2, vKv := f.vKv, nPhases := nPh, isOverhead := d.isOh,
     status := "closed" })

/-- The fuse / lateral-edges half of one transformer-loop iteration.  If no
junction exists yet the source would fail on trunk_nodes[-1]; that branch is
modelled as a no-op and proved unreachable. -/
def latPart (rnd : Rnd) (f : Feeder) (st : St) (idx : ℕ) (t : Transformer) :
    St :=
  match st.jcts with
  | [] => st
  | nearest :: _ =>
      let d := rnd.lat f.idx idx
      let fusePt := pointAlongRoute nearest.lat nearest.lon t.lat t.lon 0.15 d.posJit
      let frow : Node :=
        { id := .fuse t.idx, ty := .protectiveDevice, subId := f.subIdx,
          feederId := some f.idx, lat := fusePt.1, lon := fusePt.2,
          vKv := f.vKv, equip := "fuse", status := "closed" }
      let es := latEdgesOf rnd f idx (st.eNum + 1) nearest t
      { nodes := addNode st.nodes frow,
        edges := st.edges ++ [es.1, es.2],
        eNum := st.eNum + 2, jcts := st.jcts }

def xfmrStep (rnd : Rnd) (f : Feeder) (n : ℕ) (st : St) (idx : ℕ)
    (t : Transformer) : St :=
  latPart rnd f (trunkPart rnd f n st idx) idx t

/-- The transformer loop of one feeder. -/
def xfmrLoop (rnd : Rnd) (f : Feeder) (n : ℕ) :
    ℕ → List Transformer → St → St
  | _, [], st => st
  | idx, t :: rest, st => xfmrLoop rnd f n (idx + 1) rest (xfmrStep rnd f n st idx t)

/-- The closing trunk edge from the last junction to the feeder endpoint
(status open). -/
def closingEdgeOf (rnd : Rnd) (f : Feeder) (eNum : ℕ) (last : Jct) : Edge :=
  let sp := trunkSpec f.conductor
  let segLen := pyRound (max (f.lengthMiles - last.mile) 0.01) 3
  let isOh := rnd.closingIsOh f.idx
  { num := eNum, fromId := .jct f.idx last.k, toId := .tail f.idx,
    feederId := f.idx, subId := f.subIdx,
    ty := if isOh then .primaryOverhead else .primaryUnderground,
    conductor := f.conductor, phase := "ABC",
    lengthMiles := segLen, lengthFt := pyRound (segLen * 5280) 1,
    rOhm := pyRound (sp.1 * rnd.closingJr f.idx) 4,
    xOhm := pyRound (sp.2.1 * rnd.closingJx f.idx) 4,
    z0Ohm := pyRound ((sp.1 + sp.2.1) * 0.5) 4,
    amps := sp.2.2, vKv := f.vKv, nPhases := 3, isOverhead := isOh,
    status := "open" }

def closingStep (rnd : Rnd) (f : Feeder) (st : St) : St :=
  match st.jcts with
  | [] => st
  | last :: _ =>
      { st with edges := st.edges ++ [closingEdgeOf rnd f (st.eNum + 1) last],
                eNum := st.eNum + 1 }

/-- Squared distance of a transformer from the head point of its feeder
(the sort key of the transformer loop). -/
def distSqFromHead (f : Feeder) (t : Transformer) : ℚ :=
  (t.lat - f.headLat) ^ 2 + (t.lon - f.headLon) ^ 2

/-- The edge pass of one feeder: bus tie, then (if the feeder owns
transformers) the transformer loop over the distance-sorted list and the
closing trunk segment. -/
def feederPass (rnd : Rnd) (xfmrs : List Transformer) (st : St) (f : Feeder) :
    St :=
  let st : St :=
    { st with
      edges := st.edges ++ [busTieEdge rnd f (st.eNum + 1)]
      eNum := st.eNum + 1
      jcts := [] }
  let xs := xfmrs.filter (fun t => t.fdrIdx == f.idx)
  if xs.isEmpty then st
  else
    let sorted := xs.insertionSort
      (fun a b => distSqFromHead f a ≤ distSqFromHead f b)
    closingStep rnd f (xfmrLoop rnd f xs.length 0 sorted st)

/-- The two tie edges (tail a → tie switch, tie switch → tail b) of one
qualifying feeder pair; both carry the conductor parameters of feeder a. -/
def tieEdgesOf (a b : Feeder) (eNum t : ℕ) (dist : ℚ) :
    Edge × Edge :=
  let tieLen := pyRound (dist / 2) 3
  let sp := trunkSpec a.conductor
  ({ num := eNum, fromId := .tail a.idx, toId := .tie t,
     feederId := a.idx, subId := a.subIdx, ty := .tie,
     conductor := a.conductor, phase := "ABC",
     lengthMiles := max tieLen 0.01,
     lengthFt := pyRound (max tieLen 0.01 * 5280) 1,
     rOhm := pyRound sp.1 4, xOhm := pyRound sp.2.1 4,
     z0Ohm := pyRound ((sp.1 + sp.2.1) * 0.5) 4,
     amps := sp.2.2, vKv := a.vKv, nPhases := 3, isOverhead := true,
     status := "open" },
   { num := eNum + 1, fromId := .tie t, toId := .tail b.idx,
     feederId := b.idx, subId := b.subIdx, ty := .tie,
     conductor := a.conductor, phase := "ABC",
     lengthMiles := max tieLen 0.01,
     lengthFt := pyRound (max tieLen 0.01 * 5280) 1,
     rOhm := pyRound sp.1 4, xOhm := pyRound sp.2.1 4,
     z0Ohm := pyRound ((sp.1 + sp.2.1) * 0.5) 4,
     amps := sp.2.2, vKv := b.vKv, nPhases := 3, isOverhead := true,
     status := "open" })

/-- One candidate pair of the tie pass.  The source computes
dist = sqrt(dsq) and skips the pair when dist > 1.5; tie_len = dist / 2. -/
def tiePairStep (rnd : Rnd) (a b : Feeder) (st : St) (tieNum : ℕ) :
    St × ℕ :=
  if a.vKv ≠ b.vKv then (st, tieNum)
  else
    let dsq := ((a.tailLat - b.tailLat) / MILE_LAT) ^ 2
      + ((a.tailLon - b.tailLon) / MILE_LON) ^ 2
    let dist := rnd.sqrtq dsq
    if 1.5 < dist then (st, tieNum)
    else
      let t := tieNum + 1
      let tieLat := pyRound ((a.tailLat + b.tailLat) / 2) 6
      let tieLon := pyRound ((a.tailLon + b.tailLon) / 2) 6
      let trow : Node :=
        { id := .tie t, ty := .tieSwitch, subId := a.subIdx,
          feederId := some a.idx, lat := tieLat, lon := tieLon, vKv := a.vKv,
          equip := "tie_switch", status := "open" }
      let es := tieEdgesOf a b (st.eNum + 1) t dist
      ({ nodes := addNode st.nodes trow, edges := st.edges ++ [es.1, es.2],
         eNum := st.eNum + 2, jcts := st.jcts }, t)

/-- Inner loop of the tie pass: pair feeder a with every later feeder. -/
def tieInner (rnd : Rnd) (a : Feeder) : List Feeder → St → ℕ → St × ℕ
  | [], st, tn => (st, tn)
  | b :: rest, st, tn =>
      let p := tiePairStep rnd a b st tn
      tieInner rnd a rest p.1 p.2

/-- The tie pass over all unordered pairs (in source iteration order). -/
def tiePass (rnd : Rnd) : List Feeder → St → ℕ → St × ℕ
  | [], st, tn => (st, tn)
  | a :: rest, st, tn =>
      let p := tieInner rnd a rest st tn
      tiePass rnd rest p.1 p.2

/-- generate_network_nodes_and_edges: the full graph builder. -/
def generateNetwork (rnd : Rnd) (subs : List Substation)
    (feeders : List Feeder) (xfmrs : List Transformer) :
    List Node × List Edge :=
  let st : St := { nodes := preNodes subs feeders xfmrs, edges := [],
                   eNum := 0, jcts := [] }
  let st := feeders.foldl (feederPass rnd xfmrs) st
  let p := tiePass rnd feeders st 0
  (p.1.nodes, p.1.edges)

/-! ## Undirected graph notions on edge-endpoint lists -/

/-- The endpoint pairs of an edge list (the graph structure of the edges,
forgetting all attributes). -/
def pairsOf (es : List Edge) : List (NodeId × NodeId) :=
  es.map (fun e => (e.fromId, e.toId))

/-- Undirected adjacency induced by a list of directed endpoint pairs. -/
def Adj (es : List (NodeId × NodeId)) (a b : NodeId) : Prop :=
  (a, b) ∈ es ∨ (b, a) ∈ es

theorem Adj.adj_symm {es : List (NodeId × NodeId)} {a b : NodeId}
    (h : Adj es a b) : Adj es b a := h.elim .inr .inl

theorem Adj.adj_weaken {es es' : List (NodeId × NodeId)} {a b : NodeId}
    (sub : ∀ p ∈ es, p ∈ es') (h : Adj es a b) : Adj es' a b :=
  h.elim (fun h1 => .inl (sub _ h1)) (fun h1 => .inr (sub _ h1))

/-- Reachability along undirected adjacency. -/
inductive Reach (es : List (NodeId × NodeId)) : NodeId → NodeId → Prop
  | refl (v : NodeId) : Reach es v v
  | step {a b c : NodeId} : Reach es a b → Adj es b c → Reach es a c

theorem Reach.reach_weaken {es es' : List (NodeId × NodeId)} {a b : NodeId}
    (sub : ∀ p ∈ es, p ∈ es') (h : Reach es a b) : Reach es' a b := by
  induction h with
  | refl => exact .refl _
  | step _ hadj ih => exact .step ih (hadj.adj_weaken sub)

theorem Reach.trans {es : List (NodeId × NodeId)} {a b c : NodeId}
    (h1 : Reach es a b) (h2 : Reach es b c) : Reach es a c := by
  induction h2 with
  | refl => exact h1
  | step _ hadj ih => exact .step ih hadj

theorem Reach.reach_symm {es : List (NodeId × NodeId)} {a b : NodeId}
    (h : Reach es a b) : Reach es b a := by
  induction h with
  | refl => exact .refl _
  | step _ hadj ih => exact Reach.trans (.step (.refl _) hadj.adj_symm) ih

/-- A simple cycle: at least 3 pairwise distinct vertices, cyclically
consecutive ones adjacent. -/
def IsCycle (es : List (NodeId × NodeId)) (l : List NodeId) : Prop :=
  3 ≤ l.length ∧ l.Nodup ∧
    ∀ i : Fin l.length,
      Adj es (l.get i) (l.get ⟨(i.val + 1) % l.length, Nat.mod_lt _ i.pos⟩)

/-- The vertex list referenced by an endpoint-pair list. -/
def vertsOf (es : List (NodeId × NodeId)) : List NodeId :=
  (es.map Prod.fst ++ es.map Prod.snd).dedup

/-- Incremental growth of a tree: starting from seen vertices vs, each
appended pair leads from a seen vertex to a fresh one. -/
inductive Grows : List NodeId → List (NodeId × NodeId) → List NodeId → Prop
  | nil (vs : List NodeId) : Grows vs [] vs
  | snoc {vs es vs' : _} {u w : NodeId} :
      Grows vs es vs' → u ∈ vs' → w ∉ vs' →
      Grows vs (es ++ [(u, w)]) (w :: vs')

theorem Grows.subset {vs es vs'} (h : Grows vs es vs') : ∀ v ∈ vs, v ∈ vs' := by
  induction h with
  | nil => exact fun v hv => hv
  | snoc _ _ _ ih => exact fun v hv => List.mem_cons_of_mem _ (ih v hv)

theorem Grows.length_eq {vs es vs'} (h : Grows vs es vs') :
    vs'.length = vs.length + es.length := by
  induction h with
  | nil => simp
  | snoc _ _ _ ih => simp [ih]; omega

theorem Grows.nodup {vs es vs'} (h : Grows vs es vs') (hn : vs.Nodup) :
    vs'.Nodup := by
  induction h with
  | nil => exact hn
  | snoc _ _ hw ih => exact List.Nodup.cons hw ih

theorem Grows.endpoints {vs es vs'} (h : Grows vs es vs') :
    ∀ p ∈ es, p.1 ∈ vs' ∧ p.2 ∈ vs' := by
  induction h with
  | nil => simp
  | snoc hg hu hw ih =>
      intro p hp
      rcases List.mem_append.mp hp with hold | hnew
      · have := ih p hold
        exact ⟨List.mem_cons_of_mem _ this.1, List.mem_cons_of_mem _ this.2⟩
      · simp only [List.mem_singleton] at hnew
        subst hnew
        exact ⟨List.mem_cons_of_mem _ hu, List.mem_cons_self _ _⟩

theorem Grows.mem_verts {vs es vs'} (h : Grows vs es vs') :
    ∀ v ∈ vs', v ∈ vs ∨ ∃ p ∈ es, v = p.1 ∨ v = p.2 := by
  induction h with
  | nil => exact fun v hv => .inl hv
  | snoc hg hu hw ih =>
      rename_i es1 vs1 u w
      intro v hv
      rcases List.mem_cons.mp hv with rfl | hv'
      · exact .inr ⟨(u, v), by simp, by simp⟩
      · rcases ih v hv' with h1 | ⟨p, hp, h2⟩
        · exact .inl h1
        · exact .inr ⟨p, List.mem_append_left _ hp, h2⟩

theorem Grows.reach {vs es vs'} (h : Grows vs es vs') :
    ∀ v ∈ vs', ∃ u ∈ vs, Reach es u v := by
  induction h with
  | nil => exact fun v hv => ⟨v, hv, .refl v⟩
  | snoc hg hu hw ih =>
      rename_i es1 vs1 u w
      intro v hv
      have sub : ∀ p ∈ es1, p ∈ es1 ++ [(u, w)] := fun p hp =>
        List.mem_append_left _ hp
      rcases List.mem_cons.mp hv with rfl | hv'
      · rcases ih u hu with ⟨u0, hu0, hr⟩
        exact ⟨u0, hu0, .step (hr.reach_weaken sub) (.inl (by simp))⟩
      · rcases ih v hv' with ⟨u0, hu0, hr⟩
        exact ⟨u0, hu0, hr.reach_weaken sub⟩

theorem Grows.no_self_loop {vs es vs'} (h : Grows vs es vs') :
    ∀ p ∈ es, p.1 ≠ p.2 := by
  induction h with
  | nil => simp
  | snoc hg hu hw ih =>
      rename_i es1 vs1 u w
      intro p hp
      rcases List.mem_append.mp hp with h1 | h1
      · exact ih p h1
      · simp only [List.mem_singleton] at h1
        subst h1
        intro hc
        simp only at hc
        exact hw (hc ▸ hu)

/-- No two (positions of) edges carry the same unordered endpoint pair. -/
theorem Grows.count_pair_le_one {vs es vs'} (h : Grows vs es vs')
    (a b : NodeId) :
    es.countP (fun p => decide (p = (a, b) ∨ p = (b, a))) ≤ 1 := by
  induction h with
  | nil => simp
  | snoc hg hu hw ih =>
      rename_i es1 vs1 u w
      rw [List.countP_append]
      by_cases hm : ((u, w) = (a, b) ∨ (u, w) = (b, a))
      · have hz : es1.countP (fun p => decide (p = (a, b) ∨ p = (b, a))) = 0 := by
          rw [List.countP_eq_zero]
          intro p hp
          have hpe := hg.endpoints p hp
          simp only [decide_eq_true_eq]
          rcases hm with hm | hm <;> injection hm with h1 h2 <;> subst h1 <;>
            subst h2 <;> rintro (rfl | rfl)
          · exact hw hpe.2
          · exact hw hpe.1
          · exact hw hpe.1
          · exact hw hpe.2
        have hone : [(u, w)].countP (fun p => decide (p = (a, b) ∨ p = (b, a))) ≤ 1 :=
          le_trans (List.countP_le_length _) (by simp)
        omega
      · have hz : [(u, w)].countP (fun p => decide (p = (a, b) ∨ p = (b, a))) = 0 := by
          simp only [List.countP, List.countP.go, decide_eq_true_eq]
          rw [decide_eq_false hm]
          rfl
        omega

/-- A simple cycle avoiding w is already a cycle without the edge (u, w). -/
theorem isCycle_of_append {es : List (NodeId × NodeId)} {u w : NodeId}
    {l : List NodeId} (hwl : w ∉ l) (hc : IsCycle (es ++ [(u, w)]) l) :
    IsCycle es l := by
  obtain ⟨h3, hnd, hadj⟩ := hc
  refine ⟨h3, hnd, fun i => ?_⟩
  rcases hadj i with h | h <;> rcases List.mem_append.mp h with h' | h'
  · exact .inl h'
  · exfalso
    simp only [List.mem_singleton, Prod.mk.injEq] at h'
    exact hwl (h'.2 ▸ List.get_mem l _ _)
  · exact .inr h'
  · exfalso
    simp only [List.mem_singleton, Prod.mk.injEq] at h'
    exact hwl (h'.2 ▸ List.get_mem l _ _)

/-- Every vertex of a simple cycle has two distinct neighbours. -/
theorem cycle_mem_two_adj {es : List (NodeId × NodeId)} {l : List NodeId}
    {v : NodeId} (hc : IsCycle es l) (hv : v ∈ l) :
    ∃ z₁ z₂ : NodeId, z₁ ≠ z₂ ∧ Adj es v z₁ ∧ Adj es v z₂ := by
  obtain ⟨h3, hnd, hadj⟩ := hc
  obtain ⟨i, rfl⟩ := List.mem_iff_get.mp hv
  have hn : 3 ≤ l.length := h3
  have hpos : 0 < l.length := by omega
  have hi : i.val < l.length := i.isLt
  have hsucc := hadj i
  have hpred := hadj ⟨(i.val + (l.length - 1)) % l.length, Nat.mod_lt _ hpos⟩
  have hjsucc : ((i.val + (l.length - 1)) % l.length + 1) % l.length = i.val := by
    rw [Nat.mod_add_mod]
    have h4 : i.val + (l.length - 1) + 1 = i.val + l.length := by omega
    rw [h4, Nat.add_mod_right, Nat.mod_eq_of_lt hi]
  have hget : l.get ⟨((i.val + (l.length - 1)) % l.length + 1) % l.length,
      Nat.mod_lt _ hpos⟩ = l.get i := by
    congr 1
    exact Fin.ext hjsucc
  rw [hget] at hpred
  refine ⟨l.get ⟨(i.val + 1) % l.length, Nat.mod_lt _ i.pos⟩,
    l.get ⟨(i.val + (l.length - 1)) % l.length, Nat.mod_lt _ hpos⟩, ?_, hsucc,
    hpred.symm⟩
  intro heq
  have hij := (List.Nodup.get_inj_iff hnd).mp heq
  have hij' : (i.val + 1) % l.length = (i.val + (l.length - 1)) % l.length := by
    simpa using congrArg Fin.val hij
  rcases Nat.lt_or_ge (i.val + 1) l.length with hlt | hge
  · rw [Nat.mod_eq_of_lt hlt] at hij'
    rcases Nat.eq_zero_or_pos i.val with h0 | hposI
    · rw [h0] at hij'
      have h5 : (0 + (l.length - 1)) % l.length = l.length - 1 := by
        rw [Nat.zero_add, Nat.mod_eq_of_lt (by omega)]
      rw [h5] at hij'
      omega
    · have h5 : (i.val + (l.length - 1)) % l.length = i.val - 1 := by
        have h1 : i.val + (l.length - 1) = (i.val - 1) + l.length := by omega
        rw [h1, Nat.add_mod_right, Nat.mod_eq_of_lt (by omega)]
      rw [h5] at hij'
      omega
  · have hiv : i.val + 1 = l.length := by omega
    have hs : (i.val + 1) % l.length = 0 := by rw [hiv, Nat.mod_self]
    have hp : (i.val + (l.length - 1)) % l.length = i.val - 1 := by
      have hposI : 0 < i.val := by omega
      have h1 : i.val + (l.length - 1) = (i.val - 1) + l.length := by omega
      rw [h1, Nat.add_mod_right, Nat.mod_eq_of_lt (by omega)]
    rw [hs, hp] at hij'
    omega

/-- Graphs built by leaf growth have no simple cycles. -/
theorem Grows.acyclic {vs es vs'} (h : Grows vs es vs') :
    ∀ l, ¬ IsCycle es l := by
  induction h with
  | nil =>
      intro l hc
      obtain ⟨h3, _, hadj⟩ := hc
      have hpos : 0 < l.length := by omega
      rcases hadj ⟨0, hpos⟩ with h | h <;> simp at h
  | snoc hg hu hw ih =>
      rename_i es1 vs1 u w
      intro l hc
      by_cases hwl : w ∈ l
      · obtain ⟨z₁, z₂, hne, h1, h2⟩ := cycle_mem_two_adj hc hwl
        have key : ∀ z, Adj (es1 ++ [(u, w)]) w z → z = u := by
          intro z hz
          rcases hz with hz | hz <;> rcases List.mem_append.mp hz with h' | h'
          · exact absurd (hg.endpoints _ h').1 hw
          · simp only [List.mem_singleton, Prod.mk.injEq] at h'
            exact absurd (h'.1 ▸ hu) hw
          · exact absurd (hg.endpoints _ h').2 hw
          · simp only [List.mem_singleton, Prod.mk.injEq] at h'
            exact h'.1
        exact hne ((key z₁ h1).trans (key z₂ h2).symm)
      · exact ih l (isCycle_of_append hwl hc)

/-! ## The per-feeder tree invariant -/

theorem pairsOf_append (a b : List Edge) :
    pairsOf (a ++ b) = pairsOf a ++ pairsOf b := List.map_append _ a b

/-- The junction numbers of the trunk-node list, newest first: c, c-1, …, 1. -/
def countdown : ℕ → List ℕ
  | 0 => []
  | c + 1 => (c + 1) :: countdown c

theorem countdown_length (c : ℕ) : (countdown c).length = c := by
  induction c with
  | zero => rfl
  | succ c ih => simp [countdown, ih]

theorem countdown_eq_nil_iff (c : ℕ) : countdown c = [] ↔ c = 0 := by
  cases c <;> simp [countdown]

/-- The node-id shapes that can occur among the vertices grown while a
feeder is processed (the endpoint and tie ids never do). -/
def VertOk (f : Feeder) (v : NodeId) : Prop :=
  v = .sub f.subIdx ∨ v = .head f.idx ∨ (∃ k, v = .jct f.idx k) ∨
    (∃ x, v = .fuse x) ∨ (∃ x, v = .xfmr x)

/-- Invariant of the transformer loop of feeder f: own is the list of edges
emitted for the feeder so far, V the grown vertex list, c the junction
count. -/
structure LoopInv (f : Feeder) (st : St) (own : List Edge) (V : List NodeId)
    (c : ℕ) : Prop where
  grows : Grows [NodeId.sub f.subIdx] (pairsOf own) V
  head_mem : NodeId.head f.idx ∈ V
  jcts_eq : st.jcts.map Jct.k = countdown c
  jct_mem : c ≠ 0 → NodeId.jct f.idx c ∈ V
  jct_bound : ∀ k, NodeId.jct f.idx k ∈ V → k ≤ c
  vert_ok : ∀ v ∈ V, VertOk f v
  own_feeder : ∀ e ∈ own, e.feederId = f.idx ∧ e.ty.isTie = false

/-- Number of lateral edges in a list. -/
def latCount (es : List Edge) : ℕ := es.countP (fun e => e.ty.isLateral)

theorem latCount_append (a b : List Edge) :
    latCount (a ++ b) = latCount a + latCount b := List.countP_append _ a b

theorem LoopInv.jcts_length {f st own V c} (inv : LoopInv f st own V c) :
    st.jcts.length = c := by
  have h := congrArg List.length inv.jcts_eq
  simpa [countdown_length] using h

/-- Processing the junction half of a loop iteration preserves the
invariant; afterwards at least one junction exists. -/
theorem trunkPart_inv (rnd : Rnd) (f : Feeder) (n : ℕ) (st : St) (idx : ℕ)
    (E0 own : List Edge) (V : List NodeId) (c : ℕ)
    (hE : st.edges = E0 ++ own) (inv : LoopInv f st own V c)
    (hc : idx % trunkSpacing n = 0 ∨ c ≠ 0) :
    ∃ own' V' c', (trunkPart rnd f n st idx).edges = E0 ++ own' ∧
      LoopInv f (trunkPart rnd f n st idx) own' V' c' ∧ c' ≠ 0 ∧
      latCount own' = latCount own ∧
      (∀ v ∈ V', v ∈ V ∨ v = NodeId.jct f.idx c') ∧
      (∃ ext, own' = own ++ ext) := by
  by_cases h : idx % trunkSpacing n = 0
  · have hlen := inv.jcts_length
    set mileE : ℚ :=
      pyRound ((((idx : ℚ) + 1) / ((n : ℚ) + 1)) * f.lengthMiles) 2 with hmile
    set tapE : ℚ × ℚ := pointAlongRoute f.headLat f.headLon f.tailLat
      f.tailLon (((idx : ℚ) + 1) / ((n : ℚ) + 1)) (rnd.jct f.idx idx).posJit
      with htap
    set prevE : NodeId × ℚ :=
      (match st.jcts with
       | [] => (NodeId.head f.idx, 0)
       | p :: _ => (NodeId.jct f.idx p.k, p.mile)) with hprev
    have hedges : (trunkPart rnd f n st idx).edges =
        st.edges ++ [trunkEdgeOf rnd f idx (st.eNum + 1) prevE
          (st.jcts.length + 1) mileE] := by
      simp only [trunkPart, if_pos h]
    have hjcts : (trunkPart rnd f n st idx).jcts =
        ⟨st.jcts.length + 1, tapE.1, tapE.2, mileE⟩ :: st.jcts := by
      simp only [trunkPart, if_pos h]
    have hu : prevE.1 ∈ V := by
      rw [hprev]
      cases hj : st.jcts with
      | nil =>
          have hc0 : c = 0 := by
            have := inv.jcts_eq
            rw [hj] at this
            simpa [countdown_eq_nil_iff] using this.symm
          exact inv.head_mem
      | cons p rest =>
          have hk : p.k = c := by
            have := inv.jcts_eq
            rw [hj] at this
            cases c with
            | zero => simp [countdown] at this
            | succ c0 =>
                simp only [countdown, List.map_cons, List.cons.injEq] at this
                exact this.1
          have hcne : c ≠ 0 := by
            have := inv.jcts_eq
            rw [hj] at this
            intro h0
            rw [h0] at this
            simp [countdown] at this
          simp only [hk]
          exact inv.jct_mem hcne
    have hwfresh : NodeId.jct f.idx (c + 1) ∉ V := by
      intro hmem
      have := inv.jct_bound _ hmem
      omega
    refine ⟨own ++ [trunkEdgeOf rnd f idx (st.eNum + 1) prevE
        (st.jcts.length + 1) mileE], NodeId.jct f.idx (c + 1) :: V, c + 1,
      ?_, ?_, by omega, ?_, ?_, ⟨_, rfl⟩⟩
    · rw [hedges, hE, List.append_assoc]
    · constructor
      · rw [pairsOf_append]
        have hp : pairsOf [trunkEdgeOf rnd f idx (st.eNum + 1) prevE
            (st.jcts.length + 1) mileE] =
            [(prevE.1, NodeId.jct f.idx (c + 1))] := by
          simp [pairsOf, trunkEdgeOf, hlen]
        rw [hp]
        exact inv.grows.snoc hu hwfresh
      · exact List.mem_cons_of_mem _ inv.head_mem
      · rw [hjcts]
        simp only [List.map_cons]
        rw [inv.jcts_eq, hlen]
        rfl
      · intro _
        exact List.mem_cons_self _ _
      · intro k hk
        rcases List.mem_cons.mp hk with he | hm
        · simp only [NodeId.jct.injEq] at he
          omega
        · have := inv.jct_bound _ hm
          omega
      · intro v hv
        rcases List.mem_cons.mp hv with rfl | hm
        · exact .inr (.inr (.inl ⟨c + 1, rfl⟩))
        · exact inv.vert_ok _ hm
      · intro e he
        rcases List.mem_append.mp he with hm | hm
        · exact inv.own_feeder _ hm
        · simp only [List.mem_singleton] at hm
          subst hm
          constructor
          · rfl
          · simp only [trunkEdgeOf]
            cases (rnd.jct f.idx idx).isOh <;> rfl
    · rw [latCount_append]
      have : latCount [trunkEdgeOf rnd f idx (st.eNum + 1) prevE
          (st.jcts.length + 1) mileE] = 0 := by
        simp only [latCount, List.countP, List.countP.go, trunkEdgeOf]
        cases (rnd.jct f.idx idx).isOh <;> rfl
      rw [this]
      omega
    · intro v hv
      rcases List.mem_cons.mp hv with rfl | hm
      · exact .inr rfl
      · exact .inl hm
  · have hcne : c ≠ 0 := hc.resolve_left h
    have hid : trunkPart rnd f n st idx = st := by
      simp only [trunkPart, if_neg h]
    rw [hid]
    exact ⟨own, V, c, hE, inv, hcne, rfl, fun v hv => .inl hv,
      ⟨[], (List.append_nil own).symm⟩⟩

/-- Attaching a transformer through a fuse preserves the invariant (given a
junction already exists). -/
theorem latPart_inv (rnd : Rnd) (f : Feeder) (st : St) (idx : ℕ)
    (t : Transformer) (E0 own : List Edge) (V : List NodeId) (c : ℕ)
    (hE : st.edges = E0 ++ own) (inv : LoopInv f st own V c) (hc : c ≠ 0)
    (hfrF : NodeId.fuse t.idx ∉ V) (hfrX : NodeId.xfmr t.idx ∉ V) :
    ∃ own' V', (latPart rnd f st idx t).edges = E0 ++ own' ∧
      LoopInv f (latPart rnd f st idx t) own' V' c ∧
      latCount own' = latCount own + 2 ∧
      (∀ v ∈ V', v ∈ V ∨ v = .fuse t.idx ∨ v = .xfmr t.idx) ∧
      (∃ ext, own' = own ++ ext) := by
  cases hj : st.jcts with
  | nil =>
      exfalso
      have := inv.jcts_eq
      rw [hj] at this
      have hc0 : c = 0 := by simpa [countdown_eq_nil_iff] using this.symm
      exact hc hc0
  | cons nearest rest =>
      have hk : nearest.k = c := by
        have := inv.jcts_eq
        rw [hj] at this
        cases c with
        | zero => simp [countdown] at this
        | succ c0 =>
            simp only [countdown, List.map_cons, List.cons.injEq] at this
            exact this.1
      have hedges : (latPart rnd f st idx t).edges =
          st.edges ++ [(latEdgesOf rnd f idx (st.eNum + 1) nearest t).1,
            (latEdgesOf rnd f idx (st.eNum + 1) nearest t).2] := by
        simp only [latPart, hj]
      have hjcts : (latPart rnd f st idx t).jcts = st.jcts := by
        simp only [latPart, hj]
      set e1 := (latEdgesOf rnd f idx (st.eNum + 1) nearest t).1 with he1
      set e2 := (latEdgesOf rnd f idx (st.eNum + 1) nearest t).2 with he2
      have hp1 : (e1.fromId, e1.toId) = (NodeId.jct f.idx c, NodeId.fuse t.idx) := by
        rw [he1]
        simp [latEdgesOf, hk]
      have hp2 : (e2.fromId, e2.toId) = (NodeId.fuse t.idx, NodeId.xfmr t.idx) := by
        rw [he2]
        simp [latEdgesOf]
      have hg1 : Grows [NodeId.sub f.subIdx]
          (pairsOf own ++ [(NodeId.jct f.idx c, NodeId.fuse t.idx)])
          (NodeId.fuse t.idx :: V) :=
        inv.grows.snoc (inv.jct_mem hc) hfrF
      have hfrX2 : NodeId.xfmr t.idx ∉ NodeId.fuse t.idx :: V := by
        intro hm
        rcases List.mem_cons.mp hm with he | hm
        · cases he
        · exact hfrX hm
      have hg2 : Grows [NodeId.sub f.subIdx]
          ((pairsOf own ++ [(NodeId.jct f.idx c, NodeId.fuse t.idx)]) ++
            [(NodeId.fuse t.idx, NodeId.xfmr t.idx)])
          (NodeId.xfmr t.idx :: NodeId.fuse t.idx :: V) :=
        hg1.snoc (List.mem_cons_self _ _) hfrX2
      have hpair : pairsOf (own ++ [e1, e2]) =
          (pairsOf own ++ [(NodeId.jct f.idx c, NodeId.fuse t.idx)]) ++
            [(NodeId.fuse t.idx, NodeId.xfmr t.idx)] := by
        rw [pairsOf_append, List.append_assoc]
        congr 1
        · simp only [pairsOf, List.map_cons, List.map_nil]
          rw [hp1, hp2]
          rfl
      have hlat : ∀ e ∈ [e1, e2], e.feederId = f.idx ∧ e.ty.isTie = false ∧
          e.ty.isLateral = true := by
        intro e he
        have hfi : ∀ b : Bool,
            (if b then EdgeType.lateralOverhead else EdgeType.lateralUnderground).isTie
              = false ∧
            (if b then EdgeType.lateralOverhead else EdgeType.lateralUnderground).isLateral
              = true := by
          intro b
          cases b <;> exact ⟨rfl, rfl⟩
        rcases List.mem_cons.mp he with rfl | he
        · exact ⟨rfl, hfi (rnd.lat f.idx idx).isOh⟩
        · simp only [List.mem_singleton] at he
          subst he
          exact ⟨rfl, hfi (rnd.lat f.idx idx).isOh⟩
      refine ⟨own ++ [e1, e2], NodeId.xfmr t.idx :: NodeId.fuse t.idx :: V,
        ?_, ?_, ?_, ?_, ⟨_, rfl⟩⟩
      · rw [hedges, hE, List.append_assoc]
      · constructor
        · rw [hpair]
          exact hg2
        · exact List.mem_cons_of_mem _ (List.mem_cons_of_mem _ inv.head_mem)
        · rw [hjcts]
          exact inv.jcts_eq
        · intro hcc
          exact List.mem_cons_of_mem _ (List.mem_cons_of_mem _ (inv.jct_mem hcc))
        · intro k hkm
          rcases List.mem_cons.mp hkm with he | hkm
          · cases he
          rcases List.mem_cons.mp hkm with he | hkm
          · cases he
          exact inv.jct_bound _ hkm
        · intro v hv
          rcases List.mem_cons.mp hv with rfl | hv
          · exact .inr (.inr (.inr (.inr ⟨t.idx, rfl⟩)))
          rcases List.mem_cons.mp hv with rfl | hv
          · exact .inr (.inr (.inr (.inl ⟨t.idx, rfl⟩)))
          exact inv.vert_ok _ hv
        · intro e he
          rcases List.mem_append.mp he with hm | hm
          · exact inv.own_feeder _ hm
          · exact ⟨(hlat _ hm).1, (hlat _ hm).2.1⟩
      · rw [latCount_append]
        have h2 : latCount [e1, e2] = 2 := by
          have c1 := (hlat e1 (by simp)).2.2
          have c2 := (hlat e2 (by simp)).2.2
          simp [latCount, List.countP, List.countP.go, c1, c2]
        omega
      · intro v hv
        rcases List.mem_cons.mp hv with rfl | hv
        · exact .inr (.inr rfl)
        rcases List.mem_cons.mp hv with rfl | hv
        · exact .inr (.inl rfl)
        exact .inl hv

/-- One full transformer-loop iteration preserves the invariant. -/
theorem xfmrStep_inv (rnd : Rnd) (f : Feeder) (n : ℕ) (st : St) (idx : ℕ)
    (t : Transformer) (E0 own : List Edge) (V : List NodeId) (c : ℕ)
    (hE : st.edges = E0 ++ own) (inv : LoopInv f st own V c)
    (hc : idx % trunkSpacing n = 0 ∨ c ≠ 0)
    (hfrF : NodeId.fuse t.idx ∉ V) (hfrX : NodeId.xfmr t.idx ∉ V) :
    ∃ own' V' c', (xfmrStep rnd f n st idx t).edges = E0 ++ own' ∧
      LoopInv f (xfmrStep rnd f n st idx t) own' V' c' ∧ c' ≠ 0 ∧
      latCount own' = latCount own + 2 ∧
      (∀ v ∈ V', v ∈ V ∨ v = NodeId.jct f.idx c' ∨ v = .fuse t.idx ∨
        v = .xfmr t.idx) ∧
      (∃ ext, own' = own ++ ext) := by
  obtain ⟨own1, V1, c1, hE1, inv1, hc1, hl1, hm1, ext1, hx1⟩ :=
    trunkPart_inv rnd f n st idx E0 own V c hE inv hc
  have hfrF1 : NodeId.fuse t.idx ∉ V1 := by
    intro hm
    rcases hm1 _ hm with hm | he
    · exact hfrF hm
    · cases he
  have hfrX1 : NodeId.xfmr t.idx ∉ V1 := by
    intro hm
    rcases hm1 _ hm with hm | he
    · exact hfrX hm
    · cases he
  obtain ⟨own2, V2, hE2, inv2, hl2, hm2, ext2, hx2⟩ :=
    latPart_inv rnd f (trunkPart rnd f n st idx) idx t E0 own1 V1 c1 hE1
      inv1 hc1 hfrF1 hfrX1
  refine ⟨own2, V2, c1, hE2, inv2, hc1, by omega, ?_,
    ⟨ext1 ++ ext2, by rw [hx2, hx1, List.append_assoc]⟩⟩
  intro v hv
  rcases hm2 _ hv with hv1 | hv1
  · rcases hm1 _ hv1 with hv2 | hv2
    · exact .inl hv2
    · exact .inr (.inl hv2)
  · exact .inr (.inr hv1)

/-- The transformer loop preserves the invariant and emits two lateral
edges per transformer. -/
theorem xfmrLoop_inv (rnd : Rnd) (f : Feeder) (n : ℕ)
    (rem : List Transformer) :
    ∀ (idx : ℕ) (st : St) (E0 own : List Edge) (V : List NodeId) (c : ℕ),
      st.edges = E0 ++ own →
      LoopInv f st own V c →
      (∀ t ∈ rem, NodeId.fuse t.idx ∉ V ∧ NodeId.xfmr t.idx ∉ V) →
      (rem.map Transformer.idx).Nodup →
      (idx % trunkSpacing n = 0 ∨ c ≠ 0) →
      ∃ own' V' c',
        (xfmrLoop rnd f n idx rem st).edges = E0 ++ own' ∧
        LoopInv f (xfmrLoop rnd f n idx rem st) own' V' c' ∧
        ((c ≠ 0 ∨ rem ≠ []) → c' ≠ 0) ∧
        latCount own' = latCount own + 2 * rem.length ∧
        (∃ ext, own' = own ++ ext) := by
  induction rem with
  | nil =>
      intro idx st E0 own V c hE inv hfr hnd hc
      refine ⟨own, V, c, hE, inv, ?_, by simp,
        ⟨[], (List.append_nil own).symm⟩⟩
      intro h
      rcases h with h | h
      · exact h
      · simp at h
  | cons t rest ih =>
      intro idx st E0 own V c hE inv hfr hnd hc
      obtain ⟨own1, V1, c1, hE1, inv1, hc1, hl1, hm1, ext1, hx1⟩ :=
        xfmrStep_inv rnd f n st idx t E0 own V c hE inv hc
          (hfr t (by simp)).1 (hfr t (by simp)).2
      have hndrest : (rest.map Transformer.idx).Nodup := by
        simp only [List.map_cons, List.nodup_cons] at hnd
        exact hnd.2
      have htne : ∀ t' ∈ rest, t'.idx ≠ t.idx := by
        intro t' ht' he
        simp only [List.map_cons, List.nodup_cons] at hnd
        exact hnd.1 (he ▸ List.mem_map_of_mem Transformer.idx ht')
      have hfr1 : ∀ t' ∈ rest, NodeId.fuse t'.idx ∉ V1 ∧
          NodeId.xfmr t'.idx ∉ V1 := by
        intro t' ht'
        constructor
        · intro hm
          rcases hm1 _ hm with hm | hm | hm | hm
          · exact (hfr t' (by simp [ht'])).1 hm
          · cases hm
          · simp only [NodeId.fuse.injEq] at hm
            exact htne t' ht' hm
          · cases hm
        · intro hm
          rcases hm1 _ hm with hm | hm | hm | hm
          · exact (hfr t' (by simp [ht'])).2 hm
          · cases hm
          · cases hm
          · simp only [NodeId.xfmr.injEq] at hm
            exact htne t' ht' hm
      obtain ⟨own2, V2, c2, hE2, inv2, hc2, hl2, ext2, hx2⟩ :=
        ih (idx + 1) (xfmrStep rnd f n st idx t) E0 own1 V1 c1 hE1 inv1
          hfr1 hndrest (.inr hc1)
      refine ⟨own2, V2, c2, ?_, ?_, ?_, ?_,
        ⟨ext1 ++ ext2, by rw [hx2, hx1, List.append_assoc]⟩⟩
      · exact hE2
      · exact inv2
      · intro _
        exact hc2 (.inl hc1)
      · rw [hl2, hl1]
        simp only [List.length_cons]
        ring

/-- A vertex grown for a feeder is never its endpoint node. -/
theorem VertOk.ne_tail {f : Feeder} {v : NodeId} (h : VertOk f v) :
    v ≠ NodeId.tail f.idx := by
  rcases h with h | h | ⟨k, h⟩ | ⟨x, h⟩ | ⟨x, h⟩ <;> subst h <;> intro hc <;>
    cases hc

/-- Per-feeder specification: the edge pass of feeder f appends a block of
edges all carrying its feeder id, none of type tie, whose endpoint pairs
grow a tree from the substation bus; the block starts with the bus tie,
and when the feeder owns transformers it contains two lateral edges per
transformer plus an open closing trunk segment into the endpoint. -/
theorem feederPass_spec (rnd : Rnd) (xfmrs : List Transformer) (st : St)
    (f : Feeder)
    (hnd : ((xfmrs.filter (fun t => t.fdrIdx == f.idx)).map
      Transformer.idx).Nodup) :
    ∃ own V,
      (feederPass rnd xfmrs st f).edges = st.edges ++ own ∧
      (∀ e ∈ own, e.feederId = f.idx ∧ e.ty.isTie = false) ∧
      Grows [NodeId.sub f.subIdx] (pairsOf own) V ∧
      (NodeId.sub f.subIdx, NodeId.head f.idx) ∈ pairsOf own ∧
      ((xfmrs.filter (fun t => t.fdrIdx == f.idx)).isEmpty = true →
        own = [busTieEdge rnd f (st.eNum + 1)]) ∧
      ((xfmrs.filter (fun t => t.fdrIdx == f.idx)).isEmpty = false →
        latCount own =
          2 * (xfmrs.filter (fun t => t.fdrIdx == f.idx)).length ∧
        ∃ m, m ≠ 0 ∧ ∃ e ∈ own, e.fromId = NodeId.jct f.idx m ∧
          e.toId = NodeId.tail f.idx ∧ e.status = "open" ∧
          e.ty.isPrimary = true) := by
  set xs := xfmrs.filter (fun t => t.fdrIdx == f.idx) with hxs
  set bt := busTieEdge rnd f (st.eNum + 1) with hbt
  set st0 : St :=
    { st with
      edges := st.edges ++ [bt]
      eNum := st.eNum + 1
      jcts := [] } with hst0
  have hgrows0 : Grows [NodeId.sub f.subIdx] (pairsOf [bt])
      [NodeId.head f.idx, NodeId.sub f.subIdx] := by
    have hp : pairsOf [bt] = [] ++ [(NodeId.sub f.subIdx, NodeId.head f.idx)] := by
      simp [pairsOf, hbt, busTieEdge]
    rw [hp]
    exact (Grows.nil _).snoc (by simp) (by simp)
  have hinv0 : LoopInv f st0 [bt] [NodeId.head f.idx, NodeId.sub f.subIdx] 0 :=
    { grows := hgrows0
      head_mem := by simp
      jcts_eq := by simp [hst0, countdown]
      jct_mem := fun hc => absurd rfl hc
      jct_bound := by
        intro k hk
        rcases List.mem_cons.mp hk with he | hk
        · cases he
        rcases List.mem_cons.mp hk with he | hk
        · cases he
        simp at hk
      vert_ok := by
        intro v hv
        rcases List.mem_cons.mp hv with rfl | hv
        · exact .inr (.inl rfl)
        rcases List.mem_cons.mp hv with rfl | hv
        · exact .inl rfl
        simp at hv
      own_feeder := by
        intro e he
        simp only [List.mem_singleton] at he
        subst he
        exact ⟨rfl, rfl⟩ }
  have hfirst : (NodeId.sub f.subIdx, NodeId.head f.idx) ∈ pairsOf [bt] := by
    simp [pairsOf, hbt, busTieEdge]
  by_cases hxe : xs.isEmpty
  · have hfp : feederPass rnd xfmrs st f = st0 := by
      simp only [feederPass, hst0, hbt]
      rw [← hxs, if_pos hxe]
    refine ⟨[bt], [NodeId.head f.idx, NodeId.sub f.subIdx], ?_, hinv0.own_feeder,
      hgrows0, hfirst, fun _ => rfl, fun hf => absurd hxe (by simp [hf])⟩
    rw [hfp]
  · have hfp : feederPass rnd xfmrs st f = closingStep rnd f
        (xfmrLoop rnd f xs.length 0
          (xs.insertionSort (fun a b => distSqFromHead f a ≤ distSqFromHead f b))
          st0) := by
      simp only [feederPass, hst0, hbt]
      rw [← hxs, if_neg hxe]
    set sorted := xs.insertionSort
      (fun a b => distSqFromHead f a ≤ distSqFromHead f b) with hsorted
    have hperm : sorted.Perm xs := List.perm_insertionSort _ _
    have hndsorted : (sorted.map Transformer.idx).Nodup :=
      ((hperm.map Transformer.idx).nodup_iff).mpr hnd
    have hfr0 : ∀ t ∈ sorted, NodeId.fuse t.idx ∉
        [NodeId.head f.idx, NodeId.sub f.subIdx] ∧ NodeId.xfmr t.idx ∉
        [NodeId.head f.idx, NodeId.sub f.subIdx] := by
      intro t _
      constructor <;> · intro hm; simp at hm
    have hzero : 0 % trunkSpacing xs.length = 0 ∨ (0 : ℕ) ≠ 0 :=
      .inl (Nat.zero_mod _)
    obtain ⟨own1, V1, c1, hE1, inv1, hc1, hl1, ext1, hx1⟩ :=
      xfmrLoop_inv rnd f xs.length sorted 0 st0 st.edges [bt]
        [NodeId.head f.idx, NodeId.sub f.subIdx] 0 (by simp [hst0]) hinv0
        hfr0 hndsorted hzero
    have hxne : xs ≠ [] := by
      intro h0
      rw [h0] at hxe
      simp at hxe
    have hc1' : c1 ≠ 0 := by
      apply hc1
      right
      intro hs
      have hlen := hperm.length_eq
      rw [hs] at hlen
      simp only [List.length_nil] at hlen
      exact hxne (List.length_eq_zero.mp hlen.symm)
    set stL := xfmrLoop rnd f xs.length 0 sorted st0 with hstL
    cases hj : stL.jcts with
    | nil =>
        exfalso
        have := inv1.jcts_eq
        rw [hj] at this
        exact hc1' (by simpa [countdown_eq_nil_iff] using this.symm)
    | cons last rest =>
        have hlk : last.k = c1 := by
          have := inv1.jcts_eq
          rw [hj] at this
          cases c1 with
          | zero => exact absurd rfl hc1'
          | succ c0 =>
              simp only [countdown, List.map_cons, List.cons.injEq] at this
              exact this.1
        set ce := closingEdgeOf rnd f (stL.eNum + 1) last with hce
        have hedges : (closingStep rnd f stL).edges = stL.edges ++ [ce] := by
          simp only [closingStep, hj, hce]
        have hpc : (ce.fromId, ce.toId) =
            (NodeId.jct f.idx c1, NodeId.tail f.idx) := by
          rw [hce]
          simp [closingEdgeOf, hlk]
        have htail : NodeId.tail f.idx ∉ V1 := by
          intro hm
          exact (inv1.vert_ok _ hm).ne_tail rfl
        have hgrows2 : Grows [NodeId.sub f.subIdx] (pairsOf (own1 ++ [ce]))
            (NodeId.tail f.idx :: V1) := by
          have hp : pairsOf (own1 ++ [ce]) =
              pairsOf own1 ++ [(NodeId.jct f.idx c1, NodeId.tail f.idx)] := by
            rw [pairsOf_append]
            congr 1
            simp only [pairsOf, List.map_cons, List.map_nil]
            rw [hpc]
          rw [hp]
          exact inv1.grows.snoc (inv1.jct_mem hc1') htail
        refine ⟨own1 ++ [ce], NodeId.tail f.idx :: V1, ?_, ?_, hgrows2, ?_,
          ?_, ?_⟩
        · rw [hfp, hedges, hE1, List.append_assoc]
        · intro e he
          rcases List.mem_append.mp he with hm | hm
          · exact inv1.own_feeder _ hm
          · simp only [List.mem_singleton] at hm
            subst hm
            refine ⟨rfl, ?_⟩
            rw [hce]
            simp only [closingEdgeOf]
            cases rnd.closingIsOh f.idx <;> rfl
        · rw [pairsOf_append]
          apply List.mem_append_left
          rw [hx1, pairsOf_append]
          exact List.mem_append_left _ hfirst
        · intro hxee
          exact absurd hxee hxe
        · intro _
          constructor
          · rw [latCount_append, hl1]
            have hcl : latCount [ce] = 0 := by
              rw [hce]
              simp only [latCount, List.countP, List.countP.go, closingEdgeOf]
              cases rnd.closingIsOh f.idx <;> rfl
            have hbt1 : latCount [bt] = 0 := by
              rw [hbt]
              simp [latCount, List.countP, List.countP.go, busTieEdge,
                EdgeType.isLateral]
            rw [hcl, hbt1]
            have := hperm.length_eq
            omega
          · refine ⟨c1, hc1', ce, List.mem_append_right _ (by simp), ?_, ?_,
              ?_, ?_⟩
            · rw [hce]; simp [closingEdgeOf, hlk]
            · rw [hce]; simp [closingEdgeOf]
            · rw [hce]; simp [closingEdgeOf]
            · rw [hce]
              simp only [closingEdgeOf]
              cases rnd.closingIsOh f.idx <;> rfl

/-! ## Assembling the whole builder -/

/-- Edge filter selecting the non-tie subgraph of one feeder id. -/
def ownFilter (g : ℕ) (e : Edge) : Bool := e.feederId == g && !e.ty.isTie

/-- The endpoint pairs of the non-tie edges carrying feeder id g. -/
def nonTiePairs (es : List Edge) (g : ℕ) : List (NodeId × NodeId) :=
  pairsOf (es.filter (ownFilter g))

theorem tiePairStep_edges (rnd : Rnd) (a b : Feeder) (st : St) (tn : ℕ) :
    ∃ ext, (tiePairStep rnd a b st tn).1.edges = st.edges ++ ext ∧
      ∀ e ∈ ext, e.ty = .tie ∧ (e.feederId = a.idx ∨ e.feederId = b.idx) := by
  by_cases hv : a.vKv ≠ b.vKv
  · refine ⟨[], ?_, by simp⟩
    simp [tiePairStep, if_pos hv]
  · by_cases hd : (1.5 : ℚ) < rnd.sqrtq
        (((a.tailLat - b.tailLat) / MILE_LAT) ^ 2 +
          ((a.tailLon - b.tailLon) / MILE_LON) ^ 2)
    · refine ⟨[], ?_, by simp⟩
      simp only [tiePairStep, if_neg hv]
      rw [if_pos hd]
      simp
    · set dst := rnd.sqrtq (((a.tailLat - b.tailLat) / MILE_LAT) ^ 2 +
        ((a.tailLon - b.tailLon) / MILE_LON) ^ 2) with hdst
      refine ⟨[(tieEdgesOf a b (st.eNum + 1) (tn + 1) dst).1,
        (tieEdgesOf a b (st.eNum + 1) (tn + 1) dst).2], ?_, ?_⟩
      · simp only [tiePairStep, if_neg hv]
        rw [if_neg hd]
      · intro e he
        rcases List.mem_cons.mp he with rfl | he
        · exact ⟨rfl, .inl rfl⟩
        · simp only [List.mem_singleton] at he
          subst he
          exact ⟨rfl, .inr rfl⟩

theorem tieInner_edges (rnd : Rnd) (a : Feeder) :
    ∀ (bs : List Feeder) (st : St) (tn : ℕ),
      ∃ ext, (tieInner rnd a bs st tn).1.edges = st.edges ++ ext ∧
        ∀ e ∈ ext, e.ty = .tie ∧
          (e.feederId = a.idx ∨ ∃ b ∈ bs, e.feederId = b.idx) := by
  intro bs
  induction bs with
  | nil =>
      intro st tn
      exact ⟨[], by simp [tieInner], by simp⟩
  | cons b rest ih =>
      intro st tn
      obtain ⟨ext1, he1, hp1⟩ := tiePairStep_edges rnd a b st tn
      obtain ⟨ext2, he2, hp2⟩ := ih (tiePairStep rnd a b st tn).1
        (tiePairStep rnd a b st tn).2
      refine ⟨ext1 ++ ext2, ?_, ?_⟩
      · simp only [tieInner]
        rw [he2, he1, List.append_assoc]
      · intro e he
        rcases List.mem_append.mp he with hm | hm
        · obtain ⟨ht, hf⟩ := hp1 e hm
          refine ⟨ht, hf.imp_right ?_⟩
          intro h
          exact ⟨b, List.mem_cons_self _ _, h⟩
        · obtain ⟨ht, hf⟩ := hp2 e hm
          refine ⟨ht, hf.imp_right ?_⟩
          rintro ⟨b1, hb1, h⟩
          exact ⟨b1, List.mem_cons_of_mem _ hb1, h⟩

theorem tiePass_edges (rnd : Rnd) :
    ∀ (fs : List Feeder) (st : St) (tn : ℕ),
      ∃ ext, (tiePass rnd fs st tn).1.edges = st.edges ++ ext ∧
        ∀ e ∈ ext, e.ty = .tie ∧ ∃ b ∈ fs, e.feederId = b.idx := by
  intro fs
  induction fs with
  | nil =>
      intro st tn
      exact ⟨[], by simp [tiePass], by simp⟩
  | cons a rest ih =>
      intro st tn
      obtain ⟨ext1, he1, hp1⟩ := tieInner_edges rnd a rest st tn
      obtain ⟨ext2, he2, hp2⟩ := ih (tieInner rnd a rest st tn).1
        (tieInner rnd a rest st tn).2
      refine ⟨ext1 ++ ext2, ?_, ?_⟩
      · simp only [tiePass]
        rw [he2, he1, List.append_assoc]
      · intro e he
        rcases List.mem_append.mp he with hm | hm
        · obtain ⟨ht, hf⟩ := hp1 e hm
          refine ⟨ht, ?_⟩
          rcases hf with h | ⟨b, hb, h⟩
          · exact ⟨a, List.mem_cons_self _ _, h⟩
          · exact ⟨b, List.mem_cons_of_mem _ hb, h⟩
        · obtain ⟨ht, hf⟩ := hp2 e hm
          obtain ⟨b, hb, h⟩ := hf
          exact ⟨ht, b, List.mem_cons_of_mem _ hb, h⟩

/-- Every non-tie edge filter ignores tie edges. -/
theorem ownFilter_tie {g : ℕ} {e : Edge} (h : e.ty = .tie) :
    ownFilter g e = false := by
  simp [ownFilter, h, EdgeType.isTie]

theorem filter_append_none {g : ℕ} (es ext : List Edge)
    (h : ∀ e ∈ ext, ownFilter g e = false) :
    (es ++ ext).filter (ownFilter g) = es.filter (ownFilter g) := by
  rw [List.filter_append]
  have : ext.filter (ownFilter g) = [] := List.filter_eq_nil.mpr
    (fun e he => by simp [h e he])
  rw [this, List.append_nil]

theorem nodup_filter_idx (xfmrs : List Transformer)
    (hx : (xfmrs.map Transformer.idx).Nodup) (p : Transformer → Bool) :
    ((xfmrs.filter p).map Transformer.idx).Nodup :=
  hx.sublist ((List.filter_sublist _).map _)

theorem generateNetwork_edges (rnd : Rnd) (subs : List Substation)
    (feeders : List Feeder) (xfmrs : List Transformer) :
    (generateNetwork rnd subs feeders xfmrs).2 =
      (tiePass rnd feeders (feeders.foldl (feederPass rnd xfmrs)
        { nodes := preNodes subs feeders xfmrs, edges := [], eNum := 0,
          jcts := [] }) 0).1.edges := rfl

theorem generateNetwork_nodes (rnd : Rnd) (subs : List Substation)
    (feeders : List Feeder) (xfmrs : List Transformer) :
    (generateNetwork rnd subs feeders xfmrs).1 =
      (tiePass rnd feeders (feeders.foldl (feederPass rnd xfmrs)
        { nodes := preNodes subs feeders xfmrs, edges := [], eNum := 0,
          jcts := [] }) 0).1.nodes := rfl

/-- Feeder blocks of other feeders contribute nothing to the non-tie edge
filter of feeder id g. -/
theorem foldl_feederPass_no_match (rnd : Rnd) (xfmrs : List Transformer)
    (hx : (xfmrs.map Transformer.idx).Nodup) :
    ∀ (fs : List Feeder) (st : St) (g : ℕ),
      (∀ f1 ∈ fs, f1.idx ≠ g) →
      ((fs.foldl (feederPass rnd xfmrs) st).edges).filter (ownFilter g) =
        st.edges.filter (ownFilter g) := by
  intro fs
  induction fs with
  | nil => intro st g _; rfl
  | cons f rest ih =>
      intro st g hne
      obtain ⟨own, V, hE, hprops, _, _, _, _⟩ :=
        feederPass_spec rnd xfmrs st f (nodup_filter_idx xfmrs hx _)
      simp only [List.foldl_cons]
      rw [ih (feederPass rnd xfmrs st f) g
        (fun f1 h1 => hne f1 (List.mem_cons_of_mem _ h1)), hE,
        filter_append_none]
      intro e he
      have := (hprops e he).1
      simp [ownFilter, this, hne f (List.mem_cons_self _ _)]

/-- The non-tie filter of feeder f0 over the whole per-feeder edge pass is
exactly the block built for f0. -/
theorem foldl_feederPass_own (rnd : Rnd) (xfmrs : List Transformer)
    (hx : (xfmrs.map Transformer.idx).Nodup) :
    ∀ (fs : List Feeder) (st : St) (f0 : Feeder),
      f0 ∈ fs → (fs.map Feeder.idx).Nodup →
      st.edges.filter (ownFilter f0.idx) = [] →
      ∃ own V e0,
        ((fs.foldl (feederPass rnd xfmrs) st).edges).filter
          (ownFilter f0.idx) = own ∧
        (∀ e ∈ own, e.feederId = f0.idx ∧ e.ty.isTie = false) ∧
        Grows [NodeId.sub f0.subIdx] (pairsOf own) V ∧
        (NodeId.sub f0.subIdx, NodeId.head f0.idx) ∈ pairsOf own ∧
        ((xfmrs.filter (fun t => t.fdrIdx == f0.idx)).isEmpty = true →
          own = [busTieEdge rnd f0 e0]) ∧
        ((xfmrs.filter (fun t => t.fdrIdx == f0.idx)).isEmpty = false →
          latCount own =
            2 * (xfmrs.filter (fun t => t.fdrIdx == f0.idx)).length ∧
          ∃ m, m ≠ 0 ∧ ∃ e ∈ own, e.fromId = NodeId.jct f0.idx m ∧
            e.toId = NodeId.tail f0.idx ∧ e.status = "open" ∧
            e.ty.isPrimary = true) := by
  intro fs
  induction fs with
  | nil => intro st f0 h; simp at h
  | cons f rest ih =>
      intro st f0 hmem hnd hfilter
      simp only [List.map_cons, List.nodup_cons] at hnd
      obtain ⟨own, V, hE, hprops, hgrows, hfirst, hempty, hnonempty⟩ :=
        feederPass_spec rnd xfmrs st f (nodup_filter_idx xfmrs hx _)
      rcases List.mem_cons.mp hmem with rfl | hmem'
      · -- f0 is processed first; later blocks do not match
        have hother : ∀ f1 ∈ rest, f1.idx ≠ f0.idx := by
          intro f1 h1 he
          exact hnd.1 (he ▸ List.mem_map_of_mem Feeder.idx h1)
        refine ⟨own, V, st.eNum + 1, ?_, hprops, hgrows, hfirst, hempty,
          hnonempty⟩
        simp only [List.foldl_cons]
        rw [foldl_feederPass_no_match rnd xfmrs hx rest _ f0.idx hother, hE,
          List.filter_append, hfilter, List.nil_append]
        apply List.filter_eq_self.mpr
        intro e he
        obtain ⟨h1, h2⟩ := hprops e he
        simp [ownFilter, h1, h2]
      · -- f0 comes later; the block of f does not match
        have hfne : f.idx ≠ f0.idx := by
          intro he
          exact hnd.1 (he ▸ List.mem_map_of_mem Feeder.idx hmem')
        have hfilter1 : (feederPass rnd xfmrs st f).edges.filter
            (ownFilter f0.idx) = [] := by
          rw [hE, List.filter_append, hfilter, List.nil_append]
          apply List.filter_eq_nil.mpr
          intro e he
          have := (hprops e he).1
          simp [ownFilter, this, hfne]
        simp only [List.foldl_cons]
        exact ih (feederPass rnd xfmrs st f) f0 hmem' hnd.2 hfilter1

/-- Every edge of the builder output carries the feeder id of one of the
input feeders. -/
theorem foldl_feederPass_sources (rnd : Rnd) (xfmrs : List Transformer)
    (hx : (xfmrs.map Transformer.idx).Nodup) :
    ∀ (fs : List Feeder) (st : St),
      ∀ e ∈ (fs.foldl (feederPass rnd xfmrs) st).edges,
        e ∈ st.edges ∨ ∃ f0 ∈ fs, e.feederId = f0.idx := by
  intro fs
  induction fs with
  | nil => intro st e he; exact .inl he
  | cons f rest ih =>
      intro st e he
      obtain ⟨own, V, hE, hprops, _, _, _, _⟩ :=
        feederPass_spec rnd xfmrs st f (nodup_filter_idx xfmrs hx _)
      simp only [List.foldl_cons] at he
      rcases ih (feederPass rnd xfmrs st f) e he with hm | ⟨f0, h0, h1⟩
      · rw [hE] at hm
        rcases List.mem_append.mp hm with hm | hm
        · exact .inl hm
        · exact .inr ⟨f, List.mem_cons_self _ _, (hprops e hm).1⟩
      · exact .inr ⟨f0, List.mem_cons_of_mem _ h0, h1⟩

theorem mem_vertsOf {es : List (NodeId × NodeId)} {v : NodeId} :
    v ∈ vertsOf es ↔ ∃ p ∈ es, v = p.1 ∨ v = p.2 := by
  simp only [vertsOf, List.mem_dedup, List.mem_append, List.mem_map]
  constructor
  · rintro (⟨p, hp, rfl⟩ | ⟨p, hp, rfl⟩)
    · exact ⟨p, hp, .inl rfl⟩
    · exact ⟨p, hp, .inr rfl⟩
  · rintro ⟨p, hp, rfl | rfl⟩
    · exact .inl ⟨p, hp, rfl⟩
    · exact .inr ⟨p, hp, rfl⟩

/-- All tree properties of a graph grown from a root that is referenced by
some edge. -/
theorem Grows.tree_package {r : NodeId} {es : List (NodeId × NodeId)}
    {V : List NodeId} (h : Grows [r] es V)
    (hr : ∃ p ∈ es, p.1 = r ∨ p.2 = r) :
    (vertsOf es).toFinset.card = es.length + 1 ∧
    (∀ v ∈ vertsOf es, ∀ w ∈ vertsOf es, Reach es v w) ∧
    (∀ l, ¬ IsCycle es l) ∧
    (∀ p ∈ es, p.1 ≠ p.2) ∧
    (∀ a b, es.countP (fun p => decide (p = (a, b) ∨ p = (b, a))) ≤ 1) := by
  have hsub : ∀ v ∈ vertsOf es, v ∈ V := by
    intro v hv
    obtain ⟨p, hp, hor⟩ := mem_vertsOf.mp hv
    have := h.endpoints p hp
    rcases hor with rfl | rfl
    · exact this.1
    · exact this.2
  have hsup : ∀ v ∈ V, v ∈ vertsOf es := by
    intro v hv
    rcases h.mem_verts v hv with hm | ⟨p, hp, hor⟩
    · simp only [List.mem_singleton] at hm
      subst hm
      obtain ⟨p, hp, hor⟩ := hr
      apply mem_vertsOf.mpr
      exact ⟨p, hp, hor.imp (fun h1 => h1.symm) (fun h1 => h1.symm)⟩
    · exact mem_vertsOf.mpr ⟨p, hp, hor⟩
  have hfs : (vertsOf es).toFinset = V.toFinset := by
    ext v
    simp only [List.mem_toFinset]
    exact ⟨hsub v, hsup v⟩
  refine ⟨?_, ?_, fun l => h.acyclic l, h.no_self_loop, h.count_pair_le_one⟩
  · rw [hfs, List.toFinset_card_of_nodup (h.nodup (by simp)), h.length_eq]
    simp [Nat.add_comm]
  · intro v hv w hw
    obtain ⟨u1, hu1, hrv⟩ := h.reach v (hsub v hv)
    obtain ⟨u2, hu2, hrw⟩ := h.reach w (hsub w hw)
    simp only [List.mem_singleton] at hu1 hu2
    subst hu1
    subst hu2
    exact hrv.reach_symm.trans hrw

/-! ## Concrete instances used by witnesses and counterexamples -/

/-- A deterministic oracle: all jitters zero, all multiplicative draws one,
everything overhead; sqrtq is zero everywhere (a legal value only where the
argument is zero, which the statements using rnd0 ensure). -/
def rnd0 : Rnd :=
  { busTieJr := fun _ => 1, busTieJx := fun _ => 1,
    jct := fun _ _ => ⟨0, true, true, 1, 1, 1⟩,
    lat := fun _ _ => ⟨0, 0, true, 1, 1, 1, 1⟩,
    closingIsOh := fun _ => true,
    closingJr := fun _ => 1, closingJx := fun _ => 1,
    sqrtq := fun _ => 0 }

def sub1 : Substation := ⟨1, 33.4484, -112.074, 69, 20, "active"⟩

def fdrA : Feeder :=
  ⟨1, 1, 12.47, 33.4484, -112.074, 33.5, -112.074, 4, "336 ACSR", 10⟩

/-- C1.  For every feeder_id appearing in the generated network_edges
table, the undirected graph formed by the non-tie edges carrying that
feeder_id (vertices being the node ids those edges reference) is a tree:
the vertex count exceeds the edge count by one, every two referenced
vertices are connected, and there is no simple cycle, no self-loop and no
repeated undirected edge.  This holds for every feeder, including feeders
with zero or one transformer, for every outcome of the random source. -/
theorem claim_c1_feeder_subgraph_is_tree (rnd : Rnd)
    (subs : List Substation) (feeders : List Feeder)
    (xfmrs : List Transformer)
    (hf : (feeders.map Feeder.idx).Nodup)
    (hx : (xfmrs.map Transformer.idx).Nodup)
    (g : ℕ)
    (hg : g ∈ (generateNetwork rnd subs feeders xfmrs).2.map Edge.feederId) :
    (vertsOf (nonTiePairs (generateNetwork rnd subs feeders xfmrs).2
        g)).toFinset.card =
      (nonTiePairs (generateNetwork rnd subs feeders xfmrs).2 g).length + 1 ∧
    (∀ v ∈ vertsOf (nonTiePairs (generateNetwork rnd subs feeders xfmrs).2 g),
      ∀ w ∈ vertsOf (nonTiePairs (generateNetwork rnd subs feeders xfmrs).2 g),
        Reach (nonTiePairs (generateNetwork rnd subs feeders xfmrs).2 g) v w) ∧
    (∀ l, ¬ IsCycle (nonTiePairs (generateNetwork rnd subs feeders xfmrs).2 g) l) ∧
    (∀ p ∈ nonTiePairs (generateNetwork rnd subs feeders xfmrs).2 g,
      p.1 ≠ p.2) ∧
    (∀ a b, (nonTiePairs (generateNetwork rnd subs feeders xfmrs).2 g).countP
      (fun p => decide (p = (a, b) ∨ p = (b, a))) ≤ 1) := by
  set st0 : St :=
    { nodes := preNodes subs feeders xfmrs
      edges := []
      eNum := 0
      jcts := [] } with hst0
  set stF := feeders.foldl (feederPass rnd xfmrs) st0 with hstF
  obtain ⟨tieExt, hte, htie⟩ := tiePass_edges rnd feeders stF 0
  -- the feeder id g is the id of an input feeder
  obtain ⟨e, he, hefid⟩ := List.mem_map.mp hg
  simp only [generateNetwork_edges, ← hst0, ← hstF, hte] at he
  have hsrc : ∃ f0 ∈ feeders, f0.idx = g := by
    rcases List.mem_append.mp he with hm | hm
    · rcases foldl_feederPass_sources rnd xfmrs hx feeders st0 e hm with
        h0 | ⟨f0, h0, h1⟩
      · simp [hst0] at h0
      · exact ⟨f0, h0, h1 ▸ hefid⟩
    · obtain ⟨_, b, hb, h1⟩ := htie e hm
      exact ⟨b, hb, h1 ▸ hefid⟩
  obtain ⟨f0, hf0, rfl⟩ := hsrc
  -- the non-tie filter of the output is the block built for f0
  have hfilter : (generateNetwork rnd subs feeders xfmrs).2.filter
      (ownFilter f0.idx) = stF.edges.filter (ownFilter f0.idx) := by
    rw [generateNetwork_edges]
    rw [show (List.foldl (feederPass rnd xfmrs)
      { nodes := preNodes subs feeders xfmrs, edges := [], eNum := 0,
        jcts := [] } feeders) = stF from (hst0 ▸ hstF).symm, hte]
    exact filter_append_none _ _ (fun e1 he1 => ownFilter_tie (htie e1 he1).1)
  obtain ⟨own, V, e0, hown, hprops, hgrows, hfirst, _, _⟩ :=
    foldl_feederPass_own rnd xfmrs hx feeders st0 f0 hf0 hf (by simp [hst0])
  rw [← hstF] at hown
  have hP : nonTiePairs (generateNetwork rnd subs feeders xfmrs).2 f0.idx =
      pairsOf own := by
    rw [nonTiePairs, hfilter, hown]
  rw [hP]
  exact hgrows.tree_package ⟨_, hfirst, .inl rfl⟩

/-- Witness for C1 at a one-substation, one-feeder, zero-transformer
input. -/
theorem claim_c1_witness :
    (([fdrA].map Feeder.idx).Nodup ∧
      (([] : List Transformer).map Transformer.idx).Nodup ∧
      1 ∈ (generateNetwork rnd0 [sub1] [fdrA] []).2.map Edge.feederId) ∧
    (∀ l, ¬ IsCycle (nonTiePairs (generateNetwork rnd0 [sub1] [fdrA] []).2
      1) l) := by
  have h1 : ([fdrA].map Feeder.idx).Nodup := by simp [fdrA]
  have h2 : (([] : List Transformer).map Transformer.idx).Nodup := by simp
  have h3 : 1 ∈ (generateNetwork rnd0 [sub1] [fdrA] []).2.map Edge.feederId := by
    simp [generateNetwork, feederPass, tiePass, tieInner, busTieEdge, fdrA]
  exact ⟨⟨h1, h2, h3⟩,
    (claim_c1_feeder_subgraph_is_tree rnd0 [sub1] [fdrA] [] h1 h2 1 h3).2.2.1⟩

def xfmr1 : Transformer := ⟨1, 1, 1, 33.46, -112.074, 50, "ABC", 12.47, "active"⟩

/-- C10.  trunk_spacing = max(1, n // 8) is at least 1, so transformer
index 0 always materializes a junction; hence the lateral attachment to
the most recently created junction never reads from an empty junction list
(every transformer of the feeder yields its two lateral edges), and the
closing trunk edge from the last junction to the feeder endpoint is always
emitted for a feeder with at least one transformer. -/
theorem claim_c10_first_junction_guard (rnd : Rnd) (subs : List Substation)
    (feeders : List Feeder) (xfmrs : List Transformer)
    (hf : (feeders.map Feeder.idx).Nodup)
    (hx : (xfmrs.map Transformer.idx).Nodup)
    (f0 : Feeder) (hf0 : f0 ∈ feeders)
    (hne : (xfmrs.filter (fun t => t.fdrIdx == f0.idx)).isEmpty = false) :
    (∀ n : ℕ, 1 ≤ trunkSpacing n ∧ 0 % trunkSpacing n = 0) ∧
    latCount ((generateNetwork rnd subs feeders xfmrs).2.filter
        (ownFilter f0.idx)) =
      2 * (xfmrs.filter (fun t => t.fdrIdx == f0.idx)).length ∧
    (∃ m, m ≠ 0 ∧ ∃ e ∈ (generateNetwork rnd subs feeders xfmrs).2,
      e.fromId = NodeId.jct f0.idx m ∧ e.toId = NodeId.tail f0.idx ∧
      e.status = "open" ∧ e.ty.isPrimary = true) := by
  set st0 : St :=
    { nodes := preNodes subs feeders xfmrs
      edges := []
      eNum := 0
      jcts := [] } with hst0
  set stF := feeders.foldl (feederPass rnd xfmrs) st0 with hstF
  obtain ⟨tieExt, hte, htie⟩ := tiePass_edges rnd feeders stF 0
  have hfilter : (generateNetwork rnd subs feeders xfmrs).2.filter
      (ownFilter f0.idx) = stF.edges.filter (ownFilter f0.idx) := by
    rw [generateNetwork_edges]
    rw [show (List.foldl (feederPass rnd xfmrs)
      { nodes := preNodes subs feeders xfmrs, edges := [], eNum := 0,
        jcts := [] } feeders) = stF from (hst0 ▸ hstF).symm, hte]
    exact filter_append_none _ _ (fun e1 he1 => ownFilter_tie (htie e1 he1).1)
  obtain ⟨own, V, e0, hown, hprops, hgrows, hfirst, _, hnonempty⟩ :=
    foldl_feederPass_own rnd xfmrs hx feeders st0 f0 hf0 hf (by simp [hst0])
  rw [← hstF] at hown
  obtain ⟨hcount, m, hm, e, hclose, hc1, hc2, hc3, hc4⟩ := hnonempty hne
  refine ⟨fun n => ⟨Nat.le_max_left _ _, Nat.zero_mod _⟩, ?_, m, hm, e, ?_,
    hc1, hc2, hc3, hc4⟩
  · rw [hfilter, hown, hcount]
  · have : e ∈ (generateNetwork rnd subs feeders xfmrs).2.filter
        (ownFilter f0.idx) := by
      rw [hfilter, hown]
      exact hclose
    exact List.mem_of_mem_filter this

/-- Witness for C10 at a one-feeder, one-transformer input. -/
theorem claim_c10_witness :
    (([fdrA].map Feeder.idx).Nodup ∧
      ([xfmr1].map Transformer.idx).Nodup ∧ fdrA ∈ [fdrA] ∧
      ([xfmr1].filter (fun t => t.fdrIdx == fdrA.idx)).isEmpty = false) ∧
    ((∀ n : ℕ, 1 ≤ trunkSpacing n ∧ 0 % trunkSpacing n = 0) ∧
      latCount ((generateNetwork rnd0 [sub1] [fdrA] [xfmr1]).2.filter
          (ownFilter fdrA.idx)) =
        2 * ([xfmr1].filter (fun t => t.fdrIdx == fdrA.idx)).length ∧
      (∃ m, m ≠ 0 ∧ ∃ e ∈ (generateNetwork rnd0 [sub1] [fdrA] [xfmr1]).2,
        e.fromId = NodeId.jct fdrA.idx m ∧ e.toId = NodeId.tail fdrA.idx ∧
        e.status = "open" ∧ e.ty.isPrimary = true)) := by
  have h1 : ([fdrA].map Feeder.idx).Nodup := by simp [fdrA]
  have h2 : ([xfmr1].map Transformer.idx).Nodup := by simp [xfmr1]
  have h3 : fdrA ∈ [fdrA] := List.mem_singleton.mpr rfl
  have h4 : ([xfmr1].filter (fun t => t.fdrIdx == fdrA.idx)).isEmpty = false := by
    simp [xfmr1, fdrA]
  exact ⟨⟨h1, h2, h3, h4⟩,
    claim_c10_first_junction_guard rnd0 [sub1] [fdrA] [xfmr1] h1 h2 fdrA h3 h4⟩

/-! ## Node-table lemmas -/

theorem addNode_mem {ns : List Node} {n m : Node}
    (h : m ∈ addNode ns n) : m ∈ ns ∨ m = n := by
  unfold addNode at h
  split_ifs at h with hc
  · exact .inl h
  · rcases List.mem_append.mp h with h1 | h1
    · exact .inl h1
    · simp only [List.mem_singleton] at h1
      exact .inr h1

theorem addNode_subset {ns : List Node} {n : Node} : ∀ m ∈ ns, m ∈ addNode ns n := by
  intro m hm
  unfold addNode
  split_ifs with hc
  · exact hm
  · exact List.mem_append_left _ hm

theorem addNode_fresh {ns : List Node} {n : Node}
    (h : ∀ m ∈ ns, m.id ≠ n.id) : addNode ns n = ns ++ [n] := by
  unfold addNode
  rw [if_neg]
  intro hc
  simp only [List.any_eq_true, decide_eq_true_eq] at hc
  obtain ⟨m, hm, he⟩ := hc
  exact h m hm he

theorem countP_addNode_of_not (p : Node → Bool) (ns : List Node) (n : Node)
    (h : p n = false) : (addNode ns n).countP p = ns.countP p := by
  unfold addNode
  split_ifs with hc
  · rfl
  · rw [List.countP_append]
    simp [List.countP, List.countP.go, h]

/-- The node predicate of C8: owned by feeder id g and not a tie switch. -/
def ownNode (g : ℕ) (n : Node) : Bool :=
  n.feederId == some g && !(n.ty == NodeType.tieSwitch)

theorem ownNode_junction_fuse {g : ℕ} {n : Node}
    (_hty : n.ty = .junction ∨ n.ty = .protectiveDevice)
    (hfe : ∀ g1 : ℕ, n.feederId = some g1 → g1 ≠ g) :
    ownNode g n = false := by
  unfold ownNode
  cases hn : n.feederId with
  | none => simp
  | some g1 =>
      have := hfe g1 hn
      simp [this]

/-- trunkPart and latPart only insert junction and fuse rows of their
feeder. -/
theorem xfmrStep_nodes_countP (p : Node → Bool) (rnd : Rnd) (f : Feeder)
    (n : ℕ) (st : St) (idx : ℕ) (t : Transformer)
    (hp : ∀ m : Node, (m.ty = .junction ∨ m.ty = .protectiveDevice) →
      m.feederId = some f.idx → p m = false) :
    (xfmrStep rnd f n st idx t).nodes.countP p = st.nodes.countP p := by
  unfold xfmrStep
  have h1 : (trunkPart rnd f n st idx).nodes.countP p = st.nodes.countP p := by
    by_cases hc : idx % trunkSpacing n = 0
    · simp only [trunkPart, if_pos hc]
      exact countP_addNode_of_not p _ _ (hp _ (.inl rfl) rfl)
    · simp only [trunkPart, if_neg hc]
  set st1 := trunkPart rnd f n st idx
  unfold latPart
  cases hj : st1.jcts with
  | nil => exact h1
  | cons nearest rest =>
      simp only
      rw [countP_addNode_of_not p _ _ (hp _ (.inr rfl) rfl)]
      exact h1

theorem xfmrLoop_nodes_countP (p : Node → Bool) (rnd : Rnd) (f : Feeder)
    (n : ℕ)
    (hp : ∀ m : Node, (m.ty = .junction ∨ m.ty = .protectiveDevice) →
      m.feederId = some f.idx → p m = false) :
    ∀ (rem : List Transformer) (idx : ℕ) (st : St),
      (xfmrLoop rnd f n idx rem st).nodes.countP p = st.nodes.countP p := by
  intro rem
  induction rem with
  | nil => intro idx st; rfl
  | cons t rest ih =>
      intro idx st
      simp only [xfmrLoop]
      rw [ih, xfmrStep_nodes_countP p rnd f n st idx t hp]

theorem closingStep_nodes (rnd : Rnd) (f : Feeder) (st : St) :
    (closingStep rnd f st).nodes = st.nodes := by
  unfold closingStep
  cases st.jcts <;> rfl

theorem feederPass_nodes_countP (p : Node → Bool) (rnd : Rnd)
    (xfmrs : List Transformer) (st : St) (f : Feeder)
    (hp : ∀ m : Node, (m.ty = .junction ∨ m.ty = .protectiveDevice) →
      m.feederId = some f.idx → p m = false) :
    (feederPass rnd xfmrs st f).nodes.countP p = st.nodes.countP p := by
  simp only [feederPass]
  split_ifs with hc
  · rfl
  · rw [closingStep_nodes, xfmrLoop_nodes_countP p rnd f _ hp]

theorem foldl_feederPass_nodes_countP (p : Node → Bool) (rnd : Rnd)
    (xfmrs : List Transformer) :
    ∀ (fs : List Feeder) (st : St),
      (∀ f1 ∈ fs, ∀ m : Node,
        (m.ty = .junction ∨ m.ty = .protectiveDevice) →
        m.feederId = some f1.idx → p m = false) →
      ((fs.foldl (feederPass rnd xfmrs) st).nodes).countP p =
        st.nodes.countP p := by
  intro fs
  induction fs with
  | nil => intro st _; rfl
  | cons f rest ih =>
      intro st hp
      simp only [List.foldl_cons]
      rw [ih _ (fun f1 h1 => hp f1 (List.mem_cons_of_mem _ h1)),
        feederPass_nodes_countP p rnd xfmrs st f (hp f (List.mem_cons_self _ _))]

theorem tiePairStep_nodes_countP (p : Node → Bool) (rnd : Rnd)
    (a b : Feeder) (st : St) (tn : ℕ)
    (hp : ∀ m : Node, m.ty = .tieSwitch → p m = false) :
    (tiePairStep rnd a b st tn).1.nodes.countP p = st.nodes.countP p := by
  simp only [tiePairStep]
  split_ifs with h1 h2
  · rfl
  · rfl
  · exact countP_addNode_of_not p _ _ (hp _ rfl)

theorem tieInner_nodes_countP (p : Node → Bool) (rnd : Rnd) (a : Feeder)
    (hp : ∀ m : Node, m.ty = .tieSwitch → p m = false) :
    ∀ (bs : List Feeder) (st : St) (tn : ℕ),
      (tieInner rnd a bs st tn).1.nodes.countP p = st.nodes.countP p := by
  intro bs
  induction bs with
  | nil => intro st tn; rfl
  | cons b rest ih =>
      intro st tn
      simp only [tieInner]
      rw [ih, tiePairStep_nodes_countP p rnd a b st tn hp]

theorem tiePass_nodes_countP (p : Node → Bool) (rnd : Rnd)
    (hp : ∀ m : Node, m.ty = .tieSwitch → p m = false) :
    ∀ (fs : List Feeder) (st : St) (tn : ℕ),
      (tiePass rnd fs st tn).1.nodes.countP p = st.nodes.countP p := by
  intro fs
  induction fs with
  | nil => intro st tn; rfl
  | cons a rest ih =>
      intro st tn
      simp only [tiePass]
      rw [ih, tieInner_nodes_countP p rnd a hp]

/-- The substation-bus pass only inserts rows with empty feeder id and
substation-bus ids. -/
theorem subPass_nodes (subs : List Substation) :
    ∀ ns0 : List Node,
      (∀ m ∈ ns0, m.feederId = none ∧ ∃ i, m.id = NodeId.sub i) →
      ∀ m ∈ subs.foldl (fun ns s => addNode ns (subBusRow s)) ns0,
        m.feederId = none ∧ ∃ i, m.id = NodeId.sub i := by
  induction subs with
  | nil => intro ns0 h0; exact h0
  | cons s rest ih =>
      intro ns0 h0
      simp only [List.foldl_cons]
      apply ih
      intro m hm
      rcases addNode_mem hm with hm1 | rfl
      · exact h0 m hm1
      · exact ⟨rfl, s.idx, rfl⟩

/-- The head/tail pass appends exactly one breaker and one endpoint row per
feeder when no such ids are present yet. -/
theorem htPass_nodes (fs : List Feeder) :
    ∀ ns0 : List Node,
      (∀ m ∈ ns0, ∀ f1 ∈ fs, m.id ≠ NodeId.head f1.idx ∧
        m.id ≠ NodeId.tail f1.idx) →
      (fs.map Feeder.idx).Nodup →
      fs.foldl (fun ns f => addNode (addNode ns (headRow f)) (tailRow f)) ns0
        = ns0 ++ fs.flatMap (fun f => [headRow f, tailRow f]) := by
  induction fs with
  | nil => intro ns0 _ _; simp
  | cons f rest ih =>
      intro ns0 hfresh hnd
      simp only [List.map_cons, List.nodup_cons] at hnd
      have hh : addNode ns0 (headRow f) = ns0 ++ [headRow f] :=
        addNode_fresh (fun m hm =>
          (hfresh m hm f (List.mem_cons_self _ _)).1)
      have ht : addNode (ns0 ++ [headRow f]) (tailRow f) =
          ns0 ++ [headRow f] ++ [tailRow f] := by
        apply addNode_fresh
        intro m hm
        rcases List.mem_append.mp hm with hm1 | hm1
        · exact (hfresh m hm1 f (List.mem_cons_self _ _)).2
        · simp only [List.mem_singleton] at hm1
          subst hm1
          intro hc
          cases hc
      simp only [List.foldl_cons]
      rw [hh, ht, ih]
      · simp
      · intro m hm f1 h1
        have hne : f1.idx ≠ f.idx := by
          intro he
          exact hnd.1 (he ▸ List.mem_map_of_mem Feeder.idx h1)
        rcases List.mem_append.mp hm with hm1 | hm1
        · rcases List.mem_append.mp hm1 with hm2 | hm2
          · exact hfresh m hm2 f1 (List.mem_cons_of_mem _ h1)
          · simp only [List.mem_singleton] at hm2
            subst hm2
            constructor
            · intro hc
              simp only [headRow, NodeId.head.injEq] at hc
              exact hne hc.symm
            · intro hc
              simp [headRow] at hc
        · simp only [List.mem_singleton] at hm1
          subst hm1
          constructor
          · intro hc
            simp [tailRow] at hc
          · intro hc
            simp only [tailRow, NodeId.tail.injEq] at hc
            exact hne hc.symm
      · exact hnd.2

theorem ownNode_headRow (g : ℕ) (f : Feeder) :
    ownNode g (headRow f) = (f.idx == g) := by
  simp [ownNode, headRow]

theorem ownNode_tailRow (g : ℕ) (f : Feeder) :
    ownNode g (tailRow f) = (f.idx == g) := by
  simp [ownNode, tailRow]

/-- Over the breaker/endpoint rows, the feeder f0 contributes exactly its
two rows. -/
theorem countP_htRows (f0 : Feeder) (fs : List Feeder)
    (hmem : f0 ∈ fs) (hnd : (fs.map Feeder.idx).Nodup) :
    (fs.flatMap (fun f => [headRow f, tailRow f])).countP (ownNode f0.idx)
      = 2 := by
  induction fs with
  | nil => simp at hmem
  | cons f rest ih =>
      simp only [List.map_cons, List.nodup_cons] at hnd
      rw [List.flatMap_cons, List.countP_append]
      rcases List.mem_cons.mp hmem with rfl | hmem'
      · have h2 : ([headRow f0, tailRow f0]).countP (ownNode f0.idx) = 2 := by
          simp [List.countP, List.countP.go, ownNode_headRow, ownNode_tailRow]
        have h0 : (rest.flatMap (fun f => [headRow f, tailRow f])).countP
            (ownNode f0.idx) = 0 := by
          rw [List.countP_eq_zero]
          intro m hm
          obtain ⟨f1, h1, hmm⟩ := List.mem_flatMap.mp hm
          have hne : f1.idx ≠ f0.idx := by
            intro he
            exact hnd.1 (he ▸ List.mem_map_of_mem Feeder.idx h1)
          rcases List.mem_cons.mp hmm with rfl | hmm1
          · simp [ownNode_headRow, hne]
          · simp only [List.mem_singleton] at hmm1
            subst hmm1
            simp [ownNode_tailRow, hne]
        omega
      · have hne : f.idx ≠ f0.idx := by
          intro he
          exact hnd.1 (he ▸ List.mem_map_of_mem Feeder.idx hmem')
        have hb : (f.idx == f0.idx) = false := by simp [hne]
        have h2 : ([headRow f, tailRow f]).countP (ownNode f0.idx) = 0 := by
          simp [List.countP, List.countP.go, ownNode_headRow, ownNode_tailRow,
            hb]
        rw [ih hmem' hnd.2]
        omega

/-- The transformer-row pass does not change the count of rows owned by a
feeder that owns no transformers. -/
theorem xfmrPass_nodes_countP (f0 : Feeder) (xfmrs : List Transformer)
    (hempty : (xfmrs.filter (fun t => t.fdrIdx == f0.idx)).isEmpty = true) :
    ∀ ns0 : List Node,
      (xfmrs.foldl (fun ns t => addNode ns (xfmrRow t)) ns0).countP
        (ownNode f0.idx) = ns0.countP (ownNode f0.idx) := by
  induction xfmrs with
  | nil => intro ns0; rfl
  | cons t rest ih =>
      intro ns0
      have hrest : (rest.filter (fun t => t.fdrIdx == f0.idx)).isEmpty = true := by
        rw [List.filter_cons] at hempty
        split_ifs at hempty with hc
        · simp at hempty
        · exact hempty
      have htne : t.fdrIdx ≠ f0.idx := by
        rw [List.filter_cons] at hempty
        split_ifs at hempty with hc
        · simp at hempty
        · simpa using hc
      simp only [List.foldl_cons]
      rw [ih hrest]
      exact countP_addNode_of_not _ _ _ (by simp [ownNode, xfmrRow, htne])

theorem preNodes_countP (subs : List Substation) (feeders : List Feeder)
    (xfmrs : List Transformer) (f0 : Feeder) (hmem : f0 ∈ feeders)
    (hndf : (feeders.map Feeder.idx).Nodup)
    (hempty : (xfmrs.filter (fun t => t.fdrIdx == f0.idx)).isEmpty = true) :
    (preNodes subs feeders xfmrs).countP (ownNode f0.idx) = 2 := by
  simp only [preNodes]
  rw [xfmrPass_nodes_countP f0 xfmrs hempty]
  have hsub := subPass_nodes subs [] (by simp)
  rw [htPass_nodes feeders _ ?hfresh hndf]
  · rw [List.countP_append, countP_htRows f0 feeders hmem hndf]
    have h0 : (subs.foldl (fun ns s => addNode ns (subBusRow s)) []).countP
        (ownNode f0.idx) = 0 := by
      rw [List.countP_eq_zero]
      intro m hm
      have := (hsub m hm).1
      simp [ownNode, this]
    omega
  case hfresh =>
    intro m hm f1 _
    obtain ⟨_, i, hi⟩ := hsub m hm
    rw [hi]
    constructor
    · intro hc
      cases hc
    · intro hc
      cases hc

theorem mem_foldl_addNode {row : Transformer → Node}
    (xs : List Transformer) :
    ∀ (ns0 : List Node) (m : Node), m ∈ ns0 →
      m ∈ xs.foldl (fun ns t => addNode ns (row t)) ns0 := by
  induction xs with
  | nil => intro ns0 m hm; exact hm
  | cons t rest ih =>
      intro ns0 m hm
      simp only [List.foldl_cons]
      exact ih _ m (addNode_subset m hm)

theorem headRow_mem_preNodes (subs : List Substation) (feeders : List Feeder)
    (xfmrs : List Transformer) (f0 : Feeder) (hmem : f0 ∈ feeders)
    (hndf : (feeders.map Feeder.idx).Nodup) :
    headRow f0 ∈ preNodes subs feeders xfmrs ∧
    tailRow f0 ∈ preNodes subs feeders xfmrs := by
  simp only [preNodes]
  have hsub := subPass_nodes subs [] (by simp)
  rw [htPass_nodes feeders _ ?hfresh hndf]
  · constructor <;> apply mem_foldl_addNode <;> apply List.mem_append_right <;>
      apply List.mem_flatMap.mpr <;> exact ⟨f0, hmem, by simp⟩
  case hfresh =>
    intro m hm f1 _
    obtain ⟨_, i, hi⟩ := hsub m hm
    rw [hi]
    constructor
    · intro hc
      cases hc
    · intro hc
      cases hc

/-- State nodes only grow through the edge passes. -/
theorem xfmrStep_nodes_subset (rnd : Rnd) (f : Feeder) (n : ℕ) (st : St)
    (idx : ℕ) (t : Transformer) :
    ∀ m ∈ st.nodes, m ∈ (xfmrStep rnd f n st idx t).nodes := by
  intro m hm
  unfold xfmrStep
  have h1 : m ∈ (trunkPart rnd f n st idx).nodes := by
    by_cases hc : idx % trunkSpacing n = 0
    · simp only [trunkPart, if_pos hc]
      exact addNode_subset m hm
    · simp only [trunkPart, if_neg hc]
      exact hm
  set st1 := trunkPart rnd f n st idx
  unfold latPart
  cases hj : st1.jcts with
  | nil => exact h1
  | cons nearest rest => exact addNode_subset m h1

theorem xfmrLoop_nodes_subset (rnd : Rnd) (f : Feeder) (n : ℕ)
    (rem : List Transformer) :
    ∀ (idx : ℕ) (st : St), ∀ m ∈ st.nodes,
      m ∈ (xfmrLoop rnd f n idx rem st).nodes := by
  induction rem with
  | nil => intro idx st m hm; exact hm
  | cons t rest ih =>
      intro idx st m hm
      simp only [xfmrLoop]
      exact ih _ _ m (xfmrStep_nodes_subset rnd f n st idx t m hm)

theorem feederPass_nodes_subset (rnd : Rnd) (xfmrs : List Transformer)
    (st : St) (f : Feeder) :
    ∀ m ∈ st.nodes, m ∈ (feederPass rnd xfmrs st f).nodes := by
  intro m hm
  simp only [feederPass]
  split_ifs with hc
  · exact hm
  · rw [closingStep_nodes]
    exact xfmrLoop_nodes_subset rnd f _ _ _ _ m hm

theorem foldl_feederPass_nodes_subset (rnd : Rnd) (xfmrs : List Transformer)
    (fs : List Feeder) :
    ∀ (st : St), ∀ m ∈ st.nodes,
      m ∈ (fs.foldl (feederPass rnd xfmrs) st).nodes := by
  induction fs with
  | nil => intro st m hm; exact hm
  | cons f rest ih =>
      intro st m hm
      simp only [List.foldl_cons]
      exact ih _ m (feederPass_nodes_subset rnd xfmrs st f m hm)

theorem tiePairStep_nodes_subset (rnd : Rnd) (a b : Feeder) (st : St)
    (tn : ℕ) : ∀ m ∈ st.nodes, m ∈ (tiePairStep rnd a b st tn).1.nodes := by
  intro m hm
  simp only [tiePairStep]
  split_ifs with h1 h2
  · exact hm
  · exact hm
  · exact addNode_subset m hm

theorem tieInner_nodes_subset (rnd : Rnd) (a : Feeder) (bs : List Feeder) :
    ∀ (st : St) (tn : ℕ), ∀ m ∈ st.nodes,
      m ∈ (tieInner rnd a bs st tn).1.nodes := by
  induction bs with
  | nil => intro st tn m hm; exact hm
  | cons b rest ih =>
      intro st tn m hm
      simp only [tieInner]
      exact ih _ _ m (tiePairStep_nodes_subset rnd a b st tn m hm)

theorem tiePass_nodes_subset (rnd : Rnd) (fs : List Feeder) :
    ∀ (st : St) (tn : ℕ), ∀ m ∈ st.nodes,
      m ∈ (tiePass rnd fs st tn).1.nodes := by
  induction fs with
  | nil => intro st tn m hm; exact hm
  | cons a rest ih =>
      intro st tn m hm
      simp only [tiePass]
      exact ih _ _ m (tieInner_nodes_subset rnd a rest st tn m hm)

theorem feederPass_nodes_empty (rnd : Rnd) (xfmrs : List Transformer)
    (st : St) (f : Feeder)
    (hc : (xfmrs.filter (fun t => t.fdrIdx == f.idx)).isEmpty = true) :
    (feederPass rnd xfmrs st f).nodes = st.nodes := by
  simp only [feederPass]
  rw [if_pos hc]

theorem foldl_feederPass_nodes_countP_own (rnd : Rnd)
    (xfmrs : List Transformer) (f0 : Feeder) :
    ∀ (fs : List Feeder) (st : St),
      (∀ f1 ∈ fs, f1.idx ≠ f0.idx ∨
        (xfmrs.filter (fun t => t.fdrIdx == f1.idx)).isEmpty = true) →
      ((fs.foldl (feederPass rnd xfmrs) st).nodes).countP (ownNode f0.idx) =
        st.nodes.countP (ownNode f0.idx) := by
  intro fs
  induction fs with
  | nil => intro st _; rfl
  | cons f rest ih =>
      intro st hp
      simp only [List.foldl_cons]
      rw [ih _ (fun f1 h1 => hp f1 (List.mem_cons_of_mem _ h1))]
      rcases hp f (List.mem_cons_self _ _) with hne | hemp
      · apply feederPass_nodes_countP
        intro m hmty hfe
        apply ownNode_junction_fuse hmty
        intro g1 hg1
        rw [hfe] at hg1
        injection hg1 with h
        rw [← h]
        exact hne
      · rw [feederPass_nodes_empty rnd xfmrs st f hemp]

/-- C8 (amended).  A feeder with no transformers yields exactly two
non-tie-switch nodes carrying its feeder id — the breaker at the head
point and the endpoint at the tail point — and exactly one non-tie edge
(the closed bus tie from the substation bus to the breaker).  Tie-switch
nodes and tie edges created by the cross-feeder pass can additionally
carry its feeder id, which is what the unamended claim overlooked. -/
theorem claim_c8_zero_transformer_feeder (rnd : Rnd)
    (subs : List Substation) (feeders : List Feeder)
    (xfmrs : List Transformer)
    (hf : (feeders.map Feeder.idx).Nodup)
    (hx : (xfmrs.map Transformer.idx).Nodup)
    (f0 : Feeder) (hf0 : f0 ∈ feeders)
    (hempty : (xfmrs.filter (fun t => t.fdrIdx == f0.idx)).isEmpty = true) :
    (generateNetwork rnd subs feeders xfmrs).1.countP (ownNode f0.idx) = 2 ∧
    headRow f0 ∈ (generateNetwork rnd subs feeders xfmrs).1 ∧
    tailRow f0 ∈ (generateNetwork rnd subs feeders xfmrs).1 ∧
    ∃ e0, (generateNetwork rnd subs feeders xfmrs).2.filter
      (ownFilter f0.idx) = [busTieEdge rnd f0 e0] := by
  set st0 : St :=
    { nodes := preNodes subs feeders xfmrs
      edges := []
      eNum := 0
      jcts := [] } with hst0
  set stF := feeders.foldl (feederPass rnd xfmrs) st0 with hstF
  refine ⟨?_, ?_, ?_, ?_⟩
  · rw [generateNetwork_nodes]
    rw [show (List.foldl (feederPass rnd xfmrs)
      { nodes := preNodes subs feeders xfmrs, edges := [], eNum := 0,
        jcts := [] } feeders) = stF from (hst0 ▸ hstF).symm]
    rw [tiePass_nodes_countP _ rnd (fun m hm => by simp [ownNode, hm])]
    rw [hstF, foldl_feederPass_nodes_countP_own rnd xfmrs f0 feeders st0 ?side]
    · simp only [hst0]
      exact preNodes_countP subs feeders xfmrs f0 hf0 hf hempty
    case side =>
      intro f1 h1
      by_cases he : f1.idx = f0.idx
      · right
        rw [he]
        exact hempty
      · exact .inl he
  · rw [generateNetwork_nodes]
    apply tiePass_nodes_subset
    apply foldl_feederPass_nodes_subset
    exact (headRow_mem_preNodes subs feeders xfmrs f0 hf0 hf).1
  · rw [generateNetwork_nodes]
    apply tiePass_nodes_subset
    apply foldl_feederPass_nodes_subset
    exact (headRow_mem_preNodes subs feeders xfmrs f0 hf0 hf).2
  · obtain ⟨tieExt, hte, htie⟩ := tiePass_edges rnd feeders stF 0
    have hfilter : (generateNetwork rnd subs feeders xfmrs).2.filter
        (ownFilter f0.idx) = stF.edges.filter (ownFilter f0.idx) := by
      rw [generateNetwork_edges]
      rw [show (List.foldl (feederPass rnd xfmrs)
        { nodes := preNodes subs feeders xfmrs, edges := [], eNum := 0,
          jcts := [] } feeders) = stF from (hst0 ▸ hstF).symm, hte]
      exact filter_append_none _ _ (fun e1 he1 => ownFilter_tie (htie e1 he1).1)
    obtain ⟨own, V, e0, hown, _, _, _, hemp, _⟩ :=
      foldl_feederPass_own rnd xfmrs hx feeders st0 f0 hf0 hf (by simp [hst0])
    rw [← hstF] at hown
    exact ⟨e0, by rw [hfilter, hown, hemp hempty]⟩

/-- Witness for C8 at a one-substation, one-feeder, zero-transformer
input. -/
theorem claim_c8_witness :
    (([fdrA].map Feeder.idx).Nodup ∧
      (([] : List Transformer).map Transformer.idx).Nodup ∧ fdrA ∈ [fdrA] ∧
      (([] : List Transformer).filter
        (fun t => t.fdrIdx == fdrA.idx)).isEmpty = true) ∧
    ((generateNetwork rnd0 [sub1] [fdrA] []).1.countP (ownNode fdrA.idx) = 2 ∧
      headRow fdrA ∈ (generateNetwork rnd0 [sub1] [fdrA] []).1 ∧
      tailRow fdrA ∈ (generateNetwork rnd0 [sub1] [fdrA] []).1 ∧
      ∃ e0, (generateNetwork rnd0 [sub1] [fdrA] []).2.filter
        (ownFilter fdrA.idx) = [busTieEdge rnd0 fdrA e0]) := by
  have h1 : ([fdrA].map Feeder.idx).Nodup := by simp [fdrA]
  have h2 : (([] : List Transformer).map Transformer.idx).Nodup := by simp
  have h3 : fdrA ∈ [fdrA] := List.mem_singleton.mpr rfl
  have h4 : (([] : List Transformer).filter
      (fun t => t.fdrIdx == fdrA.idx)).isEmpty = true := rfl
  exact ⟨⟨h1, h2, h3, h4⟩,
    claim_c8_zero_transformer_feeder rnd0 [sub1] [fdrA] [] h1 h2 fdrA h3 h4⟩

/-- A zero-draw oracle whose sqrtq is exact on the squared distances 1 and
4 (the values the tie pass encounters in the concrete scenarios below). -/
def rndT : Rnd :=
  { busTieJr := fun _ => 1, busTieJx := fun _ => 1,
    jct := fun _ _ => ⟨0, true, true, 1, 1, 1⟩,
    lat := fun _ _ => ⟨0, 0, true, 1, 1, 1, 1⟩,
    closingIsOh := fun _ => true,
    closingJr := fun _ => 1, closingJx := fun _ => 1,
    sqrtq := fun q => if q = 1 then 1 else if q = 4 then 2 else 0 }

/-- A second zero-transformer feeder of the same substation and voltage
whose tail point is exactly one grid mile north of the tail of fdrA. -/
def fdrB : Feeder :=
  ⟨2, 1, 12.47, 33.4484, -112.074, 33.51449, -112.074, 4, "477 ACSR", 10⟩

/-- Counterexample to C8 as stated: with two zero-transformer feeders of
equal voltage whose tails are one mile apart, the tie pass runs, and the
first feeder then owns two edges carrying its feeder id (its bus tie and
one tie edge) and three nodes (breaker, endpoint and the tie switch), not
one edge and two nodes. -/
theorem claim_c8_counterexample :
    (rndT.sqrtq 1 = 1 ∧ (0 : ℚ) ≤ rndT.sqrtq 1 ∧
      (([] : List Transformer).filter
        (fun t => t.fdrIdx == fdrA.idx)).isEmpty = true) ∧
    ((generateNetwork rndT [sub1] [fdrA, fdrB] []).2.filter
      (fun e => e.feederId == fdrA.idx)).length = 2 ∧
    ((generateNetwork rndT [sub1] [fdrA, fdrB] []).1.countP
      (fun n => n.feederId == some fdrA.idx)) = 3 := by
  refine ⟨⟨by norm_num [rndT], by norm_num [rndT], rfl⟩, ?_, ?_⟩
  · norm_num [generateNetwork, preNodes, feederPass, tiePass, tieInner,
      tiePairStep, tieEdgesOf, addNode, busTieEdge, subBusRow, headRow,
      tailRow, rndT, fdrA, fdrB, sub1, MILE_LAT, MILE_LON, List.filter]
    simp
  · norm_num [generateNetwork, preNodes, feederPass, tiePass, tieInner,
      tiePairStep, tieEdgesOf, addNode, busTieEdge, subBusRow, headRow,
      tailRow, rndT, fdrA, fdrB, sub1, MILE_LAT, MILE_LON, List.countP,
      List.countP.go]
    simp

/-! ## Case analysis on output edges -/

/-- The four per-feeder edge shapes. -/
def FeederEdgeCase (rnd : Rnd) (f : Feeder) (e : Edge) : Prop :=
  (∃ e0, e = busTieEdge rnd f e0) ∨
  (∃ idx e0 prev k mile, e = trunkEdgeOf rnd f idx e0 prev k mile) ∨
  (∃ idx e0 nearest t, e = (latEdgesOf rnd f idx e0 nearest t).1 ∨
    e = (latEdgesOf rnd f idx e0 nearest t).2) ∨
  (∃ e0 last, e = closingEdgeOf rnd f e0 last)

/-- The two tie edge shapes of one feeder pair. -/
def TieEdgeCase (a b : Feeder) (e : Edge) : Prop :=
  ∃ e0 t dist, e = (tieEdgesOf a b e0 t dist).1 ∨
    e = (tieEdgesOf a b e0 t dist).2

theorem xfmrStep_edges_cases (rnd : Rnd) (f : Feeder) (n : ℕ) (st : St)
    (idx : ℕ) (t : Transformer) :
    ∀ e ∈ (xfmrStep rnd f n st idx t).edges,
      e ∈ st.edges ∨ FeederEdgeCase rnd f e := by
  intro e he
  unfold xfmrStep at he
  have h1 : ∀ e1 ∈ (trunkPart rnd f n st idx).edges,
      e1 ∈ st.edges ∨ FeederEdgeCase rnd f e1 := by
    intro e1 he1
    by_cases hc : idx % trunkSpacing n = 0
    · simp only [trunkPart, if_pos hc] at he1
      rcases List.mem_append.mp he1 with hm | hm
      · exact .inl hm
      · simp only [List.mem_singleton] at hm
        exact .inr (.inr (.inl ⟨_, _, _, _, _, hm⟩))
    · simp only [trunkPart, if_neg hc] at he1
      exact .inl he1
  set st1 := trunkPart rnd f n st idx
  unfold latPart at he
  cases hj : st1.jcts with
  | nil =>
      rw [hj] at he
      exact h1 e he
  | cons nearest rest =>
      rw [hj] at he
      simp only at he
      rcases List.mem_append.mp he with hm | hm
      · exact h1 e hm
      · rcases List.mem_cons.mp hm with rfl | hm1
        · exact .inr (.inr (.inr (.inl ⟨idx, _, nearest, t, .inl rfl⟩)))
        · simp only [List.mem_singleton] at hm1
          subst hm1
          exact .inr (.inr (.inr (.inl ⟨idx, _, nearest, t, .inr rfl⟩)))

theorem xfmrLoop_edges_cases (rnd : Rnd) (f : Feeder) (n : ℕ)
    (rem : List Transformer) :
    ∀ (idx : ℕ) (st : St), ∀ e ∈ (xfmrLoop rnd f n idx rem st).edges,
      e ∈ st.edges ∨ FeederEdgeCase rnd f e := by
  induction rem with
  | nil => intro idx st e he; exact .inl he
  | cons t rest ih =>
      intro idx st e he
      simp only [xfmrLoop] at he
      rcases ih _ _ e he with hm | hc
      · exact xfmrStep_edges_cases rnd f n st idx t e hm
      · exact .inr hc

theorem closingStep_edges_cases (rnd : Rnd) (f : Feeder) (st : St) :
    ∀ e ∈ (closingStep rnd f st).edges,
      e ∈ st.edges ∨ ∃ e0 last, e = closingEdgeOf rnd f e0 last := by
  intro e he
  unfold closingStep at he
  cases hj : st.jcts with
  | nil =>
      rw [hj] at he
      exact .inl he
  | cons last rest =>
      rw [hj] at he
      simp only at he
      rcases List.mem_append.mp he with hm | hm
      · exact .inl hm
      · simp only [List.mem_singleton] at hm
        subst hm
        exact .inr ⟨_, last, rfl⟩

theorem feederPass_edges_cases (rnd : Rnd) (xfmrs : List Transformer)
    (st : St) (f : Feeder) :
    ∀ e ∈ (feederPass rnd xfmrs st f).edges,
      e ∈ st.edges ∨ FeederEdgeCase rnd f e := by
  intro e he
  simp only [feederPass] at he
  split_ifs at he with hc
  · rcases List.mem_append.mp he with hm | hm
    · exact .inl hm
    · simp only [List.mem_singleton] at hm
      exact .inr (.inl ⟨_, hm⟩)
  · rcases closingStep_edges_cases rnd f _ e he with hm | ⟨e0, last, rfl⟩
    · have := xfmrLoop_edges_cases rnd f _ _ 0 _ e hm
      rcases this with hm1 | hc
      · simp only at hm1
        rcases List.mem_append.mp hm1 with hm2 | hm2
        · exact .inl hm2
        · simp only [List.mem_singleton] at hm2
          exact .inr (.inl ⟨_, hm2⟩)
      · exact .inr hc
    · exact .inr (.inr (.inr (.inr ⟨e0, last, rfl⟩)))

theorem foldl_feederPass_edges_cases (rnd : Rnd) (xfmrs : List Transformer) :
    ∀ (fs : List Feeder) (st : St),
      ∀ e ∈ (fs.foldl (feederPass rnd xfmrs) st).edges,
        e ∈ st.edges ∨ ∃ f ∈ fs, FeederEdgeCase rnd f e := by
  intro fs
  induction fs with
  | nil => intro st e he; exact .inl he
  | cons f rest ih =>
      intro st e he
      simp only [List.foldl_cons] at he
      rcases ih _ e he with hm | ⟨f1, h1, hc⟩
      · rcases feederPass_edges_cases rnd xfmrs st f e hm with hm1 | hc
        · exact .inl hm1
        · exact .inr ⟨f, List.mem_cons_self _ _, hc⟩
      · exact .inr ⟨f1, List.mem_cons_of_mem _ h1, hc⟩

theorem tiePairStep_edges_cases (rnd : Rnd) (a b : Feeder) (st : St)
    (tn : ℕ) :
    ∀ e ∈ (tiePairStep rnd a b st tn).1.edges,
      e ∈ st.edges ∨ TieEdgeCase a b e := by
  intro e he
  simp only [tiePairStep] at he
  split_ifs at he with h1 h2
  · exact .inl he
  · exact .inl he
  · rcases List.mem_append.mp he with hm | hm
    · exact .inl hm
    · rcases List.mem_cons.mp hm with rfl | hm1
      · exact .inr ⟨_, _, _, .inl rfl⟩
      · simp only [List.mem_singleton] at hm1
        subst hm1
        exact .inr ⟨_, _, _, .inr rfl⟩

theorem tieInner_edges_cases (rnd : Rnd) (a : Feeder) (bs : List Feeder) :
    ∀ (st : St) (tn : ℕ), ∀ e ∈ (tieInner rnd a bs st tn).1.edges,
      e ∈ st.edges ∨ ∃ b ∈ bs, TieEdgeCase a b e := by
  induction bs with
  | nil => intro st tn e he; exact .inl he
  | cons b rest ih =>
      intro st tn e he
      simp only [tieInner] at he
      rcases ih _ _ e he with hm | ⟨b1, hb1, hc⟩
      · rcases tiePairStep_edges_cases rnd a b st tn e hm with hm1 | hc
        · exact .inl hm1
        · exact .inr ⟨b, List.mem_cons_self _ _, hc⟩
      · exact .inr ⟨b1, List.mem_cons_of_mem _ hb1, hc⟩

theorem tiePass_edges_cases (rnd : Rnd) (fs : List Feeder) :
    ∀ (st : St) (tn : ℕ), ∀ e ∈ (tiePass rnd fs st tn).1.edges,
      e ∈ st.edges ∨ ∃ a ∈ fs, ∃ b ∈ fs, TieEdgeCase a b e := by
  induction fs with
  | nil => intro st tn e he; exact .inl he
  | cons a rest ih =>
      intro st tn e he
      simp only [tiePass] at he
      rcases ih _ _ e he with hm | ⟨a1, h1, b1, h2, hc⟩
      · rcases tieInner_edges_cases rnd a rest st tn e hm with hm1 | ⟨b1, h2, hc⟩
        · exact .inl hm1
        · exact .inr ⟨a, List.mem_cons_self _ _, b1,
            List.mem_cons_of_mem _ h2, hc⟩
      · exact .inr ⟨a1, List.mem_cons_of_mem _ h1, b1,
          List.mem_cons_of_mem _ h2, hc⟩

/-- Every edge of the builder output has one of the six constructor
shapes, with the feeders drawn from the input list. -/
theorem generateNetwork_edges_cases (rnd : Rnd) (subs : List Substation)
    (feeders : List Feeder) (xfmrs : List Transformer) :
    ∀ e ∈ (generateNetwork rnd subs feeders xfmrs).2,
      (∃ f ∈ feeders, FeederEdgeCase rnd f e) ∨
      (∃ a ∈ feeders, ∃ b ∈ feeders, TieEdgeCase a b e) := by
  intro e he
  rw [generateNetwork_edges] at he
  rcases tiePass_edges_cases rnd feeders _ 0 e he with hm | hc
  · rcases foldl_feederPass_edges_cases rnd xfmrs feeders _ e hm with hm1 | hc
    · simp at hm1
    · exact .inl hc
  · exact .inr hc

/-- C2 (amended).  Every bus-tie, trunk, closing-trunk and tie edge has
length_miles at least 0.01; lateral edges only satisfy length_miles ≥ 0:
the lateral total is clamped to 0.001 miles before the 15 % / 85 % split,
so the fuse-side share can round to zero. -/
theorem claim_c2_edge_lengths (rnd : Rnd) (subs : List Substation)
    (feeders : List Feeder) (xfmrs : List Transformer) :
    ∀ e ∈ (generateNetwork rnd subs feeders xfmrs).2,
      0 ≤ e.lengthMiles ∧
      (e.ty.isLateral = false → 1/100 ≤ e.lengthMiles) := by
  intro e he
  have h100 : ((10 : ℤ) : ℚ) / 10 ^ 3 = 1/100 := by norm_num
  rcases generateNetwork_edges_cases rnd subs feeders xfmrs e he with
    ⟨f, _, hc⟩ | ⟨a, _, b, _, e0, t, dist, hc⟩
  · rcases hc with ⟨e0, rfl⟩ | ⟨idx, e0, prev, k, mile, rfl⟩ |
      ⟨idx, e0, nearest, t, rfl | rfl⟩ | ⟨e0, last, rfl⟩
    · refine ⟨by norm_num [busTieEdge], fun _ => by norm_num [busTieEdge]⟩
    · have hlen : (1:ℚ)/100 ≤ (trunkEdgeOf rnd f idx e0 prev k mile).lengthMiles := by
        simp only [trunkEdgeOf]
        rw [← h100]
        apply pyRound_ge_int_div
        rw [h100]
        exact le_trans (by norm_num) (le_max_right _ _)
      exact ⟨le_trans (by norm_num) hlen, fun _ => hlen⟩
    · constructor
      · simp only [latEdgesOf]
        apply pyRound_nonneg
        have : (0:ℚ) ≤ pyRound (max (rnd.sqrtq ((t.lat - nearest.lat) ^ 2 +
            (t.lon - nearest.lon) ^ 2) * 69) 0.001) 3 := by
          apply pyRound_nonneg
          exact le_trans (by norm_num) (le_max_right _ _)
        nlinarith
      · intro h
        exfalso
        simp only [latEdgesOf] at h
        by_cases hoh : (rnd.lat f.idx idx).isOh = true <;>
          simp [hoh, EdgeType.isLateral] at h
    · constructor
      · simp only [latEdgesOf]
        apply pyRound_nonneg
        have : (0:ℚ) ≤ pyRound (max (rnd.sqrtq ((t.lat - nearest.lat) ^ 2 +
            (t.lon - nearest.lon) ^ 2) * 69) 0.001) 3 := by
          apply pyRound_nonneg
          exact le_trans (by norm_num) (le_max_right _ _)
        nlinarith
      · intro h
        exfalso
        simp only [latEdgesOf] at h
        by_cases hoh : (rnd.lat f.idx idx).isOh = true <;>
          simp [hoh, EdgeType.isLateral] at h
    · have hlen : (1:ℚ)/100 ≤ (closingEdgeOf rnd f e0 last).lengthMiles := by
        simp only [closingEdgeOf]
        rw [← h100]
        apply pyRound_ge_int_div
        rw [h100]
        exact le_trans (by norm_num) (le_max_right _ _)
      exact ⟨le_trans (by norm_num) hlen, fun _ => hlen⟩
  · have hlen : ∀ ee : Edge, ee = (tieEdgesOf a b e0 t dist).1 ∨
        ee = (tieEdgesOf a b e0 t dist).2 → ee.lengthMiles =
          max (pyRound (dist / 2) 3) 0.01 := by
      rintro ee (rfl | rfl) <;> simp [tieEdgesOf]
    rw [hlen e hc]
    constructor
    · exact le_trans (by norm_num) (le_max_right _ _)
    · intro _
      exact le_trans (by norm_num) (le_max_right _ _)

/-- A one-transformer feeder whose transformer sits exactly on the rounded
midpoint of the route (the position of its junction). -/
def fdrC : Feeder :=
  ⟨1, 1, 12.47, 33.4484, -112.074, 33.4584, -112.074, 2, "336 ACSR", 10⟩

def xfmrC : Transformer := ⟨1, 1, 1, 33.4534, -112.074, 50, "ABC", 12.47, "active"⟩

/-- Counterexample to C2 as stated: with the transformer exactly at its
junction point (jitters zero, a legal draw), the clamped lateral total is
0.001 miles and the fuse-side edge rounds to length_miles = 0, so a
zero-length edge is emitted. -/
theorem claim_c2_counterexample :
    (rnd0.sqrtq 0 = 0 ∧ (0:ℚ) ^ 2 = 0 ∧ (rnd0.jct 1 0).posJit = 0 ∧
      (rnd0.lat 1 0).posJit = 0) ∧
    ∃ e ∈ (generateNetwork rnd0 [sub1] [fdrC] [xfmrC]).2,
      e.ty.isLateral = true ∧ e.lengthMiles = 0 := by
  refine ⟨⟨rfl, by norm_num, rfl, rfl⟩, ?_⟩
  norm_num [generateNetwork, preNodes, feederPass, tiePass, tieInner,
    tiePairStep, addNode, busTieEdge, subBusRow, headRow, tailRow, xfmrRow,
    xfmrLoop, xfmrStep, trunkPart, latPart, closingStep, trunkEdgeOf,
    latEdgesOf, closingEdgeOf, trunkSpacing, recloserInterval,
    List.insertionSort, List.orderedInsert, pointAlongRoute, round6,
    distSqFromHead, pyRound, rhe, max_def, rnd0, fdrC, xfmrC, sub1,
    EdgeType.isLateral, lateralChoice, lateralConductors, lateralSpec,
    lateralSpecs, trunkSpec, conductorSpecs]

theorem claim_c2_witness :
    busTieEdge rnd0 fdrA 1 ∈ (generateNetwork rnd0 [sub1] [fdrA] []).2 ∧
    (0 ≤ (busTieEdge rnd0 fdrA 1).lengthMiles ∧
      ((busTieEdge rnd0 fdrA 1).ty.isLateral = false →
        1/100 ≤ (busTieEdge rnd0 fdrA 1).lengthMiles)) := by
  have hmem : busTieEdge rnd0 fdrA 1 ∈ (generateNetwork rnd0 [sub1] [fdrA] []).2 := by
    simp [generateNetwork, feederPass, tiePass, tieInner, busTieEdge, fdrA]
  exact ⟨hmem, claim_c2_edge_lengths rnd0 [sub1] [fdrA] [] _ hmem⟩

/-- When length_ft is rounded from the same product that length_miles
records, the two agree to half of the last rounded digit: 0.05 ft. -/
theorem ftClose (q : ℚ) : |pyRound (q * 5280) 1 - q * 5280| ≤ 1/20 :=
  le_trans (pyRound_abs_sub_le (q * 5280) 1) (by norm_num)

/-- On lateral edges length_ft is rounded from the unrounded mileage while
length_miles is that mileage rounded to 3 decimals, so they can drift apart
by up to 0.05 + 5280/2000 = 2.69 ft. -/
theorem latFtClose (q : ℚ) :
    |pyRound (q * 5280) 1 - pyRound q 3 * 5280| ≤ 269/100 := by
  have h1 : |pyRound (q * 5280) 1 - q * 5280| ≤ 1/20 := ftClose q
  have h2 : |pyRound q 3 - q| ≤ 1/2000 :=
    le_trans (pyRound_abs_sub_le q 3) (by norm_num)
  have h3 : |q * 5280 - pyRound q 3 * 5280| = |pyRound q 3 - q| * 5280 := by
    rw [show q * 5280 - pyRound q 3 * 5280 = -((pyRound q 3 - q) * 5280) by ring,
      abs_neg, abs_mul, show |(5280:ℚ)| = 5280 by norm_num]
  have h4 := abs_sub_le (pyRound (q * 5280) 1) (q * 5280) (pyRound q 3 * 5280)
  rw [h3] at h4
  have h5 : |pyRound q 3 - q| * 5280 ≤ (1/2000) * 5280 :=
    mul_le_mul_of_nonneg_right h2 (by norm_num)
  calc |pyRound (q * 5280) 1 - pyRound q 3 * 5280|
      ≤ |pyRound (q * 5280) 1 - q * 5280| + |pyRound q 3 - q| * 5280 := h4
    _ ≤ 1/20 + (1/2000) * 5280 := add_le_add h1 h5
    _ ≤ 269/100 := by norm_num

/-- C3 (amended).  Every edge satisfies |length_ft − length_miles·5280| ≤
2.69 ft; for non-lateral edges the bound tightens to 0.05 ft.  The 1.0 ft
bound of the original claim fails on lateral edges, because their
length_ft is rounded from the unrounded mileage while length_miles is
rounded to 3 decimals first. -/
theorem claim_c3_length_consistency (rnd : Rnd) (subs : List Substation)
    (feeders : List Feeder) (xfmrs : List Transformer) :
    ∀ e ∈ (generateNetwork rnd subs feeders xfmrs).2,
      |e.lengthFt - e.lengthMiles * 5280| ≤ 269/100 ∧
      (e.ty.isLateral = false → |e.lengthFt - e.lengthMiles * 5280| ≤ 1/20) := by
  intro e he
  rcases generateNetwork_edges_cases rnd subs feeders xfmrs e he with
    ⟨f, _, hc⟩ | ⟨a, _, b, _, e0, t, dist, hc⟩
  · rcases hc with ⟨e0, rfl⟩ | ⟨idx, e0, prev, k, mile, rfl⟩ |
      ⟨idx, e0, nearest, t, rfl | rfl⟩ | ⟨e0, last, rfl⟩
    · exact ⟨by norm_num [busTieEdge], fun _ => by norm_num [busTieEdge]⟩
    · have h := ftClose (pyRound (max (mile - prev.2) 0.01) 3)
      constructor
      · simp only [trunkEdgeOf]
        exact le_trans h (by norm_num)
      · intro _
        simp only [trunkEdgeOf]
        exact h
    · have h := latFtClose
        (pyRound (max (rnd.sqrtq ((t.lat - nearest.lat) ^ 2 +
          (t.lon - nearest.lon) ^ 2) * 69) 0.001) 3 * 0.15)
      constructor
      · simp only [latEdgesOf]
        exact h
      · intro hlat
        exfalso
        simp only [latEdgesOf] at hlat
        by_cases hoh : (rnd.lat f.idx idx).isOh = true <;>
          simp [hoh, EdgeType.isLateral] at hlat
    · have h := latFtClose
        (pyRound (max (rnd.sqrtq ((t.lat - nearest.lat) ^ 2 +
          (t.lon - nearest.lon) ^ 2) * 69) 0.001) 3 * 0.85)
      constructor
      · simp only [latEdgesOf]
        exact h
      · intro hlat
        exfalso
        simp only [latEdgesOf] at hlat
        by_cases hoh : (rnd.lat f.idx idx).isOh = true <;>
          simp [hoh, EdgeType.isLateral] at hlat
    · have h := ftClose (pyRound (max (f.lengthMiles - last.mile) 0.01) 3)
      constructor
      · simp only [closingEdgeOf]
        exact le_trans h (by norm_num)
      · intro _
        simp only [closingEdgeOf]
        exact h
  · have h := ftClose (max (pyRound (dist / 2) 3) 0.01)
    rcases hc with rfl | rfl
    · constructor
      · simp only [tieEdgesOf]
        exact le_trans h (by norm_num)
      · intro _
        simp only [tieEdgesOf]
        exact h
    · constructor
      · simp only [tieEdgesOf]
        exact le_trans h (by norm_num)
      · intro _
        simp only [tieEdgesOf]
        exact h

/-- A square-root oracle that is exact at the squared distance 1/16000000
(a quarter-thousandth of a degree) and used by the lateral drift example. -/
def rndL : Rnd :=
  { rnd0 with
    sqrtq := fun q => if q = 1/16000000 then 1/4000 else 0 }

/-- A transformer 0.00025 degrees north of the junction tap point of fdrC. -/
def xfmrL : Transformer := ⟨1, 1, 1, 33.45365, -112.074, 50, "ABC", 12.47, "active"⟩

/-- Counterexample to C3 as stated: the lateral total rounds to 0.017 miles,
whose fuse-side share records length_miles = 0.003 but length_ft = 13.5,
a 2.34 ft mismatch — beyond the claimed 1.0 ft. -/
theorem claim_c3_counterexample :
    (0 ≤ rndL.sqrtq (1/16000000) ∧ (rndL.sqrtq (1/16000000)) ^ 2 = 1/16000000) ∧
    ∃ e ∈ (generateNetwork rndL [sub1] [fdrC] [xfmrL]).2,
      1 < |e.lengthFt - e.lengthMiles * 5280| := by
  refine ⟨⟨by norm_num [rndL, rnd0], by norm_num [rndL, rnd0]⟩, ?_⟩
  norm_num [generateNetwork, preNodes, feederPass, tiePass, tieInner,
    tiePairStep, addNode, busTieEdge, subBusRow, headRow, tailRow, xfmrRow,
    xfmrLoop, xfmrStep, trunkPart, latPart, closingStep, trunkEdgeOf,
    latEdgesOf, closingEdgeOf, trunkSpacing, recloserInterval,
    List.insertionSort, List.orderedInsert, pointAlongRoute, round6,
    distSqFromHead, pyRound, rhe, max_def, rndL, rnd0, fdrC, xfmrL, sub1,
    lt_abs, lateralChoice, lateralConductors, lateralSpec,
    lateralSpecs, trunkSpec, conductorSpecs]

theorem claim_c3_witness :
    busTieEdge rnd0 fdrA 1 ∈ (generateNetwork rnd0 [sub1] [fdrA] []).2 ∧
    (|(busTieEdge rnd0 fdrA 1).lengthFt -
        (busTieEdge rnd0 fdrA 1).lengthMiles * 5280| ≤ 269/100 ∧
      ((busTieEdge rnd0 fdrA 1).ty.isLateral = false →
        |(busTieEdge rnd0 fdrA 1).lengthFt -
          (busTieEdge rnd0 fdrA 1).lengthMiles * 5280| ≤ 1/20)) := by
  have hmem : busTieEdge rnd0 fdrA 1 ∈ (generateNetwork rnd0 [sub1] [fdrA] []).2 := by
    simp [generateNetwork, feederPass, tiePass, tieInner, busTieEdge, fdrA]
  exact ⟨hmem, claim_c3_length_consistency rnd0 [sub1] [fdrA] [] _ hmem⟩

/-! ## Node shape analysis: every row either predates the edge passes or was
built by one of them, and built rows always carry a feeder_id. -/

/-- Node rows created by the edge-building passes (junctions, fuses, tie
switches): they always carry a feeder_id and are never substation buses. -/
def builtRow (m : Node) : Prop :=
  (∃ g, m.feederId = some g) ∧ m.ty ≠ NodeType.substationBus

theorem foldl_addNode_cases {α : Type} (row : α → Node) (xs : List α) :
    ∀ (ns0 : List Node) (m : Node),
      m ∈ xs.foldl (fun ns a => addNode ns (row a)) ns0 →
      m ∈ ns0 ∨ ∃ a ∈ xs, m = row a := by
  induction xs with
  | nil => intro ns0 m hm; exact .inl hm
  | cons a rest ih =>
      intro ns0 m hm
      simp only [List.foldl_cons] at hm
      rcases ih _ m hm with h1 | ⟨a1, ha1, rfl⟩
      · rcases addNode_mem h1 with h2 | rfl
        · exact .inl h2
        · exact .inr ⟨a, List.mem_cons_self _ _, rfl⟩
      · exact .inr ⟨a1, List.mem_cons_of_mem _ ha1, rfl⟩

theorem foldl_ht_cases (feeders : List Feeder) :
    ∀ (ns0 : List Node) (m : Node),
      m ∈ feeders.foldl
        (fun ns f => addNode (addNode ns (headRow f)) (tailRow f)) ns0 →
      m ∈ ns0 ∨ ∃ f ∈ feeders, m = headRow f ∨ m = tailRow f := by
  induction feeders with
  | nil => intro ns0 m hm; exact .inl hm
  | cons f rest ih =>
      intro ns0 m hm
      simp only [List.foldl_cons] at hm
      rcases ih _ m hm with h1 | ⟨f1, hf1, hor⟩
      · rcases addNode_mem h1 with h2 | rfl
        · rcases addNode_mem h2 with h3 | rfl
          · exact .inl h3
          · exact .inr ⟨f, List.mem_cons_self _ _, .inl rfl⟩
        · exact .inr ⟨f, List.mem_cons_self _ _, .inr rfl⟩
      · exact .inr ⟨f1, List.mem_cons_of_mem _ hf1, hor⟩

theorem preNodes_cases (subs : List Substation) (feeders : List Feeder)
    (xfmrs : List Transformer) :
    ∀ m ∈ preNodes subs feeders xfmrs,
      (∃ s ∈ subs, m = subBusRow s) ∨
      (∃ f ∈ feeders, m = headRow f ∨ m = tailRow f) ∨
      (∃ t ∈ xfmrs, m = xfmrRow t) := by
  intro m hm
  simp only [preNodes] at hm
  rcases foldl_addNode_cases xfmrRow xfmrs _ m hm with h1 | hc
  · rcases foldl_ht_cases feeders _ m h1 with h2 | hc
    · rcases foldl_addNode_cases subBusRow subs _ m h2 with h3 | hc
      · simp at h3
      · exact .inl hc
    · exact .inr (.inl hc)
  · exact .inr (.inr hc)

theorem trunkPart_nodes_cases (rnd : Rnd) (f : Feeder) (n : ℕ) (st : St)
    (idx : ℕ) :
    ∀ m ∈ (trunkPart rnd f n st idx).nodes, m ∈ st.nodes ∨ builtRow m := by
  intro m hm
  by_cases hc : idx % trunkSpacing n = 0
  · simp only [trunkPart, if_pos hc] at hm
    rcases addNode_mem hm with h1 | rfl
    · exact .inl h1
    · exact .inr ⟨⟨f.idx, rfl⟩, by simp⟩
  · simp only [trunkPart, if_neg hc] at hm
    exact .inl hm

theorem latPart_nodes_cases (rnd : Rnd) (f : Feeder) (st : St) (idx : ℕ)
    (t : Transformer) :
    ∀ m ∈ (latPart rnd f st idx t).nodes, m ∈ st.nodes ∨ builtRow m := by
  intro m hm
  cases hj : st.jcts with
  | nil =>
      simp only [latPart, hj] at hm
      exact .inl hm
  | cons nearest rest =>
      simp only [latPart, hj] at hm
      rcases addNode_mem hm with h1 | rfl
      · exact .inl h1
      · exact .inr ⟨⟨f.idx, rfl⟩, by simp⟩

theorem xfmrStep_nodes_cases (rnd : Rnd) (f : Feeder) (n : ℕ) (st : St)
    (idx : ℕ) (t : Transformer) :
    ∀ m ∈ (xfmrStep rnd f n st idx t).nodes, m ∈ st.nodes ∨ builtRow m := by
  intro m hm
  rcases latPart_nodes_cases rnd f _ idx t m hm with h1 | hb
  · exact trunkPart_nodes_cases rnd f n st idx m h1
  · exact .inr hb

theorem xfmrLoop_nodes_cases (rnd : Rnd) (f : Feeder) (n : ℕ)
    (rem : List Transformer) :
    ∀ (idx : ℕ) (st : St), ∀ m ∈ (xfmrLoop rnd f n idx rem st).nodes,
      m ∈ st.nodes ∨ builtRow m := by
  induction rem with
  | nil => intro idx st m hm; exact .inl hm
  | cons t rest ih =>
      intro idx st m hm
      simp only [xfmrLoop] at hm
      rcases ih (idx + 1) _ m hm with h1 | hb
      · exact xfmrStep_nodes_cases rnd f n st idx t m h1
      · exact .inr hb

theorem feederPass_nodes_cases (rnd : Rnd) (xfmrs : List Transformer)
    (st : St) (f : Feeder) :
    ∀ m ∈ (feederPass rnd xfmrs st f).nodes, m ∈ st.nodes ∨ builtRow m := by
  intro m hm
  simp only [feederPass] at hm
  split_ifs at hm with hc
  · exact .inl hm
  · rw [closingStep_nodes] at hm
    rcases xfmrLoop_nodes_cases rnd f _ _ 0
        { nodes := st.nodes,
          edges := st.edges ++ [busTieEdge rnd f (st.eNum + 1)],
          eNum := st.eNum + 1,
          jcts := [] } m hm with h2 | hb
    · exact .inl h2
    · exact .inr hb

theorem foldl_feederPass_nodes_cases (rnd : Rnd) (xfmrs : List Transformer)
    (fs : List Feeder) :
    ∀ (st : St), ∀ m ∈ (fs.foldl (feederPass rnd xfmrs) st).nodes,
      m ∈ st.nodes ∨ builtRow m := by
  induction fs with
  | nil => intro st m hm; exact .inl hm
  | cons f rest ih =>
      intro st m hm
      simp only [List.foldl_cons] at hm
      rcases ih _ m hm with h1 | hb
      · exact feederPass_nodes_cases rnd xfmrs st f m h1
      · exact .inr hb

theorem tiePairStep_nodes_cases (rnd : Rnd) (a b : Feeder) (st : St)
    (tn : ℕ) :
    ∀ m ∈ (tiePairStep rnd a b st tn).1.nodes, m ∈ st.nodes ∨ builtRow m := by
  intro m hm
  simp only [tiePairStep] at hm
  split_ifs at hm with h1 h2
  · exact .inl hm
  · exact .inl hm
  · rcases addNode_mem hm with h3 | rfl
    · exact .inl h3
    · exact .inr ⟨⟨a.idx, rfl⟩, by simp⟩

theorem tieInner_nodes_cases (rnd : Rnd) (a : Feeder) (bs : List Feeder) :
    ∀ (st : St) (tn : ℕ), ∀ m ∈ (tieInner rnd a bs st tn).1.nodes,
      m ∈ st.nodes ∨ builtRow m := by
  induction bs with
  | nil => intro st tn m hm; exact .inl hm
  | cons b rest ih =>
      intro st tn m hm
      simp only [tieInner] at hm
      rcases ih _ _ m hm with h1 | hb
      · exact tiePairStep_nodes_cases rnd a b st tn m h1
      · exact .inr hb

theorem tiePass_nodes_cases (rnd : Rnd) (fs : List Feeder) :
    ∀ (st : St) (tn : ℕ), ∀ m ∈ (tiePass rnd fs st tn).1.nodes,
      m ∈ st.nodes ∨ builtRow m := by
  induction fs with
  | nil => intro st tn m hm; exact .inl hm
  | cons a rest ih =>
      intro st tn m hm
      simp only [tiePass] at hm
      rcases ih _ _ m hm with h1 | hb
      · exact tieInner_nodes_cases rnd a rest st tn m h1
      · exact .inr hb

theorem builtRow_feeder_id {m : Node} (hb : builtRow m) :
    (m.feederId = none ↔ m.ty = NodeType.substationBus) ∧
    (m.ty = NodeType.tieSwitch → m.feederId ≠ none) := by
  rcases hb with ⟨⟨g, hg⟩, hty⟩
  constructor
  · constructor
    · intro h
      rw [hg] at h
      exact absurd h (by simp)
    · intro h
      exact absurd h hty
  · intro _
    rw [hg]
    simp

/-- C5 (amended).  A node row has an empty feeder_id exactly when it is a
substation bus.  In particular tie_switch rows are NOT empty: they carry the
feeder_id of the first feeder of their pair, contrary to the original
claim. -/
theorem claim_c5_feeder_id_empty_iff (rnd : Rnd) (subs : List Substation)
    (feeders : List Feeder) (xfmrs : List Transformer) :
    ∀ n ∈ (generateNetwork rnd subs feeders xfmrs).1,
      (n.feederId = none ↔ n.ty = NodeType.substationBus) ∧
      (n.ty = NodeType.tieSwitch → n.feederId ≠ none) := by
  intro m hm
  rw [generateNetwork_nodes] at hm
  rcases tiePass_nodes_cases rnd feeders _ 0 m hm with h1 | hb
  · rcases foldl_feederPass_nodes_cases rnd xfmrs feeders _ m h1 with h2 | hb
    · rcases preNodes_cases subs feeders xfmrs m h2 with
        ⟨s, _, rfl⟩ | ⟨f, _, rfl | rfl⟩ | ⟨t, _, rfl⟩
      · exact ⟨by simp [subBusRow], by simp [subBusRow]⟩
      · exact ⟨by simp [headRow], by simp [headRow]⟩
      · exact ⟨by simp [tailRow], by simp [tailRow]⟩
      · exact ⟨by simp [xfmrRow], by simp [xfmrRow]⟩
    · exact builtRow_feeder_id hb
  · exact builtRow_feeder_id hb

/-- Counterexample to C5 as stated: in a two-feeder run whose tails are one
grid-mile apart, the tie pass emits a tie_switch node whose feeder_id is
feeder A's id — not empty. -/
theorem claim_c5_counterexample :
    ∃ n ∈ (generateNetwork rndT [sub1] [fdrA, fdrB] []).1,
      n.ty = NodeType.tieSwitch ∧ n.feederId = some 1 := by
  norm_num [generateNetwork, preNodes, feederPass, tiePass, tieInner,
    tiePairStep, tieEdgesOf, addNode, busTieEdge, subBusRow, headRow,
    tailRow, rndT, fdrA, fdrB, sub1, MILE_LAT, MILE_LON]
  simp

theorem claim_c5_witness :
    headRow fdrA ∈ (generateNetwork rnd0 [sub1] [fdrA] []).1 ∧
    (((headRow fdrA).feederId = none ↔
        (headRow fdrA).ty = NodeType.substationBus) ∧
      ((headRow fdrA).ty = NodeType.tieSwitch →
        (headRow fdrA).feederId ≠ none)) := by
  have hmem : headRow fdrA ∈ (generateNetwork rnd0 [sub1] [fdrA] []).1 := by
    norm_num [generateNetwork, preNodes, feederPass, tiePass, tieInner,
      addNode, subBusRow, headRow, tailRow, rnd0, fdrA, sub1]
    simp
  exact ⟨hmem, claim_c5_feeder_id_empty_iff rnd0 [sub1] [fdrA] [] _ hmem⟩

/-- conductor_specs.get falls back to (0.25, 0.43, 400) on unknown keys. -/
theorem trunkSpec_unknown {c : String}
    (h : conductorSpecs.find? (fun p => p.1 == c) = none) :
    trunkSpec c = (1/4, 43/100, 400) := by
  simp [trunkSpec, h]
  norm_num

/-- C9 (amended).  An unknown conductor string never aborts generation: the
default tuple (0.25, 0.43, 400) is substituted, and every bus-tie, trunk and
closing edge of the feeder carries the default ampacity 400 A, as does the
tie edge leaving the feeder's tail when it is the FIRST feeder of a tie
pair.  (The resistance and reactance fields carry 0.25/0.43 times a random
jitter factor, so ampacity is the crisp observable; and when the feeder is
the SECOND of a tie pair, its tie edge instead carries the first feeder's
conductor parameters — the original claim fails there.) -/
theorem claim_c9_unknown_conductor_default (rnd : Rnd)
    (subs : List Substation) (feeders : List Feeder)
    (xfmrs : List Transformer) (f : Feeder)
    (hnd : (feeders.map Feeder.idx).Nodup) (hf : f ∈ feeders)
    (hunk : conductorSpecs.find? (fun p => p.1 == f.conductor) = none) :
    trunkSpec f.conductor = (1/4, 43/100, 400) ∧
    ∀ e ∈ (generateNetwork rnd subs feeders xfmrs).2,
      (e.feederId = f.idx → e.ty.isLateral = false → e.ty.isTie = false →
        e.amps = 400) ∧
      (e.ty.isTie = true → e.fromId = NodeId.tail f.idx → e.amps = 400) := by
  have hdef := trunkSpec_unknown hunk
  refine ⟨hdef, ?_⟩
  intro e he
  rcases generateNetwork_edges_cases rnd subs feeders xfmrs e he with
    ⟨g, hg, hc⟩ | ⟨a, ha, b, _, e0, t, dist, hc⟩
  · rcases hc with ⟨e0, rfl⟩ | ⟨idx, e0, prev, k, mile, rfl⟩ |
      ⟨idx, e0, nearest, t, rfl | rfl⟩ | ⟨e0, last, rfl⟩
    · constructor
      · intro hid _ _
        have hgf : g = f := List.inj_on_of_nodup_map hnd hg hf hid
        subst hgf
        simp only [busTieEdge, hdef]
      · intro hti _
        exfalso
        simp [busTieEdge, EdgeType.isTie] at hti
    · constructor
      · intro hid _ _
        have hgf : g = f := List.inj_on_of_nodup_map hnd hg hf hid
        subst hgf
        simp only [trunkEdgeOf, hdef]
      · intro hti _
        exfalso
        simp only [trunkEdgeOf] at hti
        by_cases hoh : (rnd.jct g.idx idx).isOh = true <;>
          simp [hoh, EdgeType.isTie] at hti
    · constructor
      · intro _ hlat _
        exfalso
        simp only [latEdgesOf] at hlat
        by_cases hoh : (rnd.lat g.idx idx).isOh = true <;>
          simp [hoh, EdgeType.isLateral] at hlat
      · intro hti _
        exfalso
        simp only [latEdgesOf] at hti
        by_cases hoh : (rnd.lat g.idx idx).isOh = true <;>
          simp [hoh, EdgeType.isTie] at hti
    · constructor
      · intro _ hlat _
        exfalso
        simp only [latEdgesOf] at hlat
        by_cases hoh : (rnd.lat g.idx idx).isOh = true <;>
          simp [hoh, EdgeType.isLateral] at hlat
      · intro hti _
        exfalso
        simp only [latEdgesOf] at hti
        by_cases hoh : (rnd.lat g.idx idx).isOh = true <;>
          simp [hoh, EdgeType.isTie] at hti
    · constructor
      · intro hid _ _
        have hgf : g = f := List.inj_on_of_nodup_map hnd hg hf hid
        subst hgf
        simp only [closingEdgeOf, hdef]
      · intro hti _
        exfalso
        simp only [closingEdgeOf] at hti
        by_cases hoh : rnd.closingIsOh g.idx = true <;>
          simp [hoh, EdgeType.isTie] at hti
  · rcases hc with rfl | rfl
    · constructor
      · intro _ _ hti
        exfalso
        simp [tieEdgesOf, EdgeType.isTie] at hti
      · intro _ hfrom
        simp only [tieEdgesOf] at hfrom
        simp only [NodeId.tail.injEq] at hfrom
        have haf : a = f := List.inj_on_of_nodup_map hnd ha hf hfrom
        subst haf
        simp only [tieEdgesOf, hdef]
    · constructor
      · intro _ _ hti
        exfalso
        simp [tieEdgesOf, EdgeType.isTie] at hti
      · intro _ hfrom
        exfalso
        simp only [tieEdgesOf] at hfrom
        exact NodeId.noConfusion hfrom

/-- Feeder A of the mismatched tie pair: known conductor 477 ACSR (530 A). -/
def fdrH : Feeder :=
  ⟨1, 1, 12.47, 33.4484, -112.074, 33.5, -112.074, 4, "477 ACSR", 10⟩

/-- Feeder B of the mismatched tie pair: unknown conductor string, tail one
grid-mile north of fdrH's tail. -/
def fdrM : Feeder :=
  ⟨2, 1, 12.47, 33.4484, -112.074, 33.51449, -112.074, 4, "MYSTERY", 10⟩

/-- Counterexample to C9 as stated: the tie edge carrying the
unknown-conductor feeder's feeder_id is built from the FIRST feeder's
conductor parameters, so its ampacity is 530 A, not the default 400 A. -/
theorem claim_c9_counterexample :
    conductorSpecs.find? (fun p => p.1 == fdrM.conductor) = none ∧
    ∃ e ∈ (generateNetwork rndT [sub1] [fdrH, fdrM] []).2,
      e.feederId = fdrM.idx ∧ e.ty.isTie = true ∧ e.amps = 530 := by
  refine ⟨by decide, ?_⟩
  norm_num [generateNetwork, preNodes, feederPass, tiePass, tieInner,
    tiePairStep, tieEdgesOf, addNode, busTieEdge, subBusRow, headRow,
    tailRow, rndT, fdrH, fdrM, sub1, MILE_LAT, MILE_LON, EdgeType.isTie,
    trunkSpec, conductorSpecs]
  simp

theorem claim_c9_witness :
    (([fdrM].map Feeder.idx).Nodup ∧ fdrM ∈ [fdrM] ∧
      conductorSpecs.find? (fun p => p.1 == fdrM.conductor) = none ∧
      busTieEdge rnd0 fdrM 1 ∈ (generateNetwork rnd0 [sub1] [fdrM] []).2) ∧
    trunkSpec fdrM.conductor = (1/4, 43/100, 400) ∧
    (((busTieEdge rnd0 fdrM 1).feederId = fdrM.idx →
        (busTieEdge rnd0 fdrM 1).ty.isLateral = false →
        (busTieEdge rnd0 fdrM 1).ty.isTie = false →
        (busTieEdge rnd0 fdrM 1).amps = 400) ∧
      ((busTieEdge rnd0 fdrM 1).ty.isTie = true →
        (busTieEdge rnd0 fdrM 1).fromId = NodeId.tail fdrM.idx →
        (busTieEdge rnd0 fdrM 1).amps = 400)) := by
  have hnd : (([fdrM].map Feeder.idx)).Nodup := by decide
  have hfm : fdrM ∈ [fdrM] := List.mem_cons_self _ _
  have hunk : conductorSpecs.find? (fun p => p.1 == fdrM.conductor) = none := by
    decide
  have hmem : busTieEdge rnd0 fdrM 1 ∈ (generateNetwork rnd0 [sub1] [fdrM] []).2 := by
    simp [generateNetwork, feederPass, tiePass, tieInner, busTieEdge, fdrM]
  have h := claim_c9_unknown_conductor_default rnd0 [sub1] [fdrM] [] fdrM
    hnd hfm hunk
  exact ⟨⟨hnd, hfm, hunk, hmem⟩, h.1, h.2 _ hmem⟩

/-- The grid-scaled squared tail distance the tie pass thresholds on. -/
def gridDsq (a b : Feeder) : ℚ :=
  ((a.tailLat - b.tailLat) / MILE_LAT) ^ 2 +
    ((a.tailLon - b.tailLon) / MILE_LON) ^ 2

theorem feederEdgeCase_not_tie {rnd : Rnd} {f : Feeder} {e : Edge}
    (h : FeederEdgeCase rnd f e) : e.ty.isTie = false := by
  rcases h with ⟨e0, rfl⟩ | ⟨idx, e0, prev, k, mile, rfl⟩ |
      ⟨idx, e0, nearest, t, rfl | rfl⟩ | ⟨e0, last, rfl⟩
  · simp [busTieEdge, EdgeType.isTie]
  · simp only [trunkEdgeOf]
    by_cases hoh : (rnd.jct f.idx idx).isOh = true <;>
      simp [hoh, EdgeType.isTie]
  · simp only [latEdgesOf]
    by_cases hoh : (rnd.lat f.idx idx).isOh = true <;>
      simp [hoh, EdgeType.isTie]
  · simp only [latEdgesOf]
    by_cases hoh : (rnd.lat f.idx idx).isOh = true <;>
      simp [hoh, EdgeType.isTie]
  · simp only [closingEdgeOf]
    by_cases hoh : rnd.closingIsOh f.idx = true <;>
      simp [hoh, EdgeType.isTie]

/-- C7 (confirmed).  For a two-feeder run at equal voltage with no
transformers, the tie pass creates exactly one tie switch node and two tie
edges when the grid-scaled tail distance is at most 1.5 miles (squared
distance at most 9/4), and nothing otherwise.  The square-root oracle is
assumed exact at the queried squared distance. -/
theorem claim_c7_tie_threshold (rnd : Rnd) (subs : List Substation)
    (a b : Feeder) (hv : a.vKv = b.vKv)
    (h0 : 0 ≤ rnd.sqrtq (gridDsq a b))
    (h1 : rnd.sqrtq (gridDsq a b) ^ 2 = gridDsq a b) :
    ((generateNetwork rnd subs [a, b] []).1.countP
        (fun n => n.ty == NodeType.tieSwitch) =
      if gridDsq a b ≤ 9/4 then 1 else 0) ∧
    ((generateNetwork rnd subs [a, b] []).2.countP
        (fun e => e.ty.isTie) =
      if gridDsq a b ≤ 9/4 then 2 else 0) := by
  have hvne : ¬(a.vKv ≠ b.vKv) := fun h => h hv
  have hnodes0 : ∀ m ∈ ([a, b].foldl (feederPass rnd [])
      { nodes := preNodes subs [a, b] [], edges := [], eNum := 0,
        jcts := [] } : St).nodes,
      ((m.ty == NodeType.tieSwitch) = false ∧ m.id ≠ NodeId.tie 1) := by
    intro m hm
    have hfold : ([a, b].foldl (feederPass rnd [])
        { nodes := preNodes subs [a, b] [], edges := [], eNum := 0,
          jcts := [] } : St).nodes = preNodes subs [a, b] [] := by
      simp only [List.foldl_cons, List.foldl_nil]
      rw [feederPass_nodes_empty rnd [] _ b rfl,
        feederPass_nodes_empty rnd [] _ a rfl]
    rw [hfold] at hm
    rcases preNodes_cases subs [a, b] [] m hm with
      ⟨s, _, rfl⟩ | ⟨f, _, rfl | rfl⟩ | ⟨t, ht, _⟩
    · exact ⟨by simp [subBusRow], by simp [subBusRow]⟩
    · exact ⟨by simp [headRow], by simp [headRow]⟩
    · exact ⟨by simp [tailRow], by simp [tailRow]⟩
    · simp at ht
  have hedges0 : ∀ e ∈ ([a, b].foldl (feederPass rnd [])
      { nodes := preNodes subs [a, b] [], edges := [], eNum := 0,
        jcts := [] } : St).edges, e.ty.isTie = false := by
    intro e he
    rcases foldl_feederPass_edges_cases rnd [] [a, b] _ e he with
      h2 | ⟨f, _, hc⟩
    · simp at h2
    · exact feederEdgeCase_not_tie hc
  have hpass1 : (generateNetwork rnd subs [a, b] []).1 =
      (tiePairStep rnd a b ([a, b].foldl (feederPass rnd [])
        { nodes := preNodes subs [a, b] [], edges := [], eNum := 0,
          jcts := [] }) 0).1.nodes := by
    rw [generateNetwork_nodes]
    simp only [tiePass, tieInner]
  have hpass2 : (generateNetwork rnd subs [a, b] []).2 =
      (tiePairStep rnd a b ([a, b].foldl (feederPass rnd [])
        { nodes := preNodes subs [a, b] [], edges := [], eNum := 0,
          jcts := [] }) 0).1.edges := by
    rw [generateNetwork_edges]
    simp only [tiePass, tieInner]
  by_cases hle : gridDsq a b ≤ 9/4
  · have hdist : ¬((1.5:ℚ) < rnd.sqrtq (gridDsq a b)) := by
      push_neg
      nlinarith [h0, h1, hle]
    simp only [gridDsq] at hdist
    constructor
    · rw [hpass1, if_pos hle]
      simp only [tiePairStep, if_neg hvne]
      rw [if_neg hdist]
      rw [addNode_fresh (fun m hm => by simpa using (hnodes0 m hm).2),
        List.countP_append,
        List.countP_eq_zero.mpr (fun m hm => by simp [(hnodes0 m hm).1])]
      simp [List.countP, List.countP.go]
    · rw [hpass2, if_pos hle]
      simp only [tiePairStep, if_neg hvne]
      rw [if_neg hdist]
      rw [List.countP_append,
        List.countP_eq_zero.mpr (fun e he => by simp [hedges0 e he])]
      simp [tieEdgesOf, EdgeType.isTie, List.countP, List.countP.go]
  · have h94 : 9/4 < gridDsq a b := not_le.mp hle
    have hdist : (1.5:ℚ) < rnd.sqrtq (gridDsq a b) := by
      nlinarith [h0, h1, h94]
    simp only [gridDsq] at hdist
    constructor
    · rw [hpass1, if_neg hle]
      simp only [tiePairStep, if_neg hvne]
      rw [if_pos hdist]
      exact List.countP_eq_zero.mpr (fun m hm => by simp [(hnodes0 m hm).1])
    · rw [hpass2, if_neg hle]
      simp only [tiePairStep, if_neg hvne]
      rw [if_pos hdist]
      exact List.countP_eq_zero.mpr (fun e he => by simp [hedges0 e he])

/-- A feeder whose tail is exactly two grid-miles north of fdrA's tail. -/
def fdrB2 : Feeder :=
  ⟨2, 1, 12.47, 33.4484, -112.074, 33.52898, -112.074, 4, "477 ACSR", 10⟩

theorem claim_c7_witness :
    (fdrA.vKv = fdrB.vKv ∧ 0 ≤ rndT.sqrtq (gridDsq fdrA fdrB) ∧
      rndT.sqrtq (gridDsq fdrA fdrB) ^ 2 = gridDsq fdrA fdrB ∧
      fdrA.vKv = fdrB2.vKv ∧ 0 ≤ rndT.sqrtq (gridDsq fdrA fdrB2) ∧
      rndT.sqrtq (gridDsq fdrA fdrB2) ^ 2 = gridDsq fdrA fdrB2) ∧
    ((generateNetwork rndT [sub1] [fdrA, fdrB] []).1.countP
        (fun n => n.ty == NodeType.tieSwitch) = 1 ∧
      (generateNetwork rndT [sub1] [fdrA, fdrB] []).2.countP
        (fun e => e.ty.isTie) = 2) ∧
    ((generateNetwork rndT [sub1] [fdrA, fdrB2] []).1.countP
        (fun n => n.ty == NodeType.tieSwitch) = 0 ∧
      (generateNetwork rndT [sub1] [fdrA, fdrB2] []).2.countP
        (fun e => e.ty.isTie) = 0) := by
  have hga : gridDsq fdrA fdrB = 1 := by
    norm_num [gridDsq, fdrA, fdrB, MILE_LAT, MILE_LON]
  have hgb : gridDsq fdrA fdrB2 = 4 := by
    norm_num [gridDsq, fdrA, fdrB2, MILE_LAT, MILE_LON]
  have hva : fdrA.vKv = fdrB.vKv := rfl
  have hvb : fdrA.vKv = fdrB2.vKv := rfl
  have h0a : 0 ≤ rndT.sqrtq (gridDsq fdrA fdrB) := by
    rw [hga]; norm_num [rndT]
  have h1a : rndT.sqrtq (gridDsq fdrA fdrB) ^ 2 = gridDsq fdrA fdrB := by
    rw [hga]; norm_num [rndT]
  have h0b : 0 ≤ rndT.sqrtq (gridDsq fdrA fdrB2) := by
    rw [hgb]; norm_num [rndT]
  have h1b : rndT.sqrtq (gridDsq fdrA fdrB2) ^ 2 = gridDsq fdrA fdrB2 := by
    rw [hgb]; norm_num [rndT]
  have H1 := claim_c7_tie_threshold rndT [sub1] fdrA fdrB hva h0a h1a
  have H2 := claim_c7_tie_threshold rndT [sub1] fdrA fdrB2 hvb h0b h1b
  have hle1 : gridDsq fdrA fdrB ≤ 9/4 := by rw [hga]; norm_num
  have hle2 : ¬(gridDsq fdrA fdrB2 ≤ 9/4) := by rw [hgb]; norm_num
  refine ⟨⟨hva, h0a, h1a, hvb, h0b, h1b⟩, ⟨?_, ?_⟩, ⟨?_, ?_⟩⟩
  · have := H1.1; rwa [if_pos hle1] at this
  · have := H1.2; rwa [if_pos hle1] at this
  · have := H2.1; rwa [if_neg hle2] at this
  · have := H2.2; rwa [if_neg hle2] at this

/-! ## C6 infrastructure: incidence to a tie-switch node -/

/-- The edge touches the tie-switch node number k. -/
def tieIncident (k : ℕ) (e : Edge) : Bool :=
  e.fromId == NodeId.tie k || e.toId == NodeId.tie k

/-- Neither endpoint of the edge is a tie-switch id. -/
def noTieRef (e : Edge) : Prop :=
  ∀ j, e.fromId ≠ NodeId.tie j ∧ e.toId ≠ NodeId.tie j

theorem noTieRef_incident {e : Edge} (h : noTieRef e) (k : ℕ) :
    tieIncident k e = false := by
  rcases h k with ⟨h1, h2⟩
  simp [tieIncident, beq_iff_eq, h1, h2]

theorem busTieEdge_noTieRef (rnd : Rnd) (f : Feeder) (e0 : ℕ) :
    noTieRef (busTieEdge rnd f e0) := by
  intro j
  constructor <;> simp [busTieEdge]

theorem trunkPart_noTieRef (rnd : Rnd) (f : Feeder) (n : ℕ) (st : St)
    (idx : ℕ) (h : ∀ e ∈ st.edges, noTieRef e) :
    ∀ e ∈ (trunkPart rnd f n st idx).edges, noTieRef e := by
  intro e he
  by_cases hc : idx % trunkSpacing n = 0
  · simp only [trunkPart, if_pos hc] at he
    rcases List.mem_append.mp he with hm | hm
    · exact h e hm
    · simp only [List.mem_singleton] at hm
      subst hm
      intro j
      cases hj : st.jcts <;> constructor <;> simp [trunkEdgeOf, hj]
  · simp only [trunkPart, if_neg hc] at he
    exact h e he

theorem latPart_noTieRef (rnd : Rnd) (f : Feeder) (st : St) (idx : ℕ)
    (t : Transformer) (h : ∀ e ∈ st.edges, noTieRef e) :
    ∀ e ∈ (latPart rnd f st idx t).edges, noTieRef e := by
  intro e he
  cases hj : st.jcts with
  | nil =>
      simp only [latPart, hj] at he
      exact h e he
  | cons nearest rest =>
      simp only [latPart, hj] at he
      rcases List.mem_append.mp he with hm | hm
      · exact h e hm
      · simp only [List.mem_cons, List.mem_singleton] at hm
        rcases hm with rfl | rfl | hfalse
        · intro j
          constructor <;> simp [latEdgesOf]
        · intro j
          constructor <;> simp [latEdgesOf]
        · simp at hfalse

theorem xfmrStep_noTieRef (rnd : Rnd) (f : Feeder) (n : ℕ) (st : St)
    (idx : ℕ) (t : Transformer) (h : ∀ e ∈ st.edges, noTieRef e) :
    ∀ e ∈ (xfmrStep rnd f n st idx t).edges, noTieRef e := by
  intro e he
  exact latPart_noTieRef rnd f _ idx t
    (trunkPart_noTieRef rnd f n st idx h) e he

theorem xfmrLoop_noTieRef (rnd : Rnd) (f : Feeder) (n : ℕ)
    (rem : List Transformer) :
    ∀ (idx : ℕ) (st : St), (∀ e ∈ st.edges, noTieRef e) →
      ∀ e ∈ (xfmrLoop rnd f n idx rem st).edges, noTieRef e := by
  induction rem with
  | nil => intro idx st h e he; exact h e he
  | cons t rest ih =>
      intro idx st h e he
      simp only [xfmrLoop] at he
      exact ih (idx + 1) _ (xfmrStep_noTieRef rnd f n st idx t h) e he

theorem closingStep_noTieRef (rnd : Rnd) (f : Feeder) (st : St)
    (h : ∀ e ∈ st.edges, noTieRef e) :
    ∀ e ∈ (closingStep rnd f st).edges, noTieRef e := by
  intro e he
  cases hj : st.jcts with
  | nil =>
      simp only [closingStep, hj] at he
      exact h e he
  | cons last rest =>
      simp only [closingStep, hj] at he
      rcases List.mem_append.mp he with hm | hm
      · exact h e hm
      · simp only [List.mem_singleton] at hm
        subst hm
        intro j
        constructor <;> simp [closingEdgeOf]

theorem feederPass_noTieRef (rnd : Rnd) (xfmrs : List Transformer) (st : St)
    (f : Feeder) (h : ∀ e ∈ st.edges, noTieRef e) :
    ∀ e ∈ (feederPass rnd xfmrs st f).edges, noTieRef e := by
  intro e he
  simp only [feederPass] at he
  have hbt : ∀ e1 ∈ st.edges ++ [busTieEdge rnd f (st.eNum + 1)],
      noTieRef e1 := by
    intro e1 he1
    rcases List.mem_append.mp he1 with hm | hm
    · exact h e1 hm
    · simp only [List.mem_singleton] at hm
      subst hm
      exact busTieEdge_noTieRef rnd f _
  split_ifs at he with hc
  · exact hbt e he
  · exact closingStep_noTieRef rnd f _
      (xfmrLoop_noTieRef rnd f _ _ 0 _ hbt) e he

theorem foldl_feederPass_noTieRef (rnd : Rnd) (xfmrs : List Transformer)
    (fs : List Feeder) :
    ∀ (st : St), (∀ e ∈ st.edges, noTieRef e) →
      ∀ e ∈ (fs.foldl (feederPass rnd xfmrs) st).edges, noTieRef e := by
  induction fs with
  | nil => intro st h e he; exact h e he
  | cons f rest ih =>
      intro st h e he
      simp only [List.foldl_cons] at he
      exact ih _ (feederPass_noTieRef rnd xfmrs st f h) e he

/-- The two edges of tie pair k are not incident to any other tie node. -/
theorem tieIncident_tieEdge_ne (a b : Feeder) (eN k j : ℕ) (d : ℚ)
    (h : ¬(k = j)) :
    tieIncident j (tieEdgesOf a b eN k d).1 = false ∧
    tieIncident j (tieEdgesOf a b eN k d).2 = false := by
  constructor <;> simp [tieIncident, tieEdgesOf, beq_iff_eq, h]

/-- The two edges of tie pair k are incident to tie node k. -/
theorem tieIncident_tieEdge_eq (a b : Feeder) (eN k : ℕ) (d : ℚ) :
    tieIncident k (tieEdgesOf a b eN k d).1 = true ∧
    tieIncident k (tieEdgesOf a b eN k d).2 = true := by
  constructor <;> simp [tieIncident, tieEdgesOf]

/-- Invariant of the tie pass: every tie-switch node so far is numbered in
[1, tn], each tie number's incident edges are exactly its pair's two tie
edges (built from two distinct same-voltage feeders), and no edge refers to
a not-yet-allocated tie number. -/
structure TieInv (feeders : List Feeder) (st : St) (tn : ℕ) : Prop where
  nodesTie : ∀ m ∈ st.nodes, m.ty = NodeType.tieSwitch →
    ∃ k, 1 ≤ k ∧ k ≤ tn ∧ m.id = NodeId.tie k
  pair : ∀ k, 1 ≤ k → k ≤ tn →
    ∃ a ∈ feeders, ∃ b ∈ feeders, ∃ eN d,
      a.idx ≠ b.idx ∧ a.vKv = b.vKv ∧
      st.edges.filter (tieIncident k)
        = [(tieEdgesOf a b eN k d).1, (tieEdgesOf a b eN k d).2]
  future : ∀ e ∈ st.edges, ∀ k, tn < k → tieIncident k e = false

theorem tiePairStep_tieInv (rnd : Rnd) (feeders : List Feeder)
    (a b : Feeder) (st : St) (tn : ℕ) (ha : a ∈ feeders) (hb : b ∈ feeders)
    (hab : a.idx ≠ b.idx) (inv : TieInv feeders st tn) :
    TieInv feeders (tiePairStep rnd a b st tn).1
      (tiePairStep rnd a b st tn).2 := by
  by_cases hv : a.vKv ≠ b.vKv
  · simpa [tiePairStep, if_pos hv] using inv
  · by_cases hd : (1.5:ℚ) < rnd.sqrtq
        (((a.tailLat - b.tailLat) / MILE_LAT) ^ 2 +
          ((a.tailLon - b.tailLon) / MILE_LON) ^ 2)
    · simpa [tiePairStep, if_neg hv, if_pos hd] using inv
    · have hveq : a.vKv = b.vKv := not_ne_iff.mp hv
      simp only [tiePairStep, if_neg hv, if_neg hd]
      constructor
      · intro m hm hty
        rcases addNode_mem hm with h1 | rfl
        · obtain ⟨k, hk1, hk2, hid⟩ := inv.nodesTie m h1 hty
          exact ⟨k, hk1, by omega, hid⟩
        · exact ⟨tn + 1, by omega, le_refl _, rfl⟩
      · intro k hk1 hk2
        by_cases hke : k = tn + 1
        · subst hke
          refine ⟨a, ha, b, hb, st.eNum + 1, rnd.sqrtq
            (((a.tailLat - b.tailLat) / MILE_LAT) ^ 2 +
              ((a.tailLon - b.tailLon) / MILE_LON) ^ 2), hab, hveq, ?_⟩
          rw [List.filter_append,
            List.filter_eq_nil_iff.mpr (fun e he => by
              simp [inv.future e he (tn + 1) (Nat.lt_succ_self tn)])]
          rw [List.nil_append, List.filter_cons,
            if_pos (tieIncident_tieEdge_eq a b (st.eNum + 1) (tn + 1) _).1,
            List.filter_cons,
            if_pos (tieIncident_tieEdge_eq a b (st.eNum + 1) (tn + 1) _).2,
            List.filter_nil]
        · have hkle : k ≤ tn := by omega
          obtain ⟨a1, ha1, b1, hb1, eN, d, hne, hvv, hfil⟩ :=
            inv.pair k hk1 hkle
          refine ⟨a1, ha1, b1, hb1, eN, d, hne, hvv, ?_⟩
          rw [List.filter_append, hfil, List.filter_cons,
            if_neg (by
              rw [(tieIncident_tieEdge_ne a b (st.eNum + 1) (tn + 1) k _
                (fun h => hke h.symm)).1]
              simp),
            List.filter_cons,
            if_neg (by
              rw [(tieIncident_tieEdge_ne a b (st.eNum + 1) (tn + 1) k _
                (fun h => hke h.symm)).2]
              simp),
            List.filter_nil, List.append_nil]
      · intro e he k hk
        rcases List.mem_append.mp he with hm | hm
        · exact inv.future e hm k (by omega)
        · simp only [List.mem_cons, List.mem_singleton] at hm
          rcases hm with rfl | rfl | hfalse
          · exact (tieIncident_tieEdge_ne a b _ _ _ _ (by omega)).1
          · exact (tieIncident_tieEdge_ne a b _ _ _ _ (by omega)).2
          · simp at hfalse

theorem tieInner_tieInv (rnd : Rnd) (feeders : List Feeder) (a : Feeder)
    (ha : a ∈ feeders) :
    ∀ (bs : List Feeder), (∀ b ∈ bs, b ∈ feeders ∧ a.idx ≠ b.idx) →
    ∀ (st : St) (tn : ℕ), TieInv feeders st tn →
      TieInv feeders (tieInner rnd a bs st tn).1
        (tieInner rnd a bs st tn).2 := by
  intro bs
  induction bs with
  | nil => intro _ st tn inv; exact inv
  | cons b rest ih =>
      intro hbs st tn inv
      simp only [tieInner]
      exact ih (fun b1 h1 => hbs b1 (List.mem_cons_of_mem _ h1)) _ _
        (tiePairStep_tieInv rnd feeders a b st tn ha
          (hbs b (List.mem_cons_self _ _)).1
          (hbs b (List.mem_cons_self _ _)).2 inv)

theorem tiePass_tieInv (rnd : Rnd) (feeders : List Feeder) :
    ∀ (fs : List Feeder), (∀ f ∈ fs, f ∈ feeders) →
    (fs.map Feeder.idx).Nodup →
    ∀ (st : St) (tn : ℕ), TieInv feeders st tn →
      TieInv feeders (tiePass rnd fs st tn).1 (tiePass rnd fs st tn).2 := by
  intro fs
  induction fs with
  | nil => intro _ _ st tn inv; exact inv
  | cons a rest ih =>
      intro hsub hnd st tn inv
      have hnd' : a.idx ∉ rest.map Feeder.idx ∧
          (rest.map Feeder.idx).Nodup := by
        simpa using hnd
      simp only [tiePass]
      refine ih (fun f hf => hsub f (List.mem_cons_of_mem _ hf)) hnd'.2 _ _
        (tieInner_tieInv rnd feeders a (hsub a (List.mem_cons_self _ _))
          rest (fun b hbm => ⟨hsub b (List.mem_cons_of_mem _ hbm), ?_⟩)
          st tn inv)
      intro heq
      exact hnd'.1 (List.mem_map.mpr ⟨b, hbm, heq.symm⟩)

/-- Before the tie pass: no tie-switch nodes, no tie numbers allocated, no
edge touching a tie id. -/
theorem tieInv_init (rnd : Rnd) (subs : List Substation)
    (feeders : List Feeder) (xfmrs : List Transformer) :
    TieInv feeders (feeders.foldl (feederPass rnd xfmrs)
      { nodes := preNodes subs feeders xfmrs, edges := [], eNum := 0,
        jcts := [] }) 0 := by
  have hp : ∀ f1 ∈ feeders, ∀ m : Node,
      (m.ty = .junction ∨ m.ty = .protectiveDevice) →
      m.feederId = some f1.idx →
      (fun n => n.ty == NodeType.tieSwitch) m = false := by
    intro f1 _ m hty _
    rcases hty with h | h <;> simp [h]
  have hcount : ((feeders.foldl (feederPass rnd xfmrs)
      { nodes := preNodes subs feeders xfmrs, edges := [], eNum := 0,
        jcts := [] } : St).nodes).countP
        (fun n => n.ty == NodeType.tieSwitch) = 0 := by
    rw [foldl_feederPass_nodes_countP _ rnd xfmrs feeders _ hp]
    refine List.countP_eq_zero.mpr ?_
    intro m hm
    rcases preNodes_cases subs feeders xfmrs m hm with
      ⟨s, _, rfl⟩ | ⟨f, _, rfl | rfl⟩ | ⟨t, _, rfl⟩
    · simp [subBusRow]
    · simp [headRow]
    · simp [tailRow]
    · simp [xfmrRow]
  constructor
  · intro m hm hty
    exfalso
    have := List.countP_eq_zero.mp hcount m hm
    simp [hty] at this
  · intro k hk1 hk2
    omega
  · intro e he k _
    exact noTieRef_incident
      (foldl_feederPass_noTieRef rnd xfmrs feeders _ (by simp) e he) k

/-- C6 (confirmed).  Every tie-switch node is numbered, and the edges
incident to it are exactly the two tie edges of its pair: tail of feeder a →
tie switch → tail of feeder b, with distinct feeder ids, equal nominal
voltages, tie edge type, and status open on both. -/
theorem claim_c6_tie_switch_pairs (rnd : Rnd) (subs : List Substation)
    (feeders : List Feeder) (xfmrs : List Transformer)
    (hnd : (feeders.map Feeder.idx).Nodup) :
    ∀ n ∈ (generateNetwork rnd subs feeders xfmrs).1,
      n.ty = NodeType.tieSwitch →
      ∃ k, n.id = NodeId.tie k ∧
      ∃ a ∈ feeders, ∃ b ∈ feeders,
        a.idx ≠ b.idx ∧ a.vKv = b.vKv ∧
        ∃ e1 e2,
          (generateNetwork rnd subs feeders xfmrs).2.filter (tieIncident k)
            = [e1, e2] ∧
          e1.ty = EdgeType.tie ∧ e2.ty = EdgeType.tie ∧
          e1.status = "open" ∧ e2.status = "open" ∧
          e1.feederId = a.idx ∧ e2.feederId = b.idx ∧
          e1.vKv = a.vKv ∧ e2.vKv = b.vKv ∧
          e1.fromId = NodeId.tail a.idx ∧ e1.toId = NodeId.tie k ∧
          e2.fromId = NodeId.tie k ∧ e2.toId = NodeId.tail b.idx := by
  intro n hn hty
  have invF := tiePass_tieInv rnd feeders feeders (fun f hf => hf) hnd
    (feeders.foldl (feederPass rnd xfmrs)
      { nodes := preNodes subs feeders xfmrs, edges := [], eNum := 0,
        jcts := [] }) 0 (tieInv_init rnd subs feeders xfmrs)
  rw [generateNetwork_nodes] at hn
  obtain ⟨k, hk1, hk2, hid⟩ := invF.nodesTie n hn hty
  obtain ⟨a, ha, b, hb, eN, d, hab, hv, hfil⟩ := invF.pair k hk1 hk2
  refine ⟨k, hid, a, ha, b, hb, hab, hv,
    (tieEdgesOf a b eN k d).1, (tieEdgesOf a b eN k d).2, ?_,
    ?_, ?_, ?_, ?_, ?_, ?_, ?_, ?_, ?_, ?_, ?_, ?_⟩
  · rw [generateNetwork_edges]
    exact hfil
  all_goals simp [tieEdgesOf]

/-- The tie-switch node of the one-grid-mile pair (fdrA, fdrB). -/
def tieNodeW : Node :=
  ⟨.tie 1, .tieSwitch, 1, some 1, 33.507245, -112.074, 12.47, "tie_switch",
    "open"⟩

theorem claim_c6_witness :
    (([fdrA, fdrB].map Feeder.idx).Nodup ∧
      tieNodeW ∈ (generateNetwork rndT [sub1] [fdrA, fdrB] []).1 ∧
      tieNodeW.ty = NodeType.tieSwitch) ∧
    (∃ k, tieNodeW.id = NodeId.tie k ∧
      ∃ a ∈ [fdrA, fdrB], ∃ b ∈ [fdrA, fdrB],
        a.idx ≠ b.idx ∧ a.vKv = b.vKv ∧
        ∃ e1 e2,
          (generateNetwork rndT [sub1] [fdrA, fdrB] []).2.filter
            (tieIncident k) = [e1, e2] ∧
          e1.ty = EdgeType.tie ∧ e2.ty = EdgeType.tie ∧
          e1.status = "open" ∧ e2.status = "open" ∧
          e1.feederId = a.idx ∧ e2.feederId = b.idx ∧
          e1.vKv = a.vKv ∧ e2.vKv = b.vKv ∧
          e1.fromId = NodeId.tail a.idx ∧ e1.toId = NodeId.tie k ∧
          e2.fromId = NodeId.tie k ∧ e2.toId = NodeId.tail b.idx) := by
  have hnd : (([fdrA, fdrB].map Feeder.idx)).Nodup := by decide
  have hty : tieNodeW.ty = NodeType.tieSwitch := rfl
  have hmem : tieNodeW ∈ (generateNetwork rndT [sub1] [fdrA, fdrB] []).1 := by
    norm_num [generateNetwork, preNodes, feederPass, tiePass, tieInner,
      tiePairStep, tieEdgesOf, addNode, busTieEdge, subBusRow, headRow,
      tailRow, rndT, fdrA, fdrB, sub1, MILE_LAT, MILE_LON, pyRound, rhe,
      tieNodeW]
    simp
  exact ⟨⟨hnd, hmem, hty⟩,
    claim_c6_tie_switch_pairs rndT [sub1] [fdrA, fdrB] [] hnd tieNodeW
      hmem hty⟩

/-! ## C4: feeder geometry (generate_substations / generate_feeders) -/

theorem pyRound_le_int_div (q : ℚ) (nd : ℕ) (z : ℤ)
    (h : q ≤ (z : ℚ) / 10 ^ nd) : pyRound q nd ≤ (z : ℚ) / 10 ^ nd := by
  have hpow : (0 : ℚ) < 10 ^ nd := by positivity
  have hz : q * 10 ^ nd ≤ (z : ℚ) := by
    rw [le_div_iff hpow] at h
    linarith
  have := rhe_int_ge z (q * 10 ^ nd) hz
  rw [pyRound]
  gcongr

/-- The four street directions of generate_feeders. -/
inductive Dir
  | north
  | south
  | east
  | west
deriving DecidableEq, Repr

/-- grid_coord: grid miles to rounded (lat, lon). -/
def gridCoord (milesN milesE : ℚ) : ℚ × ℚ :=
  (pyRound (ORIGIN_LAT + milesN * MILE_LAT) 6,
   pyRound (ORIGIN_LON + milesE * MILE_LON) 6)

/-- along_street: move a distance in a cardinal direction. -/
def alongStreet (lat lon : ℚ) (d : Dir) (dist : ℚ) : ℚ × ℚ :=
  match d with
  | .north => (pyRound (lat + dist * MILE_LAT) 6, lon)
  | .south => (pyRound (lat - dist * MILE_LAT) 6, lon)
  | .east => (lat, pyRound (lon + dist * MILE_LON) 6)
  | .west => (lat, pyRound (lon - dist * MILE_LON) 6)

/-- SUBSTATION_DEFS, reduced to the (miles_north, miles_east) grid data. -/
def SUBSTATION_DEFS : List (ℚ × ℚ) :=
  [(5.5, -4), (4.5, 0), (5.5, 3), (3, -1), (2, 4), (7.5, -5), (6.5, 2),
   (4.5, 5), (2, -2), (3, 6), (-6, 0), (-3, 1), (2, 7), (-6, 3),
   (9.5, -4)]

/-- The random draws generate_feeders consumes: feeders per substation,
the shuffled direction list, and the raw uniform(2.0, 8.0) length draw. -/
structure FeederRnd where
  nFeeders : ℕ → ℕ
  dirs : ℕ → List Dir
  lenDraw : ℕ → ℕ → ℚ

/-- The support of those draws: randint(3, 6), a shuffle of the four
directions, uniform(2.0, 8.0). -/
def FeederRndOK (r : FeederRnd) : Prop :=
  ∀ i, (3 ≤ r.nFeeders i ∧ r.nFeeders i ≤ 6) ∧
    (r.dirs i).Perm [Dir.north, Dir.south, Dir.east, Dir.west] ∧
    ∀ j, 2 ≤ r.lenDraw i j ∧ r.lenDraw i j ≤ 8

/-- The substation points (grid_coord of each SUBSTATION_DEFS entry). -/
def genSubPoints : List (ℚ × ℚ) :=
  SUBSTATION_DEFS.map (fun p => gridCoord p.1 p.2)

/-- generate_feeders, reduced to its geometry: per substation i and feeder
j, the head point (the substation point) and the tail point (along_street
in direction dirs[j % 4] by the rounded length draw). -/
def generateFeedersGeo (r : FeederRnd) : List ((ℚ × ℚ) × (ℚ × ℚ)) :=
  (List.range SUBSTATION_DEFS.length).flatMap (fun i =>
    let p := SUBSTATION_DEFS.getD i (0, 0)
    let s := gridCoord p.1 p.2
    (List.range (r.nFeeders i)).map (fun j =>
      (s, alongStreet s.1 s.2 ((r.dirs i).getD (j % 4) Dir.north)
        (pyRound (r.lenDraw i j) 1))))

/-- The configured geographic bounding region of the validator. -/
def inBounds (p : ℚ × ℚ) : Prop :=
  33.2 ≤ p.1 ∧ p.1 ≤ 33.7 ∧ -112.3 ≤ p.2 ∧ p.2 ≤ -111.85

/-- Concrete range of the fifteen substation points. -/
theorem subDefs_range : ∀ p ∈ SUBSTATION_DEFS,
    33.36146 ≤ (gridCoord p.1 p.2).1 ∧ (gridCoord p.1 p.2).1 ≤ 33.586055 ∧
    -112.16085 ≤ (gridCoord p.1 p.2).2 ∧
    (gridCoord p.1 p.2).2 ≤ -111.95241 := by
  intro p hp
  fin_cases hp <;>
    norm_num [gridCoord, pyRound, rhe, MILE_LAT, MILE_LON, ORIGIN_LAT,
      ORIGIN_LON]

/-- C4 (amended).  Substation points and feeder head points always lie in
the configured bounding region; feeder tail points always lie in the
slightly larger box lat ∈ [33.2, 33.701975], lon ∈ [-112.3, -111.81345].
The configured north bound 33.7 and east bound -111.85 CAN be exceeded by
tails (by up to 8 street-miles from the extreme substations), so the
original all-points claim fails. -/
theorem claim_c4_generated_points_bounds (r : FeederRnd)
    (hok : FeederRndOK r) :
    (∀ p ∈ genSubPoints, inBounds p) ∧
    ∀ q ∈ generateFeedersGeo r,
      inBounds q.1 ∧
      33.2 ≤ q.2.1 ∧ q.2.1 ≤ 33.701975 ∧
      -112.3 ≤ q.2.2 ∧ q.2.2 ≤ -111.81345 := by
  have hsub : ∀ p ∈ SUBSTATION_DEFS, inBounds (gridCoord p.1 p.2) := by
    intro p hp
    obtain ⟨h1, h2, h3, h4⟩ := subDefs_range p hp
    exact ⟨by linarith, by linarith, by linarith, by linarith⟩
  constructor
  · intro p hp
    rcases List.mem_map.mp hp with ⟨pd, hpd, rfl⟩
    exact hsub pd hpd
  · intro q hq
    rcases List.mem_flatMap.mp hq with ⟨i, hi, hq2⟩
    rcases List.mem_map.mp hq2 with ⟨j, hj, rfl⟩
    have hilen : i < SUBSTATION_DEFS.length := List.mem_range.mp hi
    have hpmem : SUBSTATION_DEFS.getD i (0, 0) ∈ SUBSTATION_DEFS := by
      rw [List.getD_eq_getElem SUBSTATION_DEFS (0, 0) hilen]
      exact List.getElem_mem hilen
    obtain ⟨hs1, hs2, hs3, hs4⟩ := subDefs_range _ hpmem
    obtain ⟨-, -, hlen⟩ := hok i
    obtain ⟨hl2, hl8⟩ := hlen j
    have hL2 : (2:ℚ) ≤ pyRound (r.lenDraw i j) 1 := by
      have h := pyRound_ge_int_div (r.lenDraw i j) 1 20
        (by norm_num; linarith)
      norm_num at h
      exact h
    have hL8 : pyRound (r.lenDraw i j) 1 ≤ 8 := by
      have h := pyRound_le_int_div (r.lenDraw i j) 1 80
        (by norm_num; linarith)
      norm_num at h
      exact h
    set s : ℚ × ℚ := gridCoord (SUBSTATION_DEFS.getD i (0, 0)).1
      (SUBSTATION_DEFS.getD i (0, 0)).2 with hsdef
    refine ⟨hsub _ hpmem, ?_⟩
    cases hd : (List.getD (r.dirs i) (j % 4) Dir.north) <;>
      simp only [alongStreet]
    · refine ⟨?_, ?_, by linarith, by linarith⟩
      · exact le_trans (by norm_num)
          (pyRound_ge_int_div (s.1 + pyRound (r.lenDraw i j) 1 * MILE_LAT) 6
            33200000 (by norm_num [MILE_LAT]; nlinarith [hs1, hL2]))
      · exact le_trans
          (pyRound_le_int_div (s.1 + pyRound (r.lenDraw i j) 1 * MILE_LAT) 6
            33701975 (by norm_num [MILE_LAT]; nlinarith [hs2, hL8]))
          (by norm_num)
    · refine ⟨?_, ?_, by linarith, by linarith⟩
      · exact le_trans (by norm_num)
          (pyRound_ge_int_div (s.1 - pyRound (r.lenDraw i j) 1 * MILE_LAT) 6
            33200000 (by norm_num [MILE_LAT]; nlinarith [hs1, hL8]))
      · exact le_trans
          (pyRound_le_int_div (s.1 - pyRound (r.lenDraw i j) 1 * MILE_LAT) 6
            33701975 (by norm_num [MILE_LAT]; nlinarith [hs2, hL2]))
          (by norm_num)
    · refine ⟨by linarith, by linarith, ?_, ?_⟩
      · exact le_trans (by norm_num)
          (pyRound_ge_int_div (s.2 + pyRound (r.lenDraw i j) 1 * MILE_LON) 6
            (-112300000) (by norm_num [MILE_LON]; nlinarith [hs3, hL2]))
      · exact le_trans
          (pyRound_le_int_div (s.2 + pyRound (r.lenDraw i j) 1 * MILE_LON) 6
            (-111813450) (by norm_num [MILE_LON]; nlinarith [hs4, hL8]))
          (by norm_num)
    · refine ⟨by linarith, by linarith, ?_, ?_⟩
      · exact le_trans (by norm_num)
          (pyRound_ge_int_div (s.2 - pyRound (r.lenDraw i j) 1 * MILE_LON) 6
            (-112300000) (by norm_num [MILE_LON]; nlinarith [hs3, hL8]))
      · exact le_trans
          (pyRound_le_int_div (s.2 - pyRound (r.lenDraw i j) 1 * MILE_LON) 6
            (-111813450) (by norm_num [MILE_LON]; nlinarith [hs4, hL2]))
          (by norm_num)

/-- A legal draw: 3 feeders per substation, directions in definition order,
every raw length draw 7.9 miles. -/
def rFC : FeederRnd :=
  { nFeeders := fun _ => 3
    dirs := fun _ => [Dir.north, Dir.south, Dir.east, Dir.west]
    lenDraw := fun _ _ => 7.9 }

theorem rFC_ok : FeederRndOK rFC := by
  intro i
  exact ⟨⟨by norm_num [rFC], by norm_num [rFC]⟩, List.Perm.refl _,
    fun j => ⟨by norm_num [rFC], by norm_num [rFC]⟩⟩

/-- Counterexample to C4 as stated: from the Ocotillo substation (9.5 grid
miles north of the origin), a legal 7.9-mile feeder heading north ends at
latitude 33.700526 — outside the configured bound 33.7. -/
theorem claim_c4_counterexample :
    FeederRndOK rFC ∧
    ∃ q ∈ generateFeedersGeo rFC, ¬(q.2.1 ≤ 33.7) := by
  refine ⟨rFC_ok, ⟨(gridCoord 9.5 (-4), ((33.700526 : ℚ),
    (gridCoord 9.5 (-4)).2)), ?_, by norm_num⟩⟩
  refine List.mem_flatMap.mpr ⟨14, ?_, ?_⟩
  · simp [SUBSTATION_DEFS]
  · refine List.mem_map.mpr ⟨0, by simp [rFC], ?_⟩
    norm_num [rFC, SUBSTATION_DEFS, gridCoord, alongStreet, pyRound, rhe,
      MILE_LAT, MILE_LON, ORIGIN_LAT, ORIGIN_LON, Prod.ext_iff,
      List.getD_cons_zero, List.getD_cons_succ]

theorem claim_c4_witness :
    FeederRndOK rFC ∧
    ((∀ p ∈ genSubPoints, inBounds p) ∧
      ∀ q ∈ generateFeedersGeo rFC,
        inBounds q.1 ∧
        33.2 ≤ q.2.1 ∧ q.2.1 ≤ 33.701975 ∧
        -112.3 ≤ q.2.2 ∧ q.2.2 ≤ -111.81345) :=
  ⟨rFC_ok, claim_c4_generated_points_bounds rFC rFC_ok⟩

end DNM
